import Mathlib

set_option maxHeartbeats 1000000

/- Shallow embedding of the skip list of this repository
   (src/skiplist.hpp; the variant src/unnamed/part_000 differs only in the
   traversal loop shape and the erase(iterator) return type).
   Nodes live in an arena keyed by Nat ids modelling pointer identity;
   `none` models a null pointer.  Operations return `Option`: `none` models a
   fault (failed assertion, dereference of null or of a deleted node, or fuel
   exhaustion of a loop); reachable states never fault, as proved below. -/

/-- kMaxHeight from the source. -/
def kMaxHeight : Nat := 20

/-- Node: key/value pair, immutable height, one forward pointer per level the
node participates in, and one backward pointer. -/
structure SNode where
  key : Int
  val : Int
  height : Nat
  forwards : List (Option Nat)
  backward : Option Nat
deriving DecidableEq, Repr

/-- Arena lookup by node id (pointer dereference). -/
def lkp : List (Nat × SNode) → Nat → Option SNode
  | [], _ => none
  | e :: t, i => if e.1 = i then some e.2 else lkp t i

/-- In-place mutation of one node (field assignment through a pointer). -/
def updAt (hp : List (Nat × SNode)) (x : Nat) (f : SNode → SNode) : List (Nat × SNode) :=
  hp.map (fun e => if e.1 = x then (e.1, f e.2) else e)

/-- Removal of one node from the arena (operator delete). -/
def delAt (hp : List (Nat × SNode)) (x : Nat) : List (Nat × SNode) :=
  hp.filter (fun e => decide (e.1 ≠ x))

/-- Container state: arena, the two sentinel ids, the size counter, and the
allocation counter (fresh addresses; the source never reuses a modelled id). -/
structure SL where
  heap : List (Nat × SNode)
  headId : Nat
  tailId : Nat
  size : Nat
  nextId : Nat
deriving DecidableEq, Repr

/-- Total view of a node (meaningful only where `lkp` succeeds). -/
def ndOf (s : SL) (x : Nat) : SNode := (lkp s.heap x).getD ⟨0, 0, 0, [], none⟩

def keyOf (s : SL) (x : Nat) : Int := (ndOf s x).key

def hgtOf (s : SL) (x : Nat) : Nat := (ndOf s x).height

/-- `p->forward(i)` and `p->forwards_[i]`: fault when `p` dangles or `i` is out
of range (the assert in forward(), undefined behaviour for operator[]). -/
def fwdF (s : SL) (x i : Nat) : Option (Option Nat) :=
  match lkp s.heap x with
  | none => none
  | some n => n.forwards.get? i

/-- `p->set_forward(i, v)` (asserts `i < forwards_.size()`). -/
def setF (s : SL) (x i : Nat) (v : Option Nat) : Option SL :=
  match lkp s.heap x with
  | none => none
  | some n =>
    if i < n.forwards.length then
      some { s with heap := updAt s.heap x (fun m => { m with forwards := m.forwards.set i v }) }
    else none

/-- `p->set_backward(v)`. -/
def setB (s : SL) (x : Nat) (v : Option Nat) : Option SL :=
  match lkp s.heap x with
  | none => none
  | some _ => some { s with heap := updAt s.heap x (fun m => { m with backward := v }) }

/-- The freshly constructed container (skiplist::skiplist(), hpp lines 238-254):
head and tail sentinels of height kMaxHeight holding default-constructed pairs,
head->forward(i) = tail and tail->forward(i) = null for every i,
head->backward = null, tail->backward = head, size 0. -/
def initSL : SL :=
  { heap := [(0, ⟨0, 0, 20, List.replicate 20 (some 1), none⟩),
             (1, ⟨0, 0, 20, List.replicate 20 none, some 0⟩)],
    headId := 0, tailId := 1, size := 0, nextId := 2 }

/-- One level of find_greater_or_equal (hpp): advance while the next node is
not tail and its key is < k; returns the final position at this level. -/
def fgeLevel (s : SL) (k : Int) : Nat → Nat → Nat → Option Nat
  | 0, _, _ => none
  | fuel+1, p, i =>
    match fwdF s p i with
    | none => none
    | some none => none
    | some (some q) =>
      if q = s.tailId then some p
      else
        match lkp s.heap q with
        | none => none
        | some nq => if nq.key < k then fgeLevel s k fuel q i else some p

/-- The level loop of find_greater_or_equal (hpp): for i from the top level
down to 0, run the level walk and record prevs[i]. -/
def fgeFor (s : SL) (k : Int) (fuel : Nat) :
    Nat → Nat → List (Option Nat) → Option (Nat × List (Option Nat))
  | 0, p, prevs =>
    match fgeLevel s k fuel p 0 with
    | none => none
    | some p2 => some (p2, prevs.set 0 (some p2))
  | j+1, p, prevs =>
    match fgeLevel s k fuel p (j+1) with
    | none => none
    | some p2 => fgeFor s k fuel j p2 (prevs.set (j+1) (some p2))

/-- find_greater_or_equal (hpp lines 502-519): the first node whose key is
>= k (tail if none), plus the predecessor recorded at every level; finally
reads p->next(). -/
def fge (s : SL) (k : Int) : Option (Option Nat × List (Option Nat)) :=
  match fgeFor s k (s.heap.length + 1) 19 s.headId (List.replicate 20 none) with
  | none => none
  | some (p, prevs) =>
    match fwdF s p 0 with
    | none => none
    | some r => some (r, prevs)

/-- find_greater_or_equal (part_000 lines 399-424): one while(true) loop that
either moves forward or records the predecessor and drops one level. -/
def fgeWalk (s : SL) (k : Int) : Nat → Nat → Nat → List (Option Nat) → Option (Nat × List (Option Nat))
  | 0, _, _, _ => none
  | fuel+1, p, h, prevs =>
    match fwdF s p h with
    | none => none
    | some none => none
    | some (some q) =>
      if q = s.tailId then
        match h with
        | 0 => some (p, prevs.set 0 (some p))
        | j+1 => fgeWalk s k fuel p j (prevs.set (j+1) (some p))
      else
        match lkp s.heap q with
        | none => none
        | some nq =>
          if k ≤ nq.key then
            match h with
            | 0 => some (p, prevs.set 0 (some p))
            | j+1 => fgeWalk s k fuel p j (prevs.set (j+1) (some p))
          else fgeWalk s k fuel q h prevs

/-- Top entry of the part_000 traversal; the fuel bounds the number of loop
iterations, which never exceeds the number of stored nodes plus 20. -/
def fgeW (s : SL) (k : Int) : Option (Option Nat × List (Option Nat)) :=
  match fgeWalk s k (21 * (s.heap.length + 1)) s.headId 19 (List.replicate 20 none) with
  | none => none
  | some (p, prevs) =>
    match fwdF s p 0 with
    | none => none
    | some r => some (r, prevs)

/-- The linking loop shared by insert and emplace_impl:
for i < height: node->set_forward(i, prevs[i]->forward(i));
prevs[i]->set_forward(i, node). -/
def linkLoop (nId : Nat) (prevs : List (Option Nat)) : SL → Nat → Nat → Option SL
  | s, _, 0 => some s
  | s, i, cnt+1 =>
    match prevs.get? i with
    | none => none
    | some none => none
    | some (some p) =>
      match fwdF s p i with
      | none => none
      | some f =>
        match setF s nId i f with
        | none => none
        | some s1 =>
          match setF s1 p i (some nId) with
          | none => none
          | some s2 => linkLoop nId prevs s2 (i+1) cnt

/-- The common linking block of insert / emplace_impl, after the node with id
nId has been placed in the arena: node->set_backward(prevs[0]);
prevs[0]->next()->set_backward(node); the linking loop; ++size_. -/
def linkNode (s : SL) (nId : Nat) (prevs : List (Option Nat)) (h : Nat) : Option SL :=
  match prevs.get? 0 with
  | none => none
  | some p0 =>
    match setB s nId p0 with
    | none => none
    | some s1 =>
      match p0 with
      | none => none
      | some p =>
        match fwdF s1 p 0 with
        | none => none
        | some none => none
        | some (some succ) =>
          match setB s1 succ (some nId) with
          | none => none
          | some s2 =>
            match linkLoop nId prevs s2 0 h with
            | none => none
            | some s3 => some { s3 with size := s3.size + 1 }

/-- The arena state right after `new Node(height, value)` in insert (and after
`new Node(height, args...)` in emplace_impl). -/
def allocNode (s : SL) (h : Nat) (k v : Int) : SL :=
  { s with heap := s.heap ++ [(s.nextId, ⟨k, v, h, List.replicate h none, none⟩)],
           nextId := s.nextId + 1 }

/-- Allocation plus linking (the non-duplicate path of insert). -/
def insertLink (s : SL) (h : Nat) (k v : Int) (prevs : List (Option Nat)) :
    Option (SL × Nat × Bool) :=
  match linkNode (allocNode s h k v) s.nextId prevs h with
  | none => none
  | some s2 => some (s2, s.nextId, true)

/-- skiplist::insert (hpp lines 317-342).  The height is the value returned by
random_height(), passed explicitly (the generator is externalized). -/
def insertOp (s : SL) (h : Nat) (k v : Int) : Option (SL × Nat × Bool) :=
  match fge s k with
  | none => none
  | some (res, prevs) =>
    match res with
    | none => none
    | some r =>
      if r = s.tailId then insertLink s h k v prevs
      else
        match lkp s.heap r with
        | none => none
        | some nr =>
          if nr.key = k then some (s, r, false)
          else insertLink s h k v prevs

/-- skiplist::operator[] (hpp lines 344-348): insert with a default value. -/
def bracketOp (s : SL) (h : Nat) (k : Int) : Option (SL × Nat) :=
  match insertOp s h k 0 with
  | none => none
  | some (s2, r, _) => some (s2, r)

/-- skiplist::emplace_impl (hpp lines 409-438): the height is drawn and the
node constructed before the search; on a duplicate key the fresh node is
deleted and the container is observably unchanged. -/
def emplaceOp (s : SL) (h : Nat) (k v : Int) : Option (SL × Nat × Bool) :=
  match fge (allocNode s h k v) k with
  | none => none
  | some (res, prevs) =>
    match res with
    | none => none
    | some r =>
      if r = s.tailId then
        match linkNode (allocNode s h k v) s.nextId prevs h with
        | none => none
        | some s2 => some (s2, s.nextId, true)
      else
        match lkp (allocNode s h k v).heap r with
        | none => none
        | some nr =>
          if nr.key = k then
            some ({ allocNode s h k v with
                    heap := delAt (allocNode s h k v).heap s.nextId }, r, false)
          else
            match linkNode (allocNode s h k v) s.nextId prevs h with
            | none => none
            | some s2 => some (s2, s.nextId, true)

/-- The unlink loop of erase: for i < p->height():
prevs[i]->set_forward(i, p->forward(i)). -/
def unlinkLoop (prevs : List (Option Nat)) (rId : Nat) : SL → Nat → Nat → Option SL
  | s, _, 0 => some s
  | s, i, cnt+1 =>
    match prevs.get? i with
    | none => none
    | some none => none
    | some (some p) =>
      match fwdF s rId i with
      | none => none
      | some f =>
        match setF s p i f with
        | none => none
        | some s1 => unlinkLoop prevs rId s1 (i+1) cnt

/-- skiplist::erase(key) (hpp lines 350-370). -/
def eraseOp (s : SL) (k : Int) : Option SL :=
  match fge s k with
  | none => none
  | some (res, prevs) =>
    match res with
    | none => none
    | some r =>
      if r = s.tailId then some s
      else
        match lkp s.heap r with
        | none => none
        | some nr =>
          if k < nr.key then some s
          else
            match nr.forwards.get? 0 with
            | none => none
            | some none => none
            | some (some nxt) =>
              match setB s nxt nr.backward with
              | none => none
              | some s1 =>
                match unlinkLoop prevs r s1 0 nr.height with
                | none => none
                | some s2 =>
                  some { s2 with heap := delAt s2.heap r, size := s2.size - 1 }

/-- skiplist::erase(iterator) (hpp lines 372-379): captures the successor
(the source spells the node of `it` as `it->node_`), erases by the element's
key, and returns an iterator at the captured successor. -/
def eraseItOp (s : SL) (it : Nat) : Option (SL × Option Nat) :=
  match fwdF s it 0 with
  | none => none
  | some nxt =>
    match lkp s.heap it with
    | none => none
    | some ni =>
      match eraseOp s ni.key with
      | none => none
      | some s2 => some (s2, nxt)

/-- skiplist::lower_bound (hpp lines 391-396): the traversal result as an
iterator. -/
def lowerBoundOp (s : SL) (k : Int) : Option (Option Nat) :=
  match fge s k with
  | none => none
  | some (res, _) => some res

/-- skiplist::find (hpp lines 381-389): lower_bound, then an exact-key check. -/
def findOp (s : SL) (k : Int) : Option Nat :=
  match lowerBoundOp s k with
  | none => none
  | some none => none
  | some (some r) =>
    if r = s.tailId then some s.tailId
    else
      match lkp s.heap r with
      | none => none
      | some nr => if nr.key = k then some r else some s.tailId

/-- skiplist::upper_bound (hpp lines 398-407): lower_bound, then one step
forward when the found key equals the query key. -/
def upperBoundOp (s : SL) (k : Int) : Option (Option Nat) :=
  match lowerBoundOp s k with
  | none => none
  | some none => none
  | some (some r) =>
    if r = s.tailId then some (some r)
    else
      match lkp s.heap r with
      | none => none
      | some nr => if nr.key = k then fwdF s r 0 else some (some r)

/-- The deletion walk of clear() (hpp lines 481-487):
node = head_->next(); while (node != tail_) { p = node->next(); delete node;
node = p; }. -/
def clearLoop : Nat → SL → Option Nat → Option SL
  | 0, _, _ => none
  | _+1, _, none => none
  | fuel+1, s, some p =>
    if p = s.tailId then some s
    else
      match fwdF s p 0 with
      | none => none
      | some nxt => clearLoop fuel { s with heap := delAt s.heap p } nxt

/-- The relink loop of clear(): head_->set_forward(i, tail_) for i < 20. -/
def relinkLoop : SL → Nat → Nat → Option SL
  | s, _, 0 => some s
  | s, i, cnt+1 =>
    match setF s s.headId i (some s.tailId) with
    | none => none
    | some s1 => relinkLoop s1 (i+1) cnt

/-- skiplist::clear (hpp lines 480-495). -/
def clearOp (s : SL) : Option SL :=
  match fwdF s s.headId 0 with
  | none => none
  | some n0 =>
    match clearLoop (s.heap.length + 1) s n0 with
    | none => none
    | some s1 =>
      match relinkLoop s1 0 20 with
      | none => none
      | some s2 =>
        match setB s2 s2.tailId (some s2.headId) with
        | none => none
        | some s3 => some { s3 with size := 0 }

/-- skiplist::random_height (hpp lines 521-533): height starts at 1 and is
incremented while height < kMaxHeight and the next generator draw is divisible
by kBranching = 4.  `draws j` is the j-th output of the generator; the fuel 20
is never exhausted because the guard already stops at height = 20. -/
def randomHeightGo (draws : Nat → Nat) : Nat → Nat → Nat → Nat
  | 0, _, height => height
  | fuel+1, j, height =>
    if height < 20 ∧ draws j % 4 = 0 then randomHeightGo draws fuel (j+1) (height+1)
    else height

def randomHeight (draws : Nat → Nat) : Nat := randomHeightGo draws 20 0 1

/-- Forward iteration from a node at level 0 until tail (begin()/operator++). -/
def iterFwd (s : SL) : Nat → Option Nat → Option (List Nat)
  | 0, _ => none
  | _+1, none => none
  | fuel+1, some p =>
    if p = s.tailId then some []
    else
      match fwdF s p 0 with
      | none => none
      | some nxt =>
        match iterFwd s fuel nxt with
        | none => none
        | some l => some (p :: l)

/-- The level-0 sequence of non-sentinel nodes, from head to tail. -/
def toListFwd (s : SL) : Option (List Nat) :=
  match fwdF s s.headId 0 with
  | none => none
  | some n0 => iterFwd s (s.heap.length + 1) n0

/-- Backward iteration along backward pointers until head (reverse iteration). -/
def iterBwd (s : SL) : Nat → Option Nat → Option (List Nat)
  | 0, _ => none
  | _+1, none => none
  | fuel+1, some p =>
    if p = s.headId then some []
    else
      match lkp s.heap p with
      | none => none
      | some n =>
        match iterBwd s fuel n.backward with
        | none => none
        | some l => some (p :: l)

/-- The sequence obtained by following backward pointers from tail. -/
def toListBwd (s : SL) : Option (List Nat) :=
  match lkp s.heap s.tailId with
  | none => none
  | some n => iterBwd s (s.heap.length + 1) n.backward

/-- States reachable by finite sequences of public operations from a freshly
constructed container.  Heights are those random_height can produce (its
codomain is [1, 20], see the analysis of random_height below). -/
inductive Reachable : SL → Prop
  | init : Reachable initSL
  | insert {s s' : SL} {h : Nat} {k v : Int} {r : Nat} {b : Bool} :
      Reachable s → 1 ≤ h → h ≤ 20 →
      insertOp s h k v = some (s', r, b) → Reachable s'
  | bracket {s s' : SL} {h : Nat} {k : Int} {r : Nat} :
      Reachable s → 1 ≤ h → h ≤ 20 →
      bracketOp s h k = some (s', r) → Reachable s'
  | emplace {s s' : SL} {h : Nat} {k v : Int} {r : Nat} {b : Bool} :
      Reachable s → 1 ≤ h → h ≤ 20 →
      emplaceOp s h k v = some (s', r, b) → Reachable s'
  | eraseKey {s s' : SL} {k : Int} :
      Reachable s → eraseOp s k = some s' → Reachable s'
  | eraseIter {s s' : SL} {it : Nat} {nxt : Option Nat} :
      Reachable s → it ≠ s.tailId → it ≠ s.headId → (lkp s.heap it).isSome →
      eraseItOp s it = some (s', nxt) → Reachable s'
  | clear {s s' : SL} :
      Reachable s → clearOp s = some s' → Reachable s'

/- ===== Arena lemmas ===== -/

theorem lkp_updAt (x : Nat) (f : SNode → SNode) (y : Nat) :
    ∀ hp : List (Nat × SNode),
      lkp (updAt hp x f) y = if y = x then (lkp hp x).map f else lkp hp y
  | [] => by by_cases h : y = x <;> simp [lkp, updAt, h]
  | e :: t => by
    have ih := lkp_updAt x f y t
    by_cases hex : e.1 = x <;> by_cases hey : e.1 = y <;> by_cases hyx : y = x <;>
      simp_all [updAt, lkp]

theorem lkp_append_some {y : Nat} {n : SNode} :
    ∀ {hp : List (Nat × SNode)}, lkp hp y = some n →
      ∀ hp2, lkp (hp ++ hp2) y = some n
  | [], h => by simp [lkp] at h
  | e :: t, h => by
    intro hp2
    by_cases hey : e.1 = y
    · simp [lkp, hey] at h ⊢; exact h
    · simp [lkp, hey] at h ⊢; exact lkp_append_some h hp2

theorem lkp_append_none {y : Nat} :
    ∀ {hp : List (Nat × SNode)}, lkp hp y = none →
      ∀ hp2, lkp (hp ++ hp2) y = lkp hp2 y
  | [], _ => by intro hp2; simp [lkp]
  | e :: t, h => by
    intro hp2
    by_cases hey : e.1 = y
    · simp [lkp, hey] at h
    · simp [lkp, hey] at h ⊢; exact lkp_append_none h hp2

theorem lkp_delAt (x y : Nat) :
    ∀ hp : List (Nat × SNode),
      lkp (delAt hp x) y = if y = x then none else lkp hp y
  | [] => by by_cases h : y = x <;> simp [lkp, delAt, h]
  | e :: t => by
    have ih := lkp_delAt x y t
    by_cases hex : e.1 = x <;> by_cases hey : e.1 = y <;> by_cases hyx : y = x <;>
      simp_all [delAt, lkp, List.filter_cons]

theorem lkp_isSome_of_eq {hp : List (Nat × SNode)} {y : Nat} {n : SNode}
    (h : lkp hp y = some n) : (lkp hp y).isSome := by simp [h]

theorem lkp_none_of_fresh {hp : List (Nat × SNode)} {n : Nat}
    (hfresh : ∀ z, (lkp hp z).isSome → z < n) : lkp hp n = none := by
  cases h : lkp hp n with
  | none => rfl
  | some v => exact absurd (hfresh n (lkp_isSome_of_eq h)) (lt_irrefl n)

theorem updAt_length (hp : List (Nat × SNode)) (x : Nat) (f : SNode → SNode) :
    (updAt hp x f).length = hp.length := by simp [updAt]

/- ===== Generic list helpers ===== -/

theorem chain'_imp_fst {α : Type} {R S : α → α → Prop} :
    ∀ {l : List α}, List.Chain' R l →
      (∀ x ∈ l.dropLast, ∀ y, R x y → S x y) → List.Chain' S l
  | [], _, _ => List.chain'_nil
  | [_], _, _ => List.chain'_singleton _
  | a :: b :: t, hc, hH => by
    rw [List.chain'_cons] at hc ⊢
    refine ⟨hH a (by simp [List.dropLast]) b hc.1, ?_⟩
    exact chain'_imp_fst hc.2 (fun x hx y hR => hH x (by simp [List.dropLast, hx]) y hR)

theorem chain'_imp_snd {α : Type} {R S : α → α → Prop} :
    ∀ {l : List α}, List.Chain' R l →
      (∀ y ∈ l.tail, ∀ x, R x y → S x y) → List.Chain' S l
  | [], _, _ => List.chain'_nil
  | [_], _, _ => List.chain'_singleton _
  | a :: b :: t, hc, hH => by
    rw [List.chain'_cons] at hc ⊢
    refine ⟨hH b (by simp) a hc.1, ?_⟩
    exact chain'_imp_snd hc.2 (fun y hy x hR => hH y (by simp; exact Or.inr hy) x hR)

theorem getLastD_append_cons {α : Type} :
    ∀ (l₁ : List α) (a : α) (l₂ : List α) (d : α),
      (l₁ ++ a :: l₂).getLastD d = (a :: l₂).getLastD d
  | [], _, _, _ => rfl
  | e :: t, a, l₂, d => by
    rw [List.cons_append, List.getLastD_cons, getLastD_append_cons t a l₂ e,
      List.getLastD_cons, List.getLastD_cons]

theorem getLast?_cons_eq {α : Type} :
    ∀ (a : α) (l : List α), (a :: l).getLast? = some (l.getLastD a)
  | _, [] => rfl
  | a, b :: t => by
    rw [List.getLastD_cons]
    rw [show (a :: b :: t).getLast? = (b :: t).getLast? from rfl]
    exact getLast?_cons_eq b t

theorem getLastD_indep {α : Type} (a : α) (l : List α) (d e : α) :
    (a :: l).getLastD d = (a :: l).getLastD e := by
  rw [List.getLastD_cons, List.getLastD_cons]

theorem get?_replicate_lt {α : Type} (a : α) :
    ∀ (n i : Nat), i < n → (List.replicate n a).get? i = some a
  | n+1, 0, _ => rfl
  | n+1, i+1, h => by
    rw [List.replicate_succ]
    exact get?_replicate_lt a n i (Nat.lt_of_succ_lt_succ h)

theorem mem_dropLast_ne_getLastD {α : Type} {a : α} {l : List α}
    (hnd : (a :: l).Nodup) {x : α} (hx : x ∈ (a :: l).dropLast) :
    x ≠ l.getLastD a := by
  have hne : a :: l ≠ [] := List.cons_ne_nil a l
  have hsplit := List.dropLast_concat_getLast hne
  have hgl : (a :: l).getLast hne = l.getLastD a := List.getLast_eq_getLastD a l hne
  rw [hgl] at hsplit
  have hnd2 : ((a :: l).dropLast ++ [l.getLastD a]).Nodup := by rw [hsplit]; exact hnd
  have hdisj := List.disjoint_of_nodup_append hnd2
  intro hEq
  exact hdisj hx (by simp [hEq])

/-- Split a strictly sorted list at a key threshold. -/
theorem sorted_split (key : Nat → Int) (k : Int) :
    ∀ (L : List Nat), L.Pairwise (fun a b => key a < key b) →
      ∃ L₁ L₂, L = L₁ ++ L₂ ∧ (∀ q ∈ L₁, key q < k) ∧ (∀ q ∈ L₂, k ≤ key q)
  | [], _ => ⟨[], [], rfl, by simp, by simp⟩
  | q :: t, hp => by
    rcases List.pairwise_cons.mp hp with ⟨hq, ht⟩
    by_cases hk : key q < k
    · obtain ⟨L₁, L₂, hEq, h1, h2⟩ := sorted_split key k t ht
      exact ⟨q :: L₁, L₂, by rw [hEq, List.cons_append], by
        intro x hx
        rcases List.mem_cons.mp hx with h | h
        · exact h ▸ hk
        · exact h1 x h, h2⟩
    · refine ⟨[], q :: t, rfl, by simp, ?_⟩
      intro x hx
      rcases List.mem_cons.mp hx with h | h
      · exact h ▸ le_of_not_lt hk
      · exact le_trans (le_of_not_lt hk) (le_of_lt (hq x h))

/- ===== Search correctness for the hpp traversal ===== -/

/-- `a`'s forward pointer at level `i` points at `b`. -/
def stepsTo (s : SL) (i : Nat) (a b : Nat) : Prop := fwdF s a i = some (some b)

/-- Nodes of `L` that participate in level `i`. -/
def lvl (s : SL) (L : List Nat) (i : Nat) : List Nat :=
  L.filter (fun q => decide (i < hgtOf s q))

/-- The last node of `L₁` participating in level `i`, defaulting to head: the
predecessor recorded at level `i` when `L₁` is the block of keys below the
query key. -/
def prevAt (s : SL) (L₁ : List Nat) (i : Nat) : Nat :=
  (L₁.filter (fun q => decide (i < hgtOf s q))).getLastD s.headId

/-- The facts about a state consumed by the traversal correctness proofs. -/
structure SearchOK (s : SL) (L : List Nat) : Prop where
  head_mem : (lkp s.heap s.headId).isSome
  head_len : (ndOf s s.headId).forwards.length = 20
  ht_ne : s.headId ≠ s.tailId
  head_nmem : s.headId ∉ L
  tail_nmem : s.tailId ∉ L
  nodupL : L.Nodup
  memL : ∀ q ∈ L, (lkp s.heap q).isSome
  hpos : ∀ q ∈ L, 1 ≤ hgtOf s q
  hle : ∀ q ∈ L, hgtOf s q ≤ 20
  flen : ∀ q ∈ L, (ndOf s q).forwards.length = hgtOf s q
  sorted : L.Pairwise (fun a b => keyOf s a < keyOf s b)
  links : ∀ i, i < 20 → List.Chain' (stepsTo s i) (s.headId :: lvl s L i ++ [s.tailId])
  len_lt : L.length < s.heap.length

theorem keyOf_lkp {s : SL} {q : Nat} {nq : SNode} (h : lkp s.heap q = some nq) :
    keyOf s q = nq.key := by simp [keyOf, ndOf, h]

theorem hgtOf_lkp {s : SL} {q : Nat} {nq : SNode} (h : lkp s.heap q = some nq) :
    hgtOf s q = nq.height := by simp [hgtOf, ndOf, h]

theorem getLastD_mem {α : Type} :
    ∀ {l : List α}, l ≠ [] → ∀ d : α, l.getLastD d ∈ l
  | [], h, _ => absurd rfl h
  | [a], _, d => by simp
  | a :: b :: t, _, d => by
    rw [List.getLastD_cons]
    exact List.mem_cons_of_mem a (getLastD_mem (List.cons_ne_nil b t) a)

/-- Running the level walk along a block `c1` of nodes with keys < k, then
stopping because the next node is tail or has key ≥ k. -/
theorem fgeLevel_run (s : SL) (k : Int) (i : Nat) :
    ∀ (c1 : List Nat) (p : Nat) (g : Nat),
      List.Chain' (stepsTo s i) (p :: c1) →
      (∀ q ∈ c1, q ≠ s.tailId ∧ ∃ nq, lkp s.heap q = some nq ∧ nq.key < k) →
      (stepsTo s i (c1.getLastD p) s.tailId ∨
        ∃ q nq, stepsTo s i (c1.getLastD p) q ∧ q ≠ s.tailId ∧
          lkp s.heap q = some nq ∧ k ≤ nq.key) →
      fgeLevel s k (c1.length + 1 + g) p i = some (c1.getLastD p)
  | [], p, g, _, _, hstop => by
    rw [show ([] : List Nat).length + 1 + g = g + 1 from by
      simp only [List.length_nil]; omega]
    rcases hstop with hl | ⟨q, nq, hq, hqt, hlq, hk⟩
    · rw [List.getLastD_nil] at hl
      simp only [stepsTo] at hl
      simp [fgeLevel, hl]
    · rw [List.getLastD_nil] at hq
      simp only [stepsTo] at hq
      simp [fgeLevel, hq, hqt, hlq, not_lt_of_le hk]
  | q :: c1', p, g, hchain, hkeys, hstop => by
    rw [show (q :: c1').length + 1 + g = (c1'.length + 1 + g) + 1 from by
      simp only [List.length_cons]; omega]
    rcases List.chain'_cons.mp hchain with ⟨hpq, hchain'⟩
    obtain ⟨hqt, nq, hlq, hklt⟩ := hkeys q (List.mem_cons_self q c1')
    rw [List.getLastD_cons] at hstop
    have ih := fgeLevel_run s k i c1' q g hchain'
      (fun x hx => hkeys x (List.mem_cons_of_mem q hx)) hstop
    simp only [stepsTo] at hpq
    rw [List.getLastD_cons]
    simp [fgeLevel, hpq, hqt, hlq, hklt, ih]

theorem fgeLevel_run_le (s : SL) (k : Int) (i : Nat) (c1 : List Nat) (p : Nat)
    (fuel : Nat)
    (h1 : List.Chain' (stepsTo s i) (p :: c1))
    (h2 : ∀ q ∈ c1, q ≠ s.tailId ∧ ∃ nq, lkp s.heap q = some nq ∧ nq.key < k)
    (h3 : stepsTo s i (c1.getLastD p) s.tailId ∨
      ∃ q nq, stepsTo s i (c1.getLastD p) q ∧ q ≠ s.tailId ∧
        lkp s.heap q = some nq ∧ k ≤ nq.key)
    (hf : c1.length + 1 ≤ fuel) :
    fgeLevel s k fuel p i = some (c1.getLastD p) := by
  obtain ⟨g, hg⟩ := Nat.exists_eq_add_of_le hf
  rw [hg]
  exact fgeLevel_run s k i c1 p g h1 h2 h3

/-- The per-level structure of the traversal: from the predecessor recorded
for level i+1 there is a block c1 of level-i nodes with keys < k, ending at
the predecessor of level i, whose outgoing level-i link stops the walk. -/
theorem level_analysis (s : SL) (L L₁ L₂ : List Nat) (k : Int) (ok : SearchOK s L)
    (hsplit : L = L₁ ++ L₂) (hlt : ∀ q ∈ L₁, keyOf s q < k)
    (hge : ∀ q ∈ L₂, k ≤ keyOf s q) (i : Nat) (hi : i < 20) :
    ∃ c1 : List Nat,
      List.Chain' (stepsTo s i) (prevAt s L₁ (i+1) :: c1) ∧
      (∀ q ∈ c1, q ≠ s.tailId ∧ ∃ nq, lkp s.heap q = some nq ∧ nq.key < k) ∧
      (stepsTo s i (c1.getLastD (prevAt s L₁ (i+1))) s.tailId ∨
        ∃ q nq, stepsTo s i (c1.getLastD (prevAt s L₁ (i+1))) q ∧ q ≠ s.tailId ∧
          lkp s.heap q = some nq ∧ k ≤ nq.key) ∧
      c1.getLastD (prevAt s L₁ (i+1)) = prevAt s L₁ i ∧
      c1.length ≤ L.length := by
  set B := L₁.filter (fun q => decide (i < hgtOf s q)) with hB
  set C := L₂.filter (fun q => decide (i < hgtOf s q)) with hC
  have hmemL₁ : ∀ q ∈ L₁, q ∈ L := fun q hq => hsplit ▸ List.mem_append_left L₂ hq
  have hmemL₂ : ∀ q ∈ L₂, q ∈ L := fun q hq => hsplit ▸ List.mem_append_right L₁ hq
  have hBC : lvl s L i = B ++ C := by rw [lvl, hsplit, List.filter_append]
  have hchain := ok.links i hi
  rw [hBC] at hchain
  have hkeysB : ∀ q ∈ B, q ≠ s.tailId ∧ ∃ nq, lkp s.heap q = some nq ∧ nq.key < k := by
    intro q hq
    have hq1 : q ∈ L₁ := (List.mem_filter.mp hq).1
    have hqL : q ∈ L := hmemL₁ q hq1
    refine ⟨fun hEq => ok.tail_nmem (hEq ▸ hqL), ?_⟩
    obtain ⟨nq, hnq⟩ := Option.isSome_iff_exists.mp (ok.memL q hqL)
    exact ⟨nq, hnq, (keyOf_lkp hnq) ▸ hlt q hq1⟩
  have hBlen : B.length ≤ L₁.length := List.length_filter_le _ _
  have hL₁len : L₁.length ≤ L.length := by
    rw [hsplit, List.length_append]; omega
  have hstopOf : ∀ pl : Nat, (∀ y ∈ (C ++ [s.tailId]).head?, stepsTo s i pl y) →
      (stepsTo s i pl s.tailId ∨
        ∃ q nq, stepsTo s i pl q ∧ q ≠ s.tailId ∧
          lkp s.heap q = some nq ∧ k ≤ nq.key) := by
    intro pl hy
    cases hCc : C with
    | nil =>
      left
      exact hy s.tailId (by rw [hCc]; simp)
    | cons c0 C2 =>
      right
      have hc0C : c0 ∈ C := by rw [hCc]; exact List.mem_cons_self _ _
      have hc02 : c0 ∈ L₂ := (List.mem_filter.mp hc0C).1
      have hc0L : c0 ∈ L := hmemL₂ c0 hc02
      obtain ⟨nq, hnq⟩ := Option.isSome_iff_exists.mp (ok.memL c0 hc0L)
      refine ⟨c0, nq, hy c0 (by rw [hCc]; simp), fun hEq => ok.tail_nmem (hEq ▸ hc0L),
        hnq, ?_⟩
      exact (keyOf_lkp hnq) ▸ hge c0 hc02
  by_cases hA : L₁.filter (fun q => decide (i+1 < hgtOf s q)) = []
  · have hpA : prevAt s L₁ (i+1) = s.headId := by
      simp only [prevAt]; rw [hA]; rfl
    have hlist : s.headId :: (B ++ C) ++ [s.tailId]
        = (s.headId :: B) ++ (C ++ [s.tailId]) := by simp
    rw [hlist] at hchain
    rcases List.chain'_append.mp hchain with ⟨hcB, _, hcross⟩
    have hstop := hstopOf (B.getLastD s.headId) (fun y hy =>
      hcross _ (by simp [getLast?_cons_eq]) y hy)
    rw [hpA]
    exact ⟨B, hcB, hkeysB, hstop, by simp only [prevAt], by omega⟩
  · set A := L₁.filter (fun q => decide (i+1 < hgtOf s q)) with hAdef
    set p := A.getLastD s.headId with hpdef
    have hpA : prevAt s L₁ (i+1) = p := by
      simp only [prevAt]
    have hpmemA : p ∈ A := getLastD_mem hA s.headId
    have hp1 : p ∈ L₁ := (List.mem_filter.mp hpmemA).1
    have hphgt : i < hgtOf s p := by
      have h2 := (List.mem_filter.mp hpmemA).2
      have h3 : i + 1 < hgtOf s p := by simpa using h2
      omega
    have hpB : p ∈ B := List.mem_filter.mpr ⟨hp1, by simpa using hphgt⟩
    obtain ⟨B₁, B₂, hBsplit⟩ := List.mem_iff_append.mp hpB
    have hB₂len : B₂.length ≤ B.length := by
      rw [hBsplit, List.length_append, List.length_cons]; omega
    have hlist : s.headId :: (B ++ C) ++ [s.tailId]
        = (s.headId :: B₁) ++ ((p :: B₂) ++ (C ++ [s.tailId])) := by
      rw [hBsplit]; simp
    rw [hlist] at hchain
    rcases List.chain'_append.mp hchain with ⟨_, hright, _⟩
    rcases List.chain'_append.mp hright with ⟨hcB₂, _, hcross⟩
    have hkeysB₂ : ∀ q ∈ B₂, q ≠ s.tailId ∧ ∃ nq, lkp s.heap q = some nq ∧ nq.key < k :=
      fun q hq => hkeysB q (by
        rw [hBsplit]; exact List.mem_append_right _ (List.mem_cons_of_mem _ hq))
    have hstop := hstopOf (B₂.getLastD p) (fun y hy =>
      hcross _ (by simp [getLast?_cons_eq]) y hy)
    rw [hpA]
    refine ⟨B₂, hcB₂, hkeysB₂, hstop, ?_, by omega⟩
    have hgoal : prevAt s L₁ i = B₂.getLastD p := by
      simp only [prevAt]; rw [← hB, hBsplit, getLastD_append_cons, List.getLastD_cons]
    rw [hgoal]

/-- One level of the descent: starting from the predecessor recorded for level
i+1, the level-i walk stops exactly at the predecessor of level i. -/
theorem level_step (s : SL) (L L₁ L₂ : List Nat) (k : Int) (ok : SearchOK s L)
    (hsplit : L = L₁ ++ L₂) (hlt : ∀ q ∈ L₁, keyOf s q < k)
    (hge : ∀ q ∈ L₂, k ≤ keyOf s q) (i : Nat) (hi : i < 20) :
    fgeLevel s k (s.heap.length + 1) (prevAt s L₁ (i+1)) i = some (prevAt s L₁ i) := by
  obtain ⟨c1, h1, h2, h3, h4, h5⟩ :=
    level_analysis s L L₁ L₂ k ok hsplit hlt hge i hi
  rw [← h4]
  exact fgeLevel_run_le s k i c1 _ _ h1 h2 h3 (by have := ok.len_lt; omega)

/-- The full descent of the hpp traversal: prevs[j] = prevAt j for every
processed level, ending at the level-0 predecessor. -/
theorem fgeFor_run (s : SL) (L L₁ L₂ : List Nat) (k : Int) (ok : SearchOK s L)
    (hsplit : L = L₁ ++ L₂) (hlt : ∀ q ∈ L₁, keyOf s q < k)
    (hge : ∀ q ∈ L₂, k ≤ keyOf s q) :
    ∀ (i : Nat), i < 20 → ∀ (pr : List (Option Nat)), pr.length = 20 →
      ∃ pr2, fgeFor s k (s.heap.length + 1) i (prevAt s L₁ (i+1)) pr
          = some (prevAt s L₁ 0, pr2) ∧ pr2.length = 20 ∧
        (∀ j, j ≤ i → pr2.get? j = some (some (prevAt s L₁ j))) ∧
        (∀ j, i < j → pr2.get? j = pr.get? j)
  | 0, hi, pr, hpr => by
    have hl := level_step s L L₁ L₂ k ok hsplit hlt hge 0 hi
    refine ⟨pr.set 0 (some (prevAt s L₁ 0)), ?_, ?_, ?_, ?_⟩
    · simp [fgeFor, hl]
    · simp [hpr]
    · intro j hj
      have hj0 : j = 0 := by omega
      subst hj0
      rw [List.get?_set_of_lt' _ pr (by omega)]
      simp
    · intro j hj
      rw [List.get?_set_of_lt' _ pr (by omega)]
      simp [show ¬ ((0 : Nat) = j) from by omega]
  | i+1, hi, pr, hpr => by
    have hl := level_step s L L₁ L₂ k ok hsplit hlt hge (i+1) hi
    obtain ⟨pr2, heq, hlen, hle2, hgt2⟩ := fgeFor_run s L L₁ L₂ k ok hsplit hlt hge i
      (by omega) (pr.set (i+1) (some (prevAt s L₁ (i+1)))) (by simp [hpr])
    refine ⟨pr2, ?_, hlen, ?_, ?_⟩
    · simp [fgeFor, hl, heq]
    · intro j hj
      rcases Nat.lt_or_ge j (i+1) with hcase | hcase
      · exact hle2 j (by omega)
      · have hj1 : j = i + 1 := by omega
        subst hj1
        rw [hgt2 (i+1) (by omega), List.get?_set_of_lt' _ pr (by omega)]
        simp
    · intro j hj
      rw [hgt2 j (by omega), List.get?_set_of_lt' _ pr (by omega)]
      simp [show ¬ (i + 1 = j) from by omega]

/-- find_greater_or_equal (hpp): full characterization on a well-formed state,
for any split of the stored nodes into keys < k and keys ≥ k. -/
theorem fge_spec (s : SL) (L L₁ L₂ : List Nat) (k : Int) (ok : SearchOK s L)
    (hsplit : L = L₁ ++ L₂) (hlt : ∀ q ∈ L₁, keyOf s q < k)
    (hge : ∀ q ∈ L₂, k ≤ keyOf s q) :
    ∃ pr2, fge s k = some (some (L₂.headD s.tailId), pr2) ∧ pr2.length = 20 ∧
      ∀ j, j < 20 → pr2.get? j = some (some (prevAt s L₁ j)) := by
  have h20 : prevAt s L₁ 20 = s.headId := by
    have hnil : L₁.filter (fun q => decide (20 < hgtOf s q)) = [] := by
      apply List.filter_eq_nil_iff.mpr
      intro q hq
      have h1 := ok.hle q (hsplit ▸ List.mem_append_left L₂ hq)
      simp only [decide_eq_true_eq]
      omega
    simp only [prevAt]; rw [hnil]; rfl
  obtain ⟨pr2, heq, hlen, hle2, _⟩ := fgeFor_run s L L₁ L₂ k ok hsplit hlt hge 19
    (by omega) (List.replicate 20 none) (by simp)
  rw [h20] at heq
  have hp0 : prevAt s L₁ 0 = L₁.getLastD s.headId := by
    simp only [prevAt]
    rw [List.filter_eq_self.mpr]
    intro q hq
    have h1 := ok.hpos q (hsplit ▸ List.mem_append_left L₂ hq)
    simp only [decide_eq_true_eq]
    omega
  have hlvl0 : lvl s L 0 = L := by
    rw [lvl, List.filter_eq_self.mpr]
    intro q hq
    have h1 := ok.hpos q hq
    simp only [decide_eq_true_eq]
    omega
  have hchain := ok.links 0 (by omega)
  rw [hlvl0, hsplit] at hchain
  have hlist : s.headId :: (L₁ ++ L₂) ++ [s.tailId]
      = (s.headId :: L₁) ++ (L₂ ++ [s.tailId]) := by simp
  rw [hlist] at hchain
  rcases List.chain'_append.mp hchain with ⟨_, _, hcross⟩
  have hread : stepsTo s 0 (L₁.getLastD s.headId) (L₂.headD s.tailId) := by
    cases L₂ with
    | nil =>
      simpa using hcross (L₁.getLastD s.headId) (by simp [getLast?_cons_eq])
        s.tailId (by simp)
    | cons c t =>
      simpa using hcross (L₁.getLastD s.headId) (by simp [getLast?_cons_eq])
        c (by simp)
  refine ⟨pr2, ?_, hlen, fun j hj => hle2 j (by omega)⟩
  rw [← hp0] at hread
  simp only [stepsTo] at hread
  simp only [fge]
  rw [heq]
  change (match fwdF s (prevAt s L₁ 0) 0 with
    | none => none
    | some r => some (r, pr2)) = some (some (L₂.headD s.tailId), pr2)
  rw [hread]

/-- Reading the level-0 forward pointer of the level-0 predecessor yields the
first node of the upper block (tail when that block is empty). -/
theorem fge_read (s : SL) (L L₁ L₂ : List Nat) (ok : SearchOK s L)
    (hsplit : L = L₁ ++ L₂) :
    fwdF s (prevAt s L₁ 0) 0 = some (some (L₂.headD s.tailId)) := by
  have hp0 : prevAt s L₁ 0 = L₁.getLastD s.headId := by
    simp only [prevAt]
    rw [List.filter_eq_self.mpr]
    intro q hq
    have h1 := ok.hpos q (hsplit ▸ List.mem_append_left L₂ hq)
    simp only [decide_eq_true_eq]
    omega
  have hlvl0 : lvl s L 0 = L := by
    rw [lvl, List.filter_eq_self.mpr]
    intro q hq
    have h1 := ok.hpos q hq
    simp only [decide_eq_true_eq]
    omega
  have hchain := ok.links 0 (by omega)
  rw [hlvl0, hsplit] at hchain
  have hlist : s.headId :: (L₁ ++ L₂) ++ [s.tailId]
      = (s.headId :: L₁) ++ (L₂ ++ [s.tailId]) := by simp
  rw [hlist] at hchain
  rcases List.chain'_append.mp hchain with ⟨_, _, hcross⟩
  have hread : stepsTo s 0 (L₁.getLastD s.headId) (L₂.headD s.tailId) := by
    cases L₂ with
    | nil =>
      simpa using hcross (L₁.getLastD s.headId) (by simp [getLast?_cons_eq])
        s.tailId (by simp)
    | cons c t =>
      simpa using hcross (L₁.getLastD s.headId) (by simp [getLast?_cons_eq])
        c (by simp)
  rw [← hp0] at hread
  exact hread

/-- One level phase of the part_000 walk: the same moves as the hpp level
walk, then the stop iteration records the predecessor and descends (or
returns at level 0). -/
theorem fgeWalk_phase (s : SL) (k : Int) (i : Nat) :
    ∀ (c1 : List Nat) (p : Nat) (g : Nat) (pr : List (Option Nat)),
      List.Chain' (stepsTo s i) (p :: c1) →
      (∀ q ∈ c1, q ≠ s.tailId ∧ ∃ nq, lkp s.heap q = some nq ∧ nq.key < k) →
      (stepsTo s i (c1.getLastD p) s.tailId ∨
        ∃ q nq, stepsTo s i (c1.getLastD p) q ∧ q ≠ s.tailId ∧
          lkp s.heap q = some nq ∧ k ≤ nq.key) →
      fgeWalk s k (c1.length + 1 + g) p i pr =
        (match i with
         | 0 => some (c1.getLastD p, pr.set 0 (some (c1.getLastD p)))
         | j+1 => fgeWalk s k g (c1.getLastD p) j (pr.set (j+1) (some (c1.getLastD p))))
  | [], p, g, pr, _, _, hstop => by
    rw [show ([] : List Nat).length + 1 + g = g + 1 from by
      simp only [List.length_nil]; omega]
    rcases hstop with hl | ⟨q, nq, hq, hqt, hlq, hk⟩
    · rw [List.getLastD_nil] at hl
      simp only [stepsTo] at hl
      cases i <;> simp [fgeWalk, hl]
    · rw [List.getLastD_nil] at hq
      simp only [stepsTo] at hq
      cases i <;> simp [fgeWalk, hq, hqt, hlq, hk]
  | q :: c1', p, g, pr, hchain, hkeys, hstop => by
    rw [show (q :: c1').length + 1 + g = (c1'.length + 1 + g) + 1 from by
      simp only [List.length_cons]; omega]
    rcases List.chain'_cons.mp hchain with ⟨hpq, hchain'⟩
    obtain ⟨hqt, nq, hlq, hklt⟩ := hkeys q (List.mem_cons_self q c1')
    rw [List.getLastD_cons] at hstop
    have ih := fgeWalk_phase s k i c1' q g pr hchain'
      (fun x hx => hkeys x (List.mem_cons_of_mem q hx)) hstop
    simp only [stepsTo] at hpq
    rw [List.getLastD_cons]
    rw [show fgeWalk s k ((c1'.length + 1 + g) + 1) p i pr
        = fgeWalk s k (c1'.length + 1 + g) q i pr from by
      simp [fgeWalk, hpq, hqt, hlq, not_le_of_lt hklt]]
    exact ih

/-- The full descent of the part_000 walk, with an explicit fuel budget. -/
theorem fgeWalk_run (s : SL) (L L₁ L₂ : List Nat) (k : Int) (ok : SearchOK s L)
    (hsplit : L = L₁ ++ L₂) (hlt : ∀ q ∈ L₁, keyOf s q < k)
    (hge : ∀ q ∈ L₂, k ≤ keyOf s q) :
    ∀ (i : Nat), i < 20 → ∀ (pr : List (Option Nat)), pr.length = 20 →
      ∃ f, f ≤ (i+1) * (L.length + 1) ∧ ∃ pr2,
        (∀ g, fgeWalk s k (f + g) (prevAt s L₁ (i+1)) i pr
          = some (prevAt s L₁ 0, pr2)) ∧ pr2.length = 20 ∧
        (∀ j, j ≤ i → pr2.get? j = some (some (prevAt s L₁ j))) ∧
        (∀ j, i < j → pr2.get? j = pr.get? j)
  | 0, hi, pr, hpr => by
    obtain ⟨c1, h1, h2, h3, h4, h5⟩ :=
      level_analysis s L L₁ L₂ k ok hsplit hlt hge 0 hi
    refine ⟨c1.length + 1, by omega, pr.set 0 (some (prevAt s L₁ 0)), ?_, ?_, ?_, ?_⟩
    · intro g
      have hph := fgeWalk_phase s k 0 c1 (prevAt s L₁ 1) g pr h1 h2 h3
      rw [hph, h4]
    · simp [hpr]
    · intro j hj
      have hj0 : j = 0 := by omega
      subst hj0
      rw [List.get?_set_of_lt' _ pr (by omega)]
      simp
    · intro j hj
      rw [List.get?_set_of_lt' _ pr (by omega)]
      simp [show ¬ ((0 : Nat) = j) from by omega]
  | i+1, hi, pr, hpr => by
    obtain ⟨c1, h1, h2, h3, h4, h5⟩ :=
      level_analysis s L L₁ L₂ k ok hsplit hlt hge (i+1) hi
    obtain ⟨f2, hf2, pr2, hrun, hlen, hle2, hgt2⟩ :=
      fgeWalk_run s L L₁ L₂ k ok hsplit hlt hge i (by omega)
        (pr.set (i+1) (some (prevAt s L₁ (i+1)))) (by simp [hpr])
    refine ⟨c1.length + 1 + f2, ?_, pr2, ?_, hlen, ?_, ?_⟩
    · have hmul : (i + 1 + 1) * (L.length + 1)
          = (i + 1) * (L.length + 1) + (L.length + 1) := by ring
      rw [hmul]
      omega
    · intro g
      have hph := fgeWalk_phase s k (i+1) c1 (prevAt s L₁ (i+1+1)) (f2 + g) pr h1 h2 h3
      rw [show c1.length + 1 + f2 + g = c1.length + 1 + (f2 + g) from by omega]
      rw [hph, h4]
      exact hrun g
    · intro j hj
      rcases Nat.lt_or_ge j (i+1) with hcase | hcase
      · exact hle2 j (by omega)
      · have hj1 : j = i + 1 := by omega
        subst hj1
        rw [hgt2 (i+1) (by omega), List.get?_set_of_lt' _ pr (by omega)]
        simp
    · intro j hj
      rw [hgt2 j (by omega), List.get?_set_of_lt' _ pr (by omega)]
      simp [show ¬ (i + 1 = j) from by omega]

/-- The level-indexed loop traversal (hpp) and the single-walk traversal
(part_000) coincide on a well-formed state: same returned node and same
predecessor array, for every query key. -/
theorem fge_eq_fgeW (s : SL) (L : List Nat) (ok : SearchOK s L) (k : Int) :
    fge s k = fgeW s k := by
  obtain ⟨L₁, L₂, hsplit, hlt, hge⟩ := sorted_split (keyOf s) k L ok.sorted
  obtain ⟨pr2, heq, hlen, hget⟩ := fge_spec s L L₁ L₂ k ok hsplit hlt hge
  have h20 : prevAt s L₁ 20 = s.headId := by
    have hnil : L₁.filter (fun q => decide (20 < hgtOf s q)) = [] := by
      apply List.filter_eq_nil_iff.mpr
      intro q hq
      have h1 := ok.hle q (hsplit ▸ List.mem_append_left L₂ hq)
      simp only [decide_eq_true_eq]
      omega
    simp only [prevAt]; rw [hnil]; rfl
  obtain ⟨f, hf, pr3, hrun, hlen3, hle3, _⟩ :=
    fgeWalk_run s L L₁ L₂ k ok hsplit hlt hge 19 (by omega)
      (List.replicate 20 none) (by simp)
  have hcap : f ≤ 21 * (s.heap.length + 1) := by
    have h1 : L.length + 1 ≤ s.heap.length := by have := ok.len_lt; omega
    calc f ≤ 20 * (L.length + 1) := hf
    _ ≤ 21 * (s.heap.length + 1) := Nat.mul_le_mul (by omega) (by omega)
  obtain ⟨g, hg⟩ := Nat.exists_eq_add_of_le hcap
  have hwalk := hrun g
  rw [← hg, h20] at hwalk
  have hpr : pr3 = pr2 := by
    apply List.ext_get?
    intro n
    rcases Nat.lt_or_ge n 20 with hn | hn
    · rw [hget n hn, hle3 n (by omega)]
    · rw [List.get?_len_le (by omega), List.get?_len_le (by omega)]
  have hread := fge_read s L L₁ L₂ ok hsplit
  rw [heq]
  simp only [fgeW]
  rw [hwalk]
  change some (some (L₂.headD s.tailId), pr2) =
    (match fwdF s (prevAt s L₁ 0) 0 with
     | none => none
     | some r => some (r, pr3))
  rw [hread, hpr]

/- ===== The representation invariant ===== -/

theorem ndOf_lkp {s : SL} {q : Nat} {nq : SNode} (h : lkp s.heap q = some nq) :
    ndOf s q = nq := by simp [ndOf, h]

theorem head?_append_one {α : Type} (c : List α) (d : α) :
    (c ++ [d]).head? = some (c.headD d) := by cases c <;> simp

/-- Full representation invariant: `L` is the level-0 order of the stored
non-sentinel nodes. -/
structure RepInv (s : SL) (L : List Nat) extends SearchOK s L : Prop where
  hid : s.headId = 0
  tid : s.tailId = 1
  head_key : (ndOf s s.headId).key = 0
  head_val : (ndOf s s.headId).val = 0
  head_hgt : (ndOf s s.headId).height = 20
  head_bwd : (ndOf s s.headId).backward = none
  tail_mem : (lkp s.heap s.tailId).isSome
  tail_key : (ndOf s s.tailId).key = 0
  tail_val : (ndOf s s.tailId).val = 0
  tail_hgt : (ndOf s s.tailId).height = 20
  tail_fwd : (ndOf s s.tailId).forwards = List.replicate 20 none
  bwds : List.Chain' (fun a b => (ndOf s b).backward = some a)
    (s.headId :: L ++ [s.tailId])
  size_eq : s.size = L.length
  shape : ∃ restKeys, s.heap.map Prod.fst = s.headId :: s.tailId :: restKeys ∧
    ∀ x ∈ restKeys, x ∈ L
  fresh : ∀ x, (lkp s.heap x).isSome → x < s.nextId
  dom : ∀ x, (lkp s.heap x).isSome ↔ (x = s.headId ∨ x = s.tailId ∨ x ∈ L)

/- ===== Observables on a well-formed state ===== -/

theorem iterFwd_run (s : SL) :
    ∀ (c : List Nat) (g : Nat),
      List.Chain' (stepsTo s 0) (c ++ [s.tailId]) →
      (∀ q ∈ c, q ≠ s.tailId ∧ (lkp s.heap q).isSome) →
      iterFwd s (c.length + 1 + g) (some (c.headD s.tailId)) = some c
  | [], g, _, _ => by
    rw [show ([] : List Nat).length + 1 + g = g + 1 from by
      simp only [List.length_nil]; omega]
    simp [iterFwd]
  | q :: c', g, hchain, hmem => by
    rw [show (q :: c').length + 1 + g = (c'.length + 1 + g) + 1 from by
      simp only [List.length_cons]; omega]
    obtain ⟨hqt, hqs⟩ := hmem q (List.mem_cons_self q c')
    rw [List.cons_append] at hchain
    rcases List.chain'_cons'.mp hchain with ⟨hhd, hchain'⟩
    have hstep : stepsTo s 0 q (c'.headD s.tailId) :=
      hhd _ (by rw [head?_append_one]; exact Option.mem_def.mpr rfl)
    simp only [stepsTo] at hstep
    have ih := iterFwd_run s c' g hchain'
      (fun x hx => hmem x (List.mem_cons_of_mem q hx))
    have hu : iterFwd s ((c'.length + 1 + g) + 1) (some ((q :: c').headD s.tailId))
        = match iterFwd s (c'.length + 1 + g) (some (c'.headD s.tailId)) with
          | none => none
          | some l => some (q :: l) := by
      simp [iterFwd, hqt, hstep]
    rw [hu, ih]

theorem toListFwd_rep (s : SL) (L : List Nat) (rep : RepInv s L) :
    toListFwd s = some L := by
  have ok := rep.toSearchOK
  have hlvl0 : lvl s L 0 = L := by
    rw [lvl, List.filter_eq_self.mpr]
    intro q hq
    have h1 := ok.hpos q hq
    simp only [decide_eq_true_eq]
    omega
  have hchain := ok.links 0 (by omega)
  rw [hlvl0] at hchain
  rcases List.chain'_cons'.mp hchain with ⟨hhd, hchain'⟩
  have hstep : stepsTo s 0 s.headId (L.headD s.tailId) :=
    hhd _ (by
      rw [show L.append [s.tailId] = L ++ [s.tailId] from rfl, head?_append_one]
      exact Option.mem_def.mpr rfl)
  simp only [stepsTo] at hstep
  have hmem : ∀ q ∈ L, q ≠ s.tailId ∧ (lkp s.heap q).isSome := fun q hq =>
    ⟨fun hEq => ok.tail_nmem (hEq ▸ hq), ok.memL q hq⟩
  have hfuel : s.heap.length + 1 = L.length + 1 + (s.heap.length - L.length) := by
    have := ok.len_lt; omega
  have hrun := iterFwd_run s L (s.heap.length - L.length) hchain' hmem
  rw [← hfuel] at hrun
  simp only [toListFwd]
  rw [hstep]
  exact hrun

theorem iterBwd_run (s : SL) :
    ∀ (c : List Nat) (g : Nat),
      List.Chain' (fun a b => (ndOf s a).backward = some b) (c ++ [s.headId]) →
      (∀ q ∈ c, q ≠ s.headId ∧ (lkp s.heap q).isSome) →
      iterBwd s (c.length + 1 + g) (some (c.headD s.headId)) = some c
  | [], g, _, _ => by
    rw [show ([] : List Nat).length + 1 + g = g + 1 from by
      simp only [List.length_nil]; omega]
    simp [iterBwd]
  | q :: c', g, hchain, hmem => by
    rw [show (q :: c').length + 1 + g = (c'.length + 1 + g) + 1 from by
      simp only [List.length_cons]; omega]
    obtain ⟨hqh, hqs⟩ := hmem q (List.mem_cons_self q c')
    obtain ⟨nq, hnq⟩ := Option.isSome_iff_exists.mp hqs
    rw [List.cons_append] at hchain
    rcases List.chain'_cons'.mp hchain with ⟨hhd, hchain'⟩
    have hstep : (ndOf s q).backward = some (c'.headD s.headId) :=
      hhd _ (by rw [head?_append_one]; exact Option.mem_def.mpr rfl)
    rw [ndOf_lkp hnq] at hstep
    have ih := iterBwd_run s c' g hchain'
      (fun x hx => hmem x (List.mem_cons_of_mem q hx))
    have hu : iterBwd s ((c'.length + 1 + g) + 1) (some ((q :: c').headD s.headId))
        = match iterBwd s (c'.length + 1 + g) (some (c'.headD s.headId)) with
          | none => none
          | some l => some (q :: l) := by
      simp [iterBwd, hqh, hnq, hstep]
    rw [hu, ih]

theorem toListBwd_rep (s : SL) (L : List Nat) (rep : RepInv s L) :
    toListBwd s = some L.reverse := by
  have ok := rep.toSearchOK
  have hrev : List.Chain' (fun a b => (ndOf s a).backward = some b)
      (s.tailId :: L.reverse ++ [s.headId]) := by
    have h1 := rep.bwds
    have h2 : (s.headId :: L ++ [s.tailId]).reverse
        = s.tailId :: L.reverse ++ [s.headId] := by simp
    rw [← h2]
    exact List.chain'_reverse.mpr h1
  rcases List.chain'_cons'.mp (by rw [List.cons_append] at hrev; exact hrev)
    with ⟨hhd, hchain'⟩
  have hstep : (ndOf s s.tailId).backward = some (L.reverse.headD s.headId) :=
    hhd _ (by rw [head?_append_one]; exact Option.mem_def.mpr rfl)
  obtain ⟨tn, htn⟩ := Option.isSome_iff_exists.mp rep.tail_mem
  rw [ndOf_lkp htn] at hstep
  have hmem : ∀ q ∈ L.reverse, q ≠ s.headId ∧ (lkp s.heap q).isSome := by
    intro q hq
    have hqL : q ∈ L := List.mem_reverse.mp hq
    exact ⟨fun hEq => ok.head_nmem (hEq ▸ hqL), ok.memL q hqL⟩
  have hfuel : s.heap.length + 1
      = L.reverse.length + 1 + (s.heap.length - L.length) := by
    have := ok.len_lt
    rw [List.length_reverse]
    omega
  have hrun := iterBwd_run s L.reverse (s.heap.length - L.length) hchain' hmem
  rw [← hfuel] at hrun
  simp only [toListBwd]
  rw [htn]
  change iterBwd s (s.heap.length + 1) tn.backward = some L.reverse
  rw [hstep]
  exact hrun

/- ===== Heap update helpers ===== -/

theorem fwdF_lkp {s : SL} {x : Nat} {nx : SNode} (h : lkp s.heap x = some nx)
    (i : Nat) : fwdF s x i = nx.forwards.get? i := by simp [fwdF, h]

theorem setF_some {s : SL} {x : Nat} {nx : SNode} (h : lkp s.heap x = some nx)
    (i : Nat) (hb : i < nx.forwards.length) (v : Option Nat) :
    setF s x i v = some { s with heap :=
      (updAt s.heap x (fun m => { m with forwards := m.forwards.set i v })) } := by
  simp [setF, h, hb]

theorem setB_some {s : SL} {x : Nat} {nx : SNode} (h : lkp s.heap x = some nx)
    (v : Option Nat) :
    setB s x v = some { s with heap :=
      (updAt s.heap x (fun m => { m with backward := v })) } := by
  simp [setB, h]

theorem prevAt_mem_hgt (s : SL) (L₁ : List Nat) (m : Nat) :
    prevAt s L₁ m = s.headId ∨
      (prevAt s L₁ m ∈ L₁ ∧ m < hgtOf s (prevAt s L₁ m)) := by
  by_cases hA : L₁.filter (fun q => decide (m < hgtOf s q)) = []
  · left; simp only [prevAt]; rw [hA]; rfl
  · right
    have hmem := getLastD_mem hA s.headId
    have hmem2 : prevAt s L₁ m ∈ L₁.filter (fun q => decide (m < hgtOf s q)) := by
      simp only [prevAt]; exact hmem
    refine ⟨(List.mem_filter.mp hmem2).1, ?_⟩
    have := (List.mem_filter.mp hmem2).2
    simpa using this

/-- Reading the level-i forward pointer of the level-i predecessor yields the
first level-i node of the upper block (tail when there is none). -/
theorem fge_read_lvl (s : SL) (L L₁ L₂ : List Nat) (ok : SearchOK s L)
    (hsplit : L = L₁ ++ L₂) (i : Nat) (hi : i < 20) :
    fwdF s (prevAt s L₁ i) i = some (some
      ((L₂.filter (fun q => decide (i < hgtOf s q))).headD s.tailId)) := by
  set B := L₁.filter (fun q => decide (i < hgtOf s q)) with hB
  set C := L₂.filter (fun q => decide (i < hgtOf s q)) with hC
  have hBC : lvl s L i = B ++ C := by rw [lvl, hsplit, List.filter_append]
  have hchain := ok.links i hi
  rw [hBC] at hchain
  have hlist : s.headId :: (B ++ C) ++ [s.tailId]
      = (s.headId :: B) ++ (C ++ [s.tailId]) := by simp
  rw [hlist] at hchain
  rcases List.chain'_append.mp hchain with ⟨_, _, hcross⟩
  have hread : stepsTo s i (B.getLastD s.headId) (C.headD s.tailId) :=
    hcross _ (by simp [getLast?_cons_eq]) _
      (by rw [head?_append_one]; exact Option.mem_def.mpr rfl)
  have hp : prevAt s L₁ i = B.getLastD s.headId := by simp only [prevAt]
  rw [hp]
  exact hread

/-- Characterization of the linking loop of insert / emplace_impl: it writes
the recorded predecessors' old level-m forwards into the new node and points
those predecessors at the new node, at exactly the levels [i, h), leaving
every other field and node untouched. -/
theorem linkLoop_run (n : Nat) (prevs : List (Option Nat)) (P : Nat → Nat)
    (h : Nat) (hh : h ≤ 20)
    (hprevs : ∀ m, m < 20 → prevs.get? m = some (some (P m)))
    (hPn : ∀ m, m < h → P m ≠ n)
    (k v : Int) (bw : Option Nat) :
    ∀ (cnt i : Nat) (t : SL) (fl : List (Option Nat)),
      i + cnt = h →
      lkp t.heap n = some ⟨k, v, h, fl, bw⟩ →
      fl.length = h →
      (∀ m, i ≤ m → m < h → ∃ nP, lkp t.heap (P m) = some nP ∧
        m < nP.forwards.length) →
      ∃ t', linkLoop n prevs t i cnt = some t' ∧
        t'.headId = t.headId ∧ t'.tailId = t.tailId ∧ t'.size = t.size ∧
        t'.nextId = t.nextId ∧ t'.heap.length = t.heap.length ∧
        (∃ fl', lkp t'.heap n = some ⟨k, v, h, fl', bw⟩ ∧ fl'.length = h ∧
          (∀ m, i ≤ m → m < h → fl'.get? m
            = (ndOf t (P m)).forwards.get? m) ∧
          (∀ m, (m < i ∨ h ≤ m) → fl'.get? m = fl.get? m)) ∧
        (∀ x, x ≠ n → ∀ nx, lkp t.heap x = some nx →
          ∃ fx, lkp t'.heap x = some ⟨nx.key, nx.val, nx.height, fx, nx.backward⟩ ∧
            fx.length = nx.forwards.length ∧
            (∀ m, i ≤ m → m < h → P m = x → fx.get? m = some (some n)) ∧
            (∀ m, ¬ (i ≤ m ∧ m < h ∧ P m = x) → fx.get? m = nx.forwards.get? m)) ∧
        (∀ x, lkp t.heap x = none → lkp t'.heap x = none)
  | 0, i, t, fl, hcnt, hn, hfl, _ => by
    refine ⟨t, rfl, rfl, rfl, rfl, rfl, rfl, ⟨fl, hn, hfl, ?_, fun _ _ => rfl⟩,
      ?_, fun x hx => hx⟩
    · intro m h1 h2; omega
    · intro x hx nx hnx
      refine ⟨nx.forwards, ?_, rfl, ?_, fun _ _ => rfl⟩
      · rw [hnx]
      · intro m h1 h2; omega
  | cnt+1, i, t, fl, hcnt, hn, hfl, hP => by
    have hih : i < h := by omega
    have hpi := hprevs i (by omega)
    obtain ⟨nP, hnP, hbP⟩ := hP i (le_refl i) hih
    have hfwd : fwdF t (P i) i = nP.forwards.get? i := fwdF_lkp hnP i
    obtain ⟨f, hf⟩ : ∃ o, nP.forwards.get? i = some o := by
      cases hg : nP.forwards.get? i with
      | none =>
        have hcon := List.get?_eq_none.mp hg
        exact absurd hbP (by omega)
      | some o => exact ⟨o, rfl⟩
    have hsetn := setF_some hn i (by show i < fl.length; omega) f
    set t1 : SL := { t with heap :=
      (updAt t.heap n (fun m => { m with forwards := m.forwards.set i f })) } with ht1
    have e1 : t1.heap = updAt t.heap n
        (fun m => { m with forwards := m.forwards.set i f }) := by rw [ht1]
    have hlkp1 : ∀ y, lkp t1.heap y
        = if y = n then some ⟨k, v, h, fl.set i f, bw⟩ else lkp t.heap y := by
      intro y
      rw [e1, lkp_updAt]
      by_cases hy : y = n <;> simp [hy, hn]
    have hnP1 : lkp t1.heap (P i) = some nP := by
      rw [hlkp1, if_neg (hPn i hih)]; exact hnP
    have hsetp := setF_some hnP1 i hbP (some n)
    set t2 : SL := { t1 with heap :=
      (updAt t1.heap (P i) (fun m => { m with forwards := m.forwards.set i (some n) })) } with ht2
    have e2 : t2.heap = updAt t1.heap (P i)
        (fun m => { m with forwards := m.forwards.set i (some n) }) := by rw [ht2]
    have hlkp2 : ∀ y, lkp t2.heap y
        = if y = P i then some { nP with forwards := nP.forwards.set i (some n) }
          else lkp t1.heap y := by
      intro y
      rw [e2, lkp_updAt]
      by_cases hy : y = P i <;> simp [hy, hnP1]
    have hn2 : lkp t2.heap n = some ⟨k, v, h, fl.set i f, bw⟩ := by
      rw [hlkp2, if_neg (Ne.symm (hPn i hih))]
      rw [hlkp1, if_pos rfl]
    have hP2 : ∀ m, i+1 ≤ m → m < h → ∃ nQ, lkp t2.heap (P m) = some nQ ∧
        m < nQ.forwards.length := by
      intro m h1 h2
      obtain ⟨nQ, hnQ, hbQ⟩ := hP m (by omega) h2
      by_cases hq : P m = P i
      · refine ⟨{ nP with forwards := nP.forwards.set i (some n) }, ?_, ?_⟩
        · rw [hlkp2, if_pos hq]
        · have : nQ = nP := by rw [hq] at hnQ; rw [hnQ] at hnP; exact Option.some.inj hnP
          simp [List.length_set]
          rw [← this]
          exact hbQ
      · refine ⟨nQ, ?_, hbQ⟩
        rw [hlkp2, if_neg hq, hlkp1, if_neg (hPn m h2)]
        exact hnQ
    obtain ⟨t', hloop, hhead, htail, hsize, hnext, hlen, ⟨fl', hfl'n, hfl'len, hfl'new, hfl'old⟩,
      hxchar, hnone⟩ :=
      linkLoop_run n prevs P h hh hprevs hPn k v bw cnt (i+1) t2 (fl.set i f)
        (by omega) hn2 (by simp [hfl]) hP2
    have hunf : linkLoop n prevs t i (cnt+1) = linkLoop n prevs t2 (i+1) cnt := by
      simp only [linkLoop]
      rw [hpi]
      show (match fwdF t (P i) i with
        | none => none
        | some f2 =>
          match setF t n i f2 with
          | none => none
          | some s1 =>
            match setF s1 (P i) i (some n) with
            | none => none
            | some s2 => linkLoop n prevs s2 (i+1) cnt) = _
      rw [hfwd, hf]
      show (match setF t n i f with
        | none => none
        | some s1 =>
          match setF s1 (P i) i (some n) with
          | none => none
          | some s2 => linkLoop n prevs s2 (i+1) cnt) = _
      rw [hsetn]
      show (match setF t1 (P i) i (some n) with
        | none => none
        | some s2 => linkLoop n prevs s2 (i+1) cnt) = _
      rw [hsetp]
    have hlen2 : t2.heap.length = t.heap.length := by
      rw [e2, updAt_length, e1, updAt_length]
    refine ⟨t', by rw [hunf]; exact hloop, hhead, htail, hsize, hnext,
      by rw [hlen, hlen2], ⟨fl', hfl'n, hfl'len, ?_, ?_⟩, ?_, ?_⟩
    · intro m h1 h2
      rcases Nat.lt_or_ge i m with hm | hm
      · rw [hfl'new m (by omega) h2]
        by_cases hq : P m = P i
        · rw [hq]
          have e2 : ndOf t2 (P i)
              = { nP with forwards := nP.forwards.set i (some n) } :=
            ndOf_lkp (by rw [hlkp2, if_pos rfl])
          have e1 : ndOf t (P i) = nP := ndOf_lkp hnP
          rw [e2, e1]
          show (nP.forwards.set i (some n)).get? m = nP.forwards.get? m
          rw [List.get?_set_of_lt' (some n) nP.forwards hbP, if_neg (by omega)]
        · have e : lkp t2.heap (P m) = lkp t.heap (P m) := by
            rw [hlkp2, if_neg hq, hlkp1, if_neg (hPn m h2)]
          rw [show ndOf t2 (P m) = ndOf t (P m) from by simp [ndOf, e]]
      · have hmi : m = i := by omega
        subst hmi
        rw [hfl'old m (Or.inl (by omega))]
        rw [List.get?_set_of_lt' f fl (by rw [hfl]; omega), if_pos rfl]
        rw [ndOf_lkp hnP, hf]
    · intro m hm
      rw [hfl'old m (by omega)]
      rw [List.get?_set_of_lt' f fl (by rw [hfl]; omega), if_neg (by omega)]
    · intro x hx nx hnx
      by_cases hq : x = P i
      · have hnxP : nx = nP := by
          rw [hq] at hnx; rw [hnx] at hnP; exact Option.some.inj hnP
        subst hnxP
        obtain ⟨fx, hfx, hfxlen, hfxnew, hfxold⟩ := hxchar x hx
          { nx with forwards := nx.forwards.set i (some n) }
          (by rw [hlkp2, if_pos hq])
        refine ⟨fx, hfx, by simpa using hfxlen, ?_, ?_⟩
        · intro m h1 h2 hPm
          rcases Nat.lt_or_ge i m with hm | hm
          · exact hfxnew m (by omega) h2 hPm
          · have hmi : m = i := by omega
            subst hmi
            rw [hfxold m (by omega)]
            show (nx.forwards.set m (some n)).get? m = some (some n)
            rw [List.get?_set_of_lt' (some n) nx.forwards hbP, if_pos rfl]
        · intro m hcond
          have hmne : m ≠ i := by
            intro hEq
            subst hEq
            exact hcond ⟨le_refl m, by omega, hq.symm⟩
          have := hfxold m (fun hc => hcond ⟨by omega, hc.2.1, hc.2.2⟩)
          rw [this]
          show (nx.forwards.set i (some n)).get? m = nx.forwards.get? m
          rw [List.get?_set_of_lt' (some n) nx.forwards hbP, if_neg (by omega)]
      · have e : lkp t2.heap x = some nx := by
          rw [hlkp2, if_neg hq, hlkp1, if_neg hx]
          exact hnx
        obtain ⟨fx, hfx, hfxlen, hfxnew, hfxold⟩ := hxchar x hx nx e
        refine ⟨fx, hfx, hfxlen, ?_, ?_⟩
        · intro m h1 h2 hPm
          have hmne : m ≠ i := fun hEq => hq (by rw [← hPm, hEq])
          exact hfxnew m (by omega) h2 hPm
        · intro m hcond
          exact hfxold m (fun hc => hcond ⟨le_trans (Nat.le_succ i) hc.1, hc.2.1, hc.2.2⟩)
    · intro x hxnone
      have hxn : x ≠ n := by
        intro hEq; rw [hEq, hn] at hxnone; exact Option.noConfusion hxnone
      have hxP : x ≠ P i := by
        intro hEq; rw [hEq, hnP] at hxnone; exact Option.noConfusion hxnone
      apply hnone
      rw [hlkp2, if_neg hxP, hlkp1, if_neg hxn]
      exact hxnone

/- ===== More update helpers ===== -/

theorem lkp_alloc_old (s : SL) (h : Nat) (k v : Int)
    (hfresh : ∀ x, (lkp s.heap x).isSome → x < s.nextId)
    (y : Nat) (hy : y ≠ s.nextId) :
    lkp (allocNode s h k v).heap y = lkp s.heap y := by
  cases hl : lkp s.heap y with
  | some nn =>
    exact lkp_append_some hl _
  | none =>
    show lkp (s.heap ++ [(s.nextId, ⟨k, v, h, List.replicate h none, none⟩)]) y = none
    rw [lkp_append_none hl]
    simp [lkp, Ne.symm hy]

theorem lkp_alloc_new (s : SL) (h : Nat) (k v : Int)
    (hfresh : ∀ x, (lkp s.heap x).isSome → x < s.nextId) :
    lkp (allocNode s h k v).heap s.nextId
      = some ⟨k, v, h, List.replicate h none, none⟩ := by
  show lkp (s.heap ++ [(s.nextId, ⟨k, v, h, List.replicate h none, none⟩)]) s.nextId
    = _
  rw [lkp_append_none (lkp_none_of_fresh hfresh)]
  simp [lkp]

theorem setF_inv {s s' : SL} {x i : Nat} {v : Option Nat}
    (h : setF s x i v = some s') :
    s'.heap = updAt s.heap x (fun m => { m with forwards := m.forwards.set i v }) ∧
    s'.headId = s.headId ∧ s'.tailId = s.tailId ∧ s'.size = s.size ∧
    s'.nextId = s.nextId := by
  unfold setF at h
  cases hl : lkp s.heap x with
  | none => rw [hl] at h; exact Option.noConfusion h
  | some nn =>
    rw [hl] at h
    dsimp only at h
    by_cases hb : i < nn.forwards.length
    · rw [if_pos hb] at h
      obtain rfl := (Option.some.inj h).symm
      exact ⟨rfl, rfl, rfl, rfl, rfl⟩
    · rw [if_neg hb] at h
      exact Option.noConfusion h

theorem setB_inv {s s' : SL} {x : Nat} {v : Option Nat}
    (h : setB s x v = some s') :
    s'.heap = updAt s.heap x (fun m => { m with backward := v }) ∧
    s'.headId = s.headId ∧ s'.tailId = s.tailId ∧ s'.size = s.size ∧
    s'.nextId = s.nextId := by
  unfold setB at h
  cases hl : lkp s.heap x with
  | none => rw [hl] at h; exact Option.noConfusion h
  | some nn =>
    rw [hl] at h
    dsimp only at h
    obtain rfl := (Option.some.inj h).symm
    exact ⟨rfl, rfl, rfl, rfl, rfl⟩

theorem updAt_keys (x : Nat) (f : SNode → SNode) :
    ∀ hp : List (Nat × SNode), (updAt hp x f).map Prod.fst = hp.map Prod.fst
  | [] => rfl
  | e :: t => by
    have ih := updAt_keys x f t
    by_cases h : e.1 = x <;> simp [updAt, h] <;>
      simpa [updAt] using ih

theorem linkLoop_keys (n : Nat) (prevs : List (Option Nat)) :
    ∀ (cnt i : Nat) (t t' : SL), linkLoop n prevs t i cnt = some t' →
      t'.heap.map Prod.fst = t.heap.map Prod.fst
  | 0, i, t, t', heq => by
    simp only [linkLoop] at heq
    rw [← Option.some.inj heq]
  | cnt+1, i, t, t', heq => by
    simp only [linkLoop] at heq
    cases hp : prevs.get? i with
    | none => rw [hp] at heq; exact Option.noConfusion heq
    | some p0 =>
      rw [hp] at heq
      cases p0 with
      | none => exact Option.noConfusion heq
      | some p =>
        dsimp only at heq
        cases hw : fwdF t p i with
        | none => rw [hw] at heq; exact Option.noConfusion heq
        | some f =>
          rw [hw] at heq
          dsimp only at heq
          cases hs1 : setF t n i f with
          | none => rw [hs1] at heq; exact Option.noConfusion heq
          | some s1 =>
            rw [hs1] at heq
            dsimp only at heq
            cases hs2 : setF s1 p i (some n) with
            | none => rw [hs2] at heq; exact Option.noConfusion heq
            | some s2 =>
              rw [hs2] at heq
              dsimp only at heq
              have ih := linkLoop_keys n prevs cnt (i+1) s2 t' heq
              rw [ih, (setF_inv hs2).1, updAt_keys, (setF_inv hs1).1, updAt_keys]

theorem mem_of_mem_dropLast {α : Type} :
    ∀ {l : List α} {x : α}, x ∈ l.dropLast → x ∈ l
  | [], _, hx => absurd hx (List.not_mem_nil _)
  | [a], _, hx => by simp [List.dropLast] at hx
  | a :: b :: t, x, hx => by
    rw [List.dropLast_cons₂] at hx
    rcases List.mem_cons.mp hx with hc | hc
    · exact hc ▸ List.mem_cons_self _ _
    · exact List.mem_cons_of_mem _ (mem_of_mem_dropLast hc)

theorem getLastD_cases {α : Type} (l : List α) (d : α) :
    l.getLastD d = d ∨ l.getLastD d ∈ l := by
  cases l with
  | nil => left; rfl
  | cons a t => right; exact getLastD_mem (List.cons_ne_nil a t) d

/-- Allocation plus the common linking block of insert / emplace_impl yields a
state satisfying the representation invariant for the list with the new node
spliced in between the two key blocks. -/
theorem insert_rep (s : SL) (L L₁ L₂ : List Nat) (k v : Int) (h : Nat)
    (rep : RepInv s L) (hsplit : L = L₁ ++ L₂)
    (hlt : ∀ q ∈ L₁, keyOf s q < k) (hgt2 : ∀ q ∈ L₂, k < keyOf s q)
    (h1 : 1 ≤ h) (h20 : h ≤ 20)
    (prevs : List (Option Nat))
    (hprevs : ∀ m, m < 20 → prevs.get? m = some (some (prevAt s L₁ m))) :
    ∃ s', linkNode (allocNode s h k v) s.nextId prevs h = some s' ∧
      RepInv s' (L₁ ++ s.nextId :: L₂) ∧
      s'.headId = s.headId ∧ s'.tailId = s.tailId ∧ s'.size = s.size + 1 ∧
      s'.nextId = s.nextId + 1 := by
  have ok := rep.toSearchOK
  set n := s.nextId with hn_def
  set P : Nat → Nat := fun m => prevAt s L₁ m with hP_def
  set succ := L₂.headD s.tailId with hsucc_def
  have hmemL₁ : ∀ q ∈ L₁, q ∈ L := fun q hq => hsplit ▸ List.mem_append_left L₂ hq
  have hmemL₂ : ∀ q ∈ L₂, q ∈ L := fun q hq => hsplit ▸ List.mem_append_right L₁ hq
  have hLlt : ∀ q ∈ L, q < n := fun q hq => rep.fresh q (ok.memL q hq)
  have hheadlt : s.headId < n := rep.fresh _ ok.head_mem
  have htaillt : s.tailId < n := rep.fresh _ rep.tail_mem
  have htailL₁ : s.tailId ∉ L₁ := fun hc => ok.tail_nmem (hmemL₁ _ hc)
  have htailL₂ : s.tailId ∉ L₂ := fun hc => ok.tail_nmem (hmemL₂ _ hc)
  have hheadL₁ : s.headId ∉ L₁ := fun hc => ok.head_nmem (hmemL₁ _ hc)
  have hheadL₂ : s.headId ∉ L₂ := fun hc => ok.head_nmem (hmemL₂ _ hc)
  have hdisj : List.Disjoint L₁ L₂ :=
    (List.nodup_append.mp (hsplit ▸ ok.nodupL)).2.2
  have hPmem : ∀ m, P m = s.headId ∨ (P m ∈ L₁ ∧ m < hgtOf s (P m)) :=
    fun m => prevAt_mem_hgt s L₁ m
  have hPlt : ∀ m, P m < n := by
    intro m
    rcases hPmem m with hc | hc
    · rw [hc]; exact hheadlt
    · exact hLlt _ (hmemL₁ _ hc.1)
  have hPn : ∀ m, m < h → P m ≠ n := fun m _ => Nat.ne_of_lt (hPlt m)
  have hsucc_cases : succ = s.tailId ∨ succ ∈ L₂ := by
    rw [hsucc_def]
    cases L₂ with
    | nil => left; rfl
    | cons c t => right; simp
  have hsucclt : succ < n := by
    rcases hsucc_cases with hc | hc
    · rw [hc]; exact htaillt
    · exact hLlt _ (hmemL₂ _ hc)
  have hsuccn : succ ≠ n := Nat.ne_of_lt hsucclt
  have hsuccP : ∀ m, succ ≠ P m := by
    intro m
    rcases hsucc_cases with hc | hc <;> rcases hPmem m with hd | hd
    · rw [hc, hd]; exact Ne.symm ok.ht_ne
    · rw [hc]; exact fun hEq => htailL₁ (hEq ▸ hd.1)
    · rw [hd]; exact fun hEq => hheadL₂ (hEq ▸ hc)
    · exact fun hEq => hdisj (hEq ▸ hd.1) hc
  have hPlook : ∀ m, m < h → ∃ nP, lkp s.heap (P m) = some nP ∧
      m < nP.forwards.length := by
    intro m hm
    rcases hPmem m with hc | hc
    · obtain ⟨hd, hhd⟩ := Option.isSome_iff_exists.mp ok.head_mem
      refine ⟨hd, by rw [hc]; exact hhd, ?_⟩
      have hl := ok.head_len
      rw [ndOf_lkp hhd] at hl
      omega
    · obtain ⟨nP, hnP⟩ := Option.isSome_iff_exists.mp (ok.memL _ (hmemL₁ _ hc.1))
      have hflen := ok.flen _ (hmemL₁ _ hc.1)
      rw [ndOf_lkp hnP] at hflen
      refine ⟨nP, hnP, ?_⟩
      rw [hflen]
      have hh := hc.2
      rw [hgtOf] at hh ⊢
      rw [ndOf_lkp hnP] at hh ⊢
      exact hh
  have hl1new := lkp_alloc_new s h k v rep.fresh
  have hsetb1 := setB_some hl1new (some (P 0))
  set s2 : SL := { allocNode s h k v with heap :=
    (updAt (allocNode s h k v).heap n (fun m => { m with backward := some (P 0) })) }
    with hs2_def
  have hl2 : ∀ y, lkp s2.heap y
      = if y = n then some ⟨k, v, h, List.replicate h none, some (P 0)⟩
        else lkp s.heap y := by
    intro y
    have e : s2.heap = updAt (allocNode s h k v).heap n
        (fun m => { m with backward := some (P 0) }) := by rw [hs2_def]
    rw [e, lkp_updAt]
    by_cases hy : y = n
    · simp [hy, hl1new]
    · simp [hy, lkp_alloc_old s h k v rep.fresh y hy]
  have hfwd0 : fwdF s2 (P 0) 0 = some (some succ) := by
    have hread := fge_read s L L₁ L₂ ok hsplit
    have e : lkp s2.heap (P 0) = lkp s.heap (P 0) := by
      rw [hl2, if_neg (hPn 0 (by omega))]
    rw [show fwdF s2 (P 0) 0 = fwdF s (P 0) 0 from by unfold fwdF; rw [e]]
    exact hread
  obtain ⟨nsucc, hnsucc⟩ : ∃ x, lkp s.heap succ = some x := by
    rcases hsucc_cases with hc | hc
    · rw [hc]; exact Option.isSome_iff_exists.mp rep.tail_mem
    · exact Option.isSome_iff_exists.mp (ok.memL succ (hmemL₂ succ hc))
  have hl2succ : lkp s2.heap succ = some nsucc := by
    rw [hl2, if_neg hsuccn]; exact hnsucc
  have hsetb2 := setB_some hl2succ (some n)
  set s3 : SL := { s2 with heap :=
    (updAt s2.heap succ (fun m => { m with backward := some n })) } with hs3_def
  have hl3 : ∀ y, lkp s3.heap y =
      if y = n then some ⟨k, v, h, List.replicate h none, some (P 0)⟩
      else if y = succ then some { nsucc with backward := some n }
      else lkp s.heap y := by
    intro y
    have e : s3.heap = updAt s2.heap succ
        (fun m => { m with backward := some n }) := by rw [hs3_def]
    rw [e, lkp_updAt]
    by_cases hy : y = succ
    · subst hy
      rw [if_pos rfl, hl2succ, if_neg hsuccn, if_pos rfl]
      rfl
    · rw [if_neg hy, hl2]
      by_cases hyn : y = n
      · rw [if_pos hyn, if_pos hyn]
      · rw [if_neg hyn, if_neg hyn, if_neg hy]
  have hl3n : lkp s3.heap n
      = some ⟨k, v, h, List.replicate h none, some (P 0)⟩ := by
    rw [hl3, if_pos rfl]
  have hl3P : ∀ m, 0 ≤ m → m < h → ∃ nP, lkp s3.heap (P m) = some nP ∧
      m < nP.forwards.length := by
    intro m _ hm
    obtain ⟨nP, hnP, hb⟩ := hPlook m hm
    refine ⟨nP, ?_, hb⟩
    rw [hl3, if_neg (hPn m hm), if_neg (Ne.symm (hsuccP m))]
    exact hnP
  obtain ⟨s4, hloop, hhead4, htail4, hsize4, hnext4, hlen4,
      ⟨flN, hflNn, hflNlen, hflNnew, hflNold⟩, hxchar, hnone4⟩ :=
    linkLoop_run n prevs P h h20 hprevs (fun m hm => hPn m hm) k v (some (P 0))
      h 0 s3 (List.replicate h none) (by omega) hl3n (by simp) hl3P
  have hlink : linkNode (allocNode s h k v) n prevs h
      = some { s4 with size := s4.size + 1 } := by
    simp only [linkNode]
    rw [hprevs 0 (by omega)]
    show (match setB (allocNode s h k v) n (some (P 0)) with
      | none => none
      | some s1 =>
        match fwdF s1 (P 0) 0 with
        | none => none
        | some none => none
        | some (some sc) =>
          match setB s1 sc (some n) with
          | none => none
          | some t2 =>
            match linkLoop n prevs t2 0 h with
            | none => none
            | some t3 => some { t3 with size := t3.size + 1 }) = _
    rw [hsetb1]
    show (match fwdF s2 (P 0) 0 with
      | none => none
      | some none => none
      | some (some sc) =>
        match setB s2 sc (some n) with
        | none => none
        | some t2 =>
          match linkLoop n prevs t2 0 h with
          | none => none
          | some t3 => some { t3 with size := t3.size + 1 }) = _
    rw [hfwd0]
    show (match setB s2 succ (some n) with
      | none => none
      | some t2 =>
        match linkLoop n prevs t2 0 h with
        | none => none
        | some t3 => some { t3 with size := t3.size + 1 }) = _
    rw [hsetb2]
    show (match linkLoop n prevs s3 0 h with
      | none => none
      | some t3 => some { t3 with size := t3.size + 1 }) = _
    rw [hloop]
  set s' : SL := { s4 with size := s4.size + 1 } with hsP_def
  have hfinheap : s'.heap = s4.heap := by rw [hsP_def]
  have hhead' : s'.headId = s.headId := by
    rw [hsP_def]
    show s4.headId = s.headId
    rw [hhead4]
    rfl
  have htail' : s'.tailId = s.tailId := by
    rw [hsP_def]
    show s4.tailId = s.tailId
    rw [htail4]
    rfl
  have hsize' : s'.size = s.size + 1 := by
    rw [hsP_def]
    show s4.size + 1 = s.size + 1
    rw [hsize4]
    rfl
  have hnext' : s'.nextId = n + 1 := by
    rw [hsP_def]
    show s4.nextId = n + 1
    rw [hnext4]
    rfl
  have e3heap : s3.heap = updAt s2.heap succ
      (fun m => { m with backward := some n }) := by rw [hs3_def]
  have e2heap : s2.heap = updAt (allocNode s h k v).heap n
      (fun m => { m with backward := some (P 0) }) := by rw [hs2_def]
  have hlen' : s'.heap.length = s.heap.length + 1 := by
    rw [hfinheap, hlen4, e3heap, updAt_length, e2heap, updAt_length]
    show (s.heap ++ [(n, (⟨k, v, h, List.replicate h none, none⟩ : SNode))]).length
        = s.heap.length + 1
    simp
  -- final lookups, relative to the original state
  have hfinN : lkp s'.heap n = some ⟨k, v, h, flN, some (P 0)⟩ := by
    rw [hfinheap]; exact hflNn
  have hfinNnew : ∀ m, m < h → flN.get? m = some (some
      ((L₂.filter (fun q => decide (m < hgtOf s q))).headD s.tailId)) := by
    intro m hm
    rw [hflNnew m (by omega) hm]
    obtain ⟨nP, hnP, hb⟩ := hPlook m hm
    have e3 : lkp s3.heap (P m) = some nP := by
      rw [hl3, if_neg (hPn m hm), if_neg (Ne.symm (hsuccP m))]
      exact hnP
    rw [ndOf_lkp e3]
    have hr := fge_read_lvl s L L₁ L₂ ok hsplit m (by omega)
    rw [fwdF_lkp hnP m] at hr
    exact hr
  have hfinNold : ∀ m, h ≤ m → flN.get? m = none := by
    intro m hm
    rw [hflNold m (Or.inr hm)]
    exact List.get?_len_le (by simp; omega)
  have hfinX : ∀ x, x ≠ n → ∀ nx, lkp s.heap x = some nx →
      ∃ fx, lkp s'.heap x = some ⟨nx.key, nx.val, nx.height, fx,
          (if x = succ then some n else nx.backward)⟩ ∧
        fx.length = nx.forwards.length ∧
        (∀ m, m < h → P m = x → fx.get? m = some (some n)) ∧
        (∀ m, ¬ (m < h ∧ P m = x) → fx.get? m = nx.forwards.get? m) := by
    intro x hx nx hnx
    by_cases hxs : x = succ
    · subst hxs
      have hnn : nx = nsucc := by
        rw [hnx] at hnsucc; exact Option.some.inj hnsucc
      subst hnn
      obtain ⟨fx, hfx, hfl, hnew, hold⟩ := hxchar succ hx
        { nx with backward := some n } (by rw [hl3, if_neg hx, if_pos rfl])
      refine ⟨fx, ?_, by simpa using hfl, ?_, ?_⟩
      · rw [if_pos rfl, hfinheap]; exact hfx
      · intro m hm hPm; exact hnew m (by omega) hm hPm
      · intro m hcond
        exact hold m (fun hc => hcond ⟨hc.2.1, hc.2.2⟩)
    · obtain ⟨fx, hfx, hfl, hnew, hold⟩ := hxchar x hx nx
        (by rw [hl3, if_neg hx, if_neg hxs]; exact hnx)
      refine ⟨fx, ?_, hfl, ?_, ?_⟩
      · rw [if_neg hxs, hfinheap]; exact hfx
      · intro m hm hPm; exact hnew m (by omega) hm hPm
      · intro m hcond
        exact hold m (fun hc => hcond ⟨hc.2.1, hc.2.2⟩)
  have hfinNone : ∀ x, x ≠ n → lkp s.heap x = none → lkp s'.heap x = none := by
    intro x hx hno
    have hxs : x ≠ succ := fun hEq => by
      rw [hEq, hnsucc] at hno; exact Option.noConfusion hno
    rw [hfinheap]
    apply hnone4
    rw [hl3, if_neg hx, if_neg hxs]
    exact hno
  -- transfer facts
  have hkeyn : keyOf s' n = k := by rw [keyOf, ndOf_lkp hfinN]
  have hhgtn : hgtOf s' n = h := by rw [hgtOf, ndOf_lkp hfinN]
  have hkeyL : ∀ x ∈ L, keyOf s' x = keyOf s x := by
    intro x hxL
    obtain ⟨nx, hnx⟩ := Option.isSome_iff_exists.mp (ok.memL x hxL)
    obtain ⟨fx, hfx, _, _, _⟩ := hfinX x (Nat.ne_of_lt (hLlt x hxL)) nx hnx
    rw [keyOf, ndOf_lkp hfx, keyOf, ndOf_lkp hnx]
  have hhgtL : ∀ x ∈ L, hgtOf s' x = hgtOf s x := by
    intro x hxL
    obtain ⟨nx, hnx⟩ := Option.isSome_iff_exists.mp (ok.memL x hxL)
    obtain ⟨fx, hfx, _, _, _⟩ := hfinX x (Nat.ne_of_lt (hLlt x hxL)) nx hnx
    rw [hgtOf, ndOf_lkp hfx, hgtOf, ndOf_lkp hnx]
  have hnL : n ∉ L := fun hc => lt_irrefl n (hLlt n hc)
  have hstep_pres : ∀ i x, x ≠ n → (h ≤ i ∨ x ≠ P i) → ∀ y,
      stepsTo s i x y → stepsTo s' i x y := by
    intro i x hxn hcond y hxy
    simp only [stepsTo] at hxy ⊢
    cases hlx : lkp s.heap x with
    | none =>
      rw [show fwdF s x i = none from by unfold fwdF; rw [hlx]] at hxy
      exact Option.noConfusion hxy
    | some nx =>
      rw [fwdF_lkp hlx i] at hxy
      obtain ⟨fx, hfx, _, _, hold⟩ := hfinX x hxn nx hlx
      rw [fwdF_lkp hfx i]
      show fx.get? i = some (some y)
      rw [hold i (fun hc => by
        rcases hcond with hc1 | hc1
        · omega
        · exact hc1 hc.2.symm)]
      exact hxy
  have hbwd_pres : ∀ b, b ≠ n → b ≠ succ → ∀ nb, lkp s.heap b = some nb →
      (ndOf s' b).backward = nb.backward := by
    intro b hbn hbs nb hnb
    obtain ⟨fx, hfx, _, _, _⟩ := hfinX b hbn nb hnb
    rw [ndOf_lkp hfx]
    simp [hbs]
  have hbwd_succ : (ndOf s' succ).backward = some n := by
    obtain ⟨fx, hfx, _, _, _⟩ := hfinX succ hsuccn nsucc hnsucc
    rw [ndOf_lkp hfx]
    simp
  have hbwd_n : (ndOf s' n).backward = some (P 0) := by rw [ndOf_lkp hfinN]
  have hstep_Pi : ∀ i, i < h → stepsTo s' i (P i) n := by
    intro i hi
    obtain ⟨nP, hnP, _⟩ := hPlook i hi
    obtain ⟨fx, hfx, _, hnew, _⟩ := hfinX (P i) (hPn i hi) nP hnP
    simp only [stepsTo]
    rw [fwdF_lkp hfx i]
    exact hnew i hi rfl
  have hstep_n : ∀ i, i < h → stepsTo s' i n
      ((L₂.filter (fun q => decide (i < hgtOf s q))).headD s.tailId) := by
    intro i hi
    simp only [stepsTo]
    rw [fwdF_lkp hfinN i]
    exact hfinNnew i hi
  have hPne_tail : ∀ m, P m ≠ s.tailId := by
    intro m
    rcases hPmem m with hc | hc
    · rw [hc]; exact ok.ht_ne
    · exact fun hEq => htailL₁ (hEq ▸ hc.1)
  have hP0 : P 0 = L₁.getLastD s.headId := by
    show prevAt s L₁ 0 = L₁.getLastD s.headId
    simp only [prevAt]
    rw [List.filter_eq_self.mpr]
    intro q hq
    have h1q := ok.hpos q (hmemL₁ q hq)
    simp only [decide_eq_true_eq]
    omega
  have hlookup' : ∀ x ∈ L, (lkp s'.heap x).isSome := by
    intro x hxL
    obtain ⟨nx, hnx⟩ := Option.isSome_iff_exists.mp (ok.memL x hxL)
    obtain ⟨fx, hfx, _, _, _⟩ := hfinX x (Nat.ne_of_lt (hLlt x hxL)) nx hnx
    rw [hfx]
    rfl
  -- lvl description in the new state
  have hB_eq : ∀ i, L₁.filter (fun q => decide (i < hgtOf s' q))
      = L₁.filter (fun q => decide (i < hgtOf s q)) := by
    intro i
    apply List.filter_congr
    intro q hq
    rw [hhgtL q (hmemL₁ q hq)]
  have hC_eq : ∀ i, L₂.filter (fun q => decide (i < hgtOf s' q))
      = L₂.filter (fun q => decide (i < hgtOf s q)) := by
    intro i
    apply List.filter_congr
    intro q hq
    rw [hhgtL q (hmemL₂ q hq)]
  have hlvl' : ∀ i, lvl s' (L₁ ++ n :: L₂) i
      = L₁.filter (fun q => decide (i < hgtOf s q))
        ++ ((if i < h then [n] else [])
        ++ L₂.filter (fun q => decide (i < hgtOf s q))) := by
    intro i
    rw [lvl, List.filter_append, hB_eq, List.filter_cons, hC_eq, hhgtn]
    by_cases hih : i < h
    · simp [hih]
    · simp [hih]
  have hnext'' : s'.nextId = s.nextId + 1 := by rw [hnext']
  refine ⟨s', hlink, ?_, hhead', htail', hsize', hnext''⟩
  have hL'mem : ∀ q ∈ L₁ ++ n :: L₂, q = n ∨ q ∈ L := by
    intro q hq
    rcases List.mem_append.mp hq with hc | hc
    · right; exact hmemL₁ q hc
    · rcases List.mem_cons.mp hc with hc2 | hc2
      · left; exact hc2
      · right; exact hmemL₂ q hc2
  have hheadn : s.headId ≠ n := Nat.ne_of_lt hheadlt
  have htailn : s.tailId ≠ n := Nat.ne_of_lt htaillt
  have hheadsucc : s.headId ≠ succ := by
    rcases hsucc_cases with hc | hc
    · rw [hc]; exact ok.ht_ne
    · exact fun hEq => hheadL₂ (by rw [hEq]; exact hc)
  obtain ⟨hd, hhd⟩ := Option.isSome_iff_exists.mp ok.head_mem
  obtain ⟨fH, hfH0, hfHlen, hfHnew, hfHold⟩ := hfinX s.headId hheadn hd hhd
  rw [if_neg hheadsucc] at hfH0
  obtain ⟨tn, htn⟩ := Option.isSome_iff_exists.mp rep.tail_mem
  obtain ⟨fT, hfT0, hfTlen, hfTnew, hfTold⟩ := hfinX s.tailId htailn tn htn
  have hfT_eq : fT = tn.forwards := by
    apply List.ext_get?
    intro m
    apply hfTold
    intro hc
    exact hPne_tail m hc.2
  have hkeys4 : s'.heap.map Prod.fst = s.heap.map Prod.fst ++ [n] := by
    rw [hfinheap, linkLoop_keys n prevs h 0 s3 s4 hloop, e3heap, updAt_keys,
      e2heap, updAt_keys]
    show ((s.heap ++ [(n, (⟨k, v, h, List.replicate h none, none⟩ : SNode))]).map
        Prod.fst) = s.heap.map Prod.fst ++ [n]
    simp
  have hsorted' : (L₁ ++ n :: L₂).Pairwise (fun a b => keyOf s' a < keyOf s' b) := by
    have hs0 : L.Pairwise (fun a b => keyOf s a < keyOf s b) := ok.sorted
    rw [hsplit] at hs0
    obtain ⟨hp1, hp2, hcr⟩ := List.pairwise_append.mp hs0
    apply List.pairwise_append.mpr
    refine ⟨?_, ?_, ?_⟩
    · apply hp1.imp_of_mem
      intro a b ha hb hab
      rw [hkeyL a (hmemL₁ a ha), hkeyL b (hmemL₁ b hb)]
      exact hab
    · apply List.pairwise_cons.mpr
      refine ⟨?_, ?_⟩
      · intro b hb
        rw [hkeyn, hkeyL b (hmemL₂ b hb)]
        exact hgt2 b hb
      · apply hp2.imp_of_mem
        intro a b ha hb hab
        rw [hkeyL a (hmemL₂ a ha), hkeyL b (hmemL₂ b hb)]
        exact hab
    · intro a ha b hb
      rcases List.mem_cons.mp hb with hc | hc
      · rw [hc, hkeyn, hkeyL a (hmemL₁ a ha)]
        exact hlt a ha
      · rw [hkeyL a (hmemL₁ a ha), hkeyL b (hmemL₂ b hc)]
        exact hcr a ha b hc
  have hlinks' : ∀ i, i < 20 →
      List.Chain' (stepsTo s' i)
        (s'.headId :: lvl s' (L₁ ++ n :: L₂) i ++ [s'.tailId]) := by
    intro i hi20
    rw [hlvl' i, hhead', htail']
    set B := L₁.filter (fun q => decide (i < hgtOf s q)) with hB_def
    set C := L₂.filter (fun q => decide (i < hgtOf s q)) with hC_def
    have hmemB : ∀ q ∈ B, q ∈ L₁ := by
      intro q hq
      rw [hB_def] at hq
      exact (List.mem_filter.mp hq).1
    have hmemC : ∀ q ∈ C, q ∈ L₂ := by
      intro q hq
      rw [hC_def] at hq
      exact (List.mem_filter.mp hq).1
    have hBn : ∀ q ∈ B, q ≠ n :=
      fun q hq => Nat.ne_of_lt (hLlt q (hmemL₁ q (hmemB q hq)))
    have hCn : ∀ q ∈ C, q ≠ n :=
      fun q hq => Nat.ne_of_lt (hLlt q (hmemL₂ q (hmemC q hq)))
    have hold := ok.links i hi20
    have hre : lvl s L i = B ++ C := by
      rw [lvl, hsplit, List.filter_append]
    rw [hre, show s.headId :: (B ++ C) ++ [s.tailId]
        = (s.headId :: B) ++ (C ++ [s.tailId]) from by simp] at hold
    obtain ⟨hcHB, hcCT, hcrossOld⟩ := List.chain'_append.mp hold
    have hndHB : (s.headId :: B).Nodup := by
      rw [List.nodup_cons]
      refine ⟨fun hc => hheadL₁ (hmemB _ hc), ?_⟩
      rw [hB_def]
      exact List.Nodup.filter _ (List.nodup_append.mp (hsplit ▸ ok.nodupL)).1
    have hPieq : P i = B.getLastD s.headId := by
      show prevAt s L₁ i = B.getLastD s.headId
      rw [hB_def]
      simp only [prevAt]
    have hCne : ∀ x ∈ C, x ≠ P i := by
      intro x hxC
      rcases hPmem i with hc | hc
      · rw [hc]
        exact fun hEq => hheadL₂ (hEq ▸ hmemC x hxC)
      · exact fun hEq => hdisj hc.1 (by rw [← hEq]; exact hmemC x hxC)
    by_cases hih : i < h
    · rw [if_pos hih]
      rw [show s.headId :: (B ++ ([n] ++ C)) ++ [s.tailId]
          = (s.headId :: B) ++ ((n :: C) ++ [s.tailId]) from by simp]
      apply List.chain'_append.mpr
      refine ⟨?_, ?_, ?_⟩
      · apply chain'_imp_fst hcHB
        intro x hx y hr
        have hxne : x ≠ B.getLastD s.headId := mem_dropLast_ne_getLastD hndHB hx
        have hxmem : x ∈ s.headId :: B := mem_of_mem_dropLast hx
        have hxn : x ≠ n := by
          rcases List.mem_cons.mp hxmem with hc | hc
          · rw [hc]; exact hheadn
          · exact hBn x hc
        refine hstep_pres i x hxn (Or.inr ?_) y hr
        rw [hPieq]
        exact hxne
      · rw [List.cons_append]
        apply List.chain'_cons'.mpr
        refine ⟨?_, ?_⟩
        · intro y hy
          rw [head?_append_one] at hy
          have hyv : C.headD s.tailId = y := by simpa using hy
          rw [← hyv]
          exact hstep_n i hih
        · apply chain'_imp_fst hcCT
          intro x hx y hr
          have hxC : x ∈ C := by rwa [List.dropLast_concat] at hx
          exact hstep_pres i x (hCn x hxC) (Or.inr (hCne x hxC)) y hr
      · intro x hx y hy
        rw [getLast?_cons_eq] at hx
        have hxv : B.getLastD s.headId = x := by simpa using hx
        have hyv : n = y := by
          rw [List.cons_append] at hy
          simpa using hy
        rw [← hxv, ← hyv, ← hPieq]
        exact hstep_Pi i hih
    · rw [if_neg hih]
      rw [show s.headId :: (B ++ ([] ++ C)) ++ [s.tailId]
          = (s.headId :: B) ++ (C ++ [s.tailId]) from by simp]
      apply List.chain'_append.mpr
      refine ⟨?_, ?_, ?_⟩
      · apply chain'_imp_fst hcHB
        intro x hx y hr
        have hxmem : x ∈ s.headId :: B := mem_of_mem_dropLast hx
        have hxn : x ≠ n := by
          rcases List.mem_cons.mp hxmem with hc | hc
          · rw [hc]; exact hheadn
          · exact hBn x hc
        exact hstep_pres i x hxn (Or.inl (by omega)) y hr
      · apply chain'_imp_fst hcCT
        intro x hx y hr
        have hxC : x ∈ C := by rwa [List.dropLast_concat] at hx
        exact hstep_pres i x (hCn x hxC) (Or.inl (by omega)) y hr
      · intro x hx y hy
        have hx' := hx
        rw [getLast?_cons_eq] at hx'
        have hxv : B.getLastD s.headId = x := by simpa using hx'
        have hxn : x ≠ n := by
          rw [← hxv]
          rcases getLastD_cases B s.headId with hc | hc
          · rw [hc]; exact hheadn
          · exact hBn _ hc
        exact hstep_pres i x hxn (Or.inl (by omega)) y (hcrossOld x hx y hy)
  have hbwds' : List.Chain' (fun a b => (ndOf s' b).backward = some a)
      (s.headId :: (L₁ ++ n :: L₂) ++ [s.tailId]) := by
    have hold := rep.bwds
    rw [hsplit, show s.headId :: (L₁ ++ L₂) ++ [s.tailId]
        = (s.headId :: L₁) ++ (L₂ ++ [s.tailId]) from by simp] at hold
    obtain ⟨hbHL₁, hbLT, _⟩ := List.chain'_append.mp hold
    rw [show s.headId :: (L₁ ++ n :: L₂) ++ [s.tailId]
        = (s.headId :: L₁) ++ ((n :: L₂) ++ [s.tailId]) from by simp]
    apply List.chain'_append.mpr
    refine ⟨?_, ?_, ?_⟩
    · apply chain'_imp_snd hbHL₁
      intro y hy x hr
      have hr' : (ndOf s y).backward = some x := hr
      have hyL₁ : y ∈ L₁ := by simpa using hy
      have hyn : y ≠ n := Nat.ne_of_lt (hLlt y (hmemL₁ y hyL₁))
      have hysucc : y ≠ succ := by
        rcases hsucc_cases with hc | hc
        · rw [hc]
          exact fun hEq => htailL₁ (hEq ▸ hyL₁)
        · exact fun hEq => hdisj hyL₁ (by rw [hEq]; exact hc)
      obtain ⟨ny, hny⟩ := Option.isSome_iff_exists.mp (ok.memL y (hmemL₁ y hyL₁))
      show (ndOf s' y).backward = some x
      rw [hbwd_pres y hyn hysucc ny hny]
      rw [ndOf_lkp hny] at hr'
      exact hr'
    · rw [List.cons_append]
      apply List.chain'_cons'.mpr
      refine ⟨?_, ?_⟩
      · intro y hy
        rw [head?_append_one] at hy
        have hyv : L₂.headD s.tailId = y := by simpa using hy
        show (ndOf s' y).backward = some n
        rw [← hyv]
        exact hbwd_succ
      · apply chain'_imp_snd hbLT
        intro y hy x hr
        have hr' : (ndOf s y).backward = some x := hr
        show (ndOf s' y).backward = some x
        cases hL2c : L₂ with
        | nil =>
          rw [hL2c] at hy
          simp at hy
        | cons c cs =>
          rw [hL2c, List.cons_append, List.tail_cons] at hy
          have hyc : y ∈ cs ∨ y = s.tailId := by
            rcases List.mem_append.mp hy with hc | hc
            · left; exact hc
            · right; simpa using hc
          have hnd2 : (c :: cs).Nodup := by
            rw [← hL2c]
            exact (List.nodup_append.mp (hsplit ▸ ok.nodupL)).2.1
          have hsucceq : succ = c := by rw [hsucc_def, hL2c]; rfl
          have hyn : y ≠ n := by
            rcases hyc with hc | hc
            · exact Nat.ne_of_lt (hLlt y (hmemL₂ y
                (by rw [hL2c]; exact List.mem_cons_of_mem c hc)))
            · rw [hc]; exact htailn
          have hysucc : y ≠ succ := by
            rw [hsucceq]
            rcases hyc with hc | hc
            · intro hEq
              exact (List.nodup_cons.mp hnd2).1 (hEq ▸ hc)
            · rw [hc]
              intro hEq
              exact htailL₂ (by rw [hL2c, hEq]; exact List.mem_cons_self c cs)
          obtain ⟨ny, hny⟩ : ∃ ny, lkp s.heap y = some ny := by
            rcases hyc with hc | hc
            · exact Option.isSome_iff_exists.mp (ok.memL y (hmemL₂ y
                (by rw [hL2c]; exact List.mem_cons_of_mem c hc)))
            · rw [hc]; exact Option.isSome_iff_exists.mp rep.tail_mem
          rw [hbwd_pres y hyn hysucc ny hny]
          rw [ndOf_lkp hny] at hr'
          exact hr'
    · intro x hx y hy
      rw [getLast?_cons_eq] at hx
      have hxv : L₁.getLastD s.headId = x := by simpa using hx
      have hyv : n = y := by
        rw [List.cons_append] at hy
        simpa using hy
      show (ndOf s' y).backward = some x
      rw [← hyv, ← hxv, hbwd_n, hP0]
  have hok' : SearchOK s' (L₁ ++ n :: L₂) := by
    refine ⟨?_, ?_, ?_, ?_, ?_, ?_, ?_, ?_, ?_, ?_, ?_, ?_, ?_⟩
    · rw [hhead', hfH0]; rfl
    · rw [hhead', ndOf_lkp hfH0]
      show fH.length = 20
      rw [hfHlen]
      have hl := ok.head_len
      rw [ndOf_lkp hhd] at hl
      exact hl
    · rw [hhead', htail']; exact ok.ht_ne
    · rw [hhead']
      intro hc
      rcases hL'mem _ hc with hc2 | hc2
      · exact hheadn hc2
      · exact ok.head_nmem hc2
    · rw [htail']
      intro hc
      rcases hL'mem _ hc with hc2 | hc2
      · exact htailn hc2
      · exact ok.tail_nmem hc2
    · apply List.nodup_middle.mpr
      apply List.nodup_cons.mpr
      exact ⟨by rw [← hsplit]; exact hnL, by rw [← hsplit]; exact ok.nodupL⟩
    · intro q hq
      rcases hL'mem q hq with hc | hc
      · rw [hc, hfinN]; rfl
      · exact hlookup' q hc
    · intro q hq
      rcases hL'mem q hq with hc | hc
      · rw [hc, hhgtn]; exact h1
      · rw [hhgtL q hc]; exact ok.hpos q hc
    · intro q hq
      rcases hL'mem q hq with hc | hc
      · rw [hc, hhgtn]; exact h20
      · rw [hhgtL q hc]; exact ok.hle q hc
    · intro q hq
      rcases hL'mem q hq with hc | hc
      · rw [hc, ndOf_lkp hfinN, hhgtn]
        show flN.length = h
        exact hflNlen
      · obtain ⟨nq, hnq⟩ := Option.isSome_iff_exists.mp (ok.memL q hc)
        obtain ⟨fq, hfq, hfql, _, _⟩ := hfinX q (Nat.ne_of_lt (hLlt q hc)) nq hnq
        rw [ndOf_lkp hfq, hhgtL q hc]
        show fq.length = hgtOf s q
        rw [hfql]
        have hf := ok.flen q hc
        rw [ndOf_lkp hnq] at hf
        exact hf
    · exact hsorted'
    · exact hlinks'
    · rw [hlen']
      have hlt2 := ok.len_lt
      rw [hsplit, List.length_append] at hlt2
      simp only [List.length_append, List.length_cons]
      omega
  refine ⟨hok', ?_, ?_, ?_, ?_, ?_, ?_, ?_, ?_, ?_, ?_, ?_, ?_, ?_, ?_, ?_, ?_⟩
  · rw [hhead']; exact rep.hid
  · rw [htail']; exact rep.tid
  · rw [hhead', ndOf_lkp hfH0]
    show hd.key = 0
    have hk := rep.head_key
    rw [ndOf_lkp hhd] at hk
    exact hk
  · rw [hhead', ndOf_lkp hfH0]
    show hd.val = 0
    have hk := rep.head_val
    rw [ndOf_lkp hhd] at hk
    exact hk
  · rw [hhead', ndOf_lkp hfH0]
    show hd.height = 20
    have hk := rep.head_hgt
    rw [ndOf_lkp hhd] at hk
    exact hk
  · rw [hhead', ndOf_lkp hfH0]
    show hd.backward = none
    have hk := rep.head_bwd
    rw [ndOf_lkp hhd] at hk
    exact hk
  · rw [htail', hfT0]; rfl
  · rw [htail', ndOf_lkp hfT0]
    show tn.key = 0
    have hk := rep.tail_key
    rw [ndOf_lkp htn] at hk
    exact hk
  · rw [htail', ndOf_lkp hfT0]
    show tn.val = 0
    have hk := rep.tail_val
    rw [ndOf_lkp htn] at hk
    exact hk
  · rw [htail', ndOf_lkp hfT0]
    show tn.height = 20
    have hk := rep.tail_hgt
    rw [ndOf_lkp htn] at hk
    exact hk
  · rw [htail', ndOf_lkp hfT0]
    show fT = List.replicate 20 none
    rw [hfT_eq]
    have hk := rep.tail_fwd
    rw [ndOf_lkp htn] at hk
    exact hk
  · rw [hhead', htail']
    exact hbwds'
  · rw [hsize', rep.size_eq, hsplit]
    simp only [List.length_append, List.length_cons]
    omega
  · obtain ⟨restKeys, hsh, hrest⟩ := rep.shape
    refine ⟨restKeys ++ [n], ?_, ?_⟩
    · rw [hkeys4, hsh, hhead', htail']
      simp
    · intro x hx
      rcases List.mem_append.mp hx with hc | hc
      · have hxL := hrest x hc
        rw [hsplit] at hxL
        rcases List.mem_append.mp hxL with hc2 | hc2
        · exact List.mem_append_left _ hc2
        · exact List.mem_append_right _ (List.mem_cons_of_mem _ hc2)
      · have hxn : x = n := by simpa using hc
        rw [hxn]
        exact List.mem_append_right _ (List.mem_cons_self _ _)
  · intro x hx
    rw [hnext']
    by_cases hxn : x = n
    · omega
    · have hxs : (lkp s.heap x).isSome := by
        by_contra hc
        rw [Option.not_isSome_iff_eq_none] at hc
        rw [hfinNone x hxn hc] at hx
        simp at hx
      have := rep.fresh x hxs
      omega
  · intro x
    constructor
    · intro hx
      by_cases hxn : x = n
      · right; right
        rw [hxn]
        exact List.mem_append_right _ (List.mem_cons_self _ _)
      · have hxs : (lkp s.heap x).isSome := by
          by_contra hc
          rw [Option.not_isSome_iff_eq_none] at hc
          rw [hfinNone x hxn hc] at hx
          simp at hx
        rcases (rep.dom x).mp hxs with hc | hc | hc
        · left; rw [hhead']; exact hc
        · right; left; rw [htail']; exact hc
        · right; right
          rw [hsplit] at hc
          rcases List.mem_append.mp hc with hc2 | hc2
          · exact List.mem_append_left _ hc2
          · exact List.mem_append_right _ (List.mem_cons_of_mem _ hc2)
    · intro hx
      rcases hx with hc | hc | hc
      · rw [hc, hhead', hfH0]; rfl
      · rw [hc, htail', hfT0]; rfl
      · rcases hL'mem x hc with hc2 | hc2
        · rw [hc2, hfinN]; rfl
        · exact hlookup' x hc2

/- ===== Transfer lemmas for allocation and observably-equal states ===== -/

theorem delAt_fresh : ∀ (hp : List (Nat × SNode)) (x : Nat),
    lkp hp x = none → delAt hp x = hp
  | [], _, _ => rfl
  | e :: t, x, hno => by
    simp only [lkp] at hno
    by_cases hex : e.1 = x
    · rw [if_pos hex] at hno
      exact Option.noConfusion hno
    · rw [if_neg hex] at hno
      simp only [delAt, List.filter_cons, decide_eq_true_eq]
      rw [if_pos hex]
      have ih := delAt_fresh t x hno
      rw [show t.filter (fun e => decide (e.1 ≠ x)) = delAt t x from rfl, ih]

theorem keyOf_alloc (s : SL) (h : Nat) (k v : Int)
    (hfresh : ∀ x, (lkp s.heap x).isSome → x < s.nextId)
    (y : Nat) (hy : y ≠ s.nextId) :
    keyOf (allocNode s h k v) y = keyOf s y := by
  rw [keyOf, ndOf, lkp_alloc_old s h k v hfresh y hy, keyOf, ndOf]

theorem hgtOf_alloc (s : SL) (h : Nat) (k v : Int)
    (hfresh : ∀ x, (lkp s.heap x).isSome → x < s.nextId)
    (y : Nat) (hy : y ≠ s.nextId) :
    hgtOf (allocNode s h k v) y = hgtOf s y := by
  rw [hgtOf, ndOf, lkp_alloc_old s h k v hfresh y hy, hgtOf, ndOf]

theorem fwdF_alloc (s : SL) (h : Nat) (k v : Int)
    (hfresh : ∀ x, (lkp s.heap x).isSome → x < s.nextId)
    (y : Nat) (hy : y ≠ s.nextId) (i : Nat) :
    fwdF (allocNode s h k v) y i = fwdF s y i := by
  rw [fwdF, lkp_alloc_old s h k v hfresh y hy, fwdF]

theorem lvl_alloc (s : SL) (h : Nat) (k v : Int)
    (hfresh : ∀ x, (lkp s.heap x).isSome → x < s.nextId)
    (L : List Nat) (hmem : ∀ q ∈ L, q ≠ s.nextId) (i : Nat) :
    lvl (allocNode s h k v) L i = lvl s L i := by
  rw [lvl, lvl]
  apply List.filter_congr
  intro q hq
  rw [hgtOf_alloc s h k v hfresh q (hmem q hq)]

theorem prevAt_alloc (s : SL) (h : Nat) (k v : Int)
    (hfresh : ∀ x, (lkp s.heap x).isSome → x < s.nextId)
    (L₁ : List Nat) (hmem : ∀ q ∈ L₁, q ≠ s.nextId) (m : Nat) :
    prevAt (allocNode s h k v) L₁ m = prevAt s L₁ m := by
  simp only [prevAt]
  rw [show (allocNode s h k v).headId = s.headId from rfl]
  rw [List.filter_congr (fun q hq => by
    rw [hgtOf_alloc s h k v hfresh q (hmem q hq)])]

theorem searchOK_alloc (s : SL) (L : List Nat) (ok : SearchOK s L)
    (hfresh : ∀ x, (lkp s.heap x).isSome → x < s.nextId)
    (h : Nat) (k v : Int) :
    SearchOK (allocNode s h k v) L := by
  have hne : ∀ q ∈ L, q ≠ s.nextId :=
    fun q hq => Nat.ne_of_lt (hfresh q (ok.memL q hq))
  have hheadne : s.headId ≠ s.nextId := Nat.ne_of_lt (hfresh _ ok.head_mem)
  refine ⟨?_, ?_, ?_, ?_, ?_, ?_, ?_, ?_, ?_, ?_, ?_, ?_, ?_⟩
  · show (lkp (allocNode s h k v).heap s.headId).isSome
    rw [lkp_alloc_old s h k v hfresh _ hheadne]
    exact ok.head_mem
  · show (ndOf (allocNode s h k v) s.headId).forwards.length = 20
    rw [ndOf, lkp_alloc_old s h k v hfresh _ hheadne]
    exact ok.head_len
  · exact ok.ht_ne
  · exact ok.head_nmem
  · exact ok.tail_nmem
  · exact ok.nodupL
  · intro q hq
    show (lkp (allocNode s h k v).heap q).isSome
    rw [lkp_alloc_old s h k v hfresh q (hne q hq)]
    exact ok.memL q hq
  · intro q hq
    rw [hgtOf_alloc s h k v hfresh q (hne q hq)]
    exact ok.hpos q hq
  · intro q hq
    rw [hgtOf_alloc s h k v hfresh q (hne q hq)]
    exact ok.hle q hq
  · intro q hq
    rw [hgtOf_alloc s h k v hfresh q (hne q hq)]
    show (ndOf (allocNode s h k v) q).forwards.length = hgtOf s q
    rw [ndOf, lkp_alloc_old s h k v hfresh q (hne q hq)]
    exact ok.flen q hq
  · apply ok.sorted.imp_of_mem
    intro a b ha hb hab
    rw [keyOf_alloc s h k v hfresh a (hne a ha),
      keyOf_alloc s h k v hfresh b (hne b hb)]
    exact hab
  · intro i hi
    show List.Chain' (stepsTo (allocNode s h k v) i)
      ((allocNode s h k v).headId :: lvl (allocNode s h k v) L i
        ++ [(allocNode s h k v).tailId])
    rw [show (allocNode s h k v).headId = s.headId from rfl,
      show (allocNode s h k v).tailId = s.tailId from rfl,
      lvl_alloc s h k v hfresh L hne i]
    apply chain'_imp_fst (ok.links i hi)
    intro x hx y hr
    have hxmem : x ∈ s.headId :: lvl s L i := by
      have e : s.headId :: lvl s L i ++ [s.tailId]
          = (s.headId :: lvl s L i) ++ [s.tailId] := by simp
      rw [e, List.dropLast_concat] at hx
      exact hx
    have hxne : x ≠ s.nextId := by
      rcases List.mem_cons.mp hxmem with hc | hc
      · rw [hc]; exact hheadne
      · exact hne x ((List.mem_filter.mp hc).1)
    show fwdF (allocNode s h k v) x i = some (some y)
    rw [fwdF_alloc s h k v hfresh x hxne i]
    exact hr
  · show L.length < (allocNode s h k v).heap.length
    have hl := ok.len_lt
    show L.length < (s.heap
      ++ [(s.nextId, (⟨k, v, h, List.replicate h none, none⟩ : SNode))]).length
    simp only [List.length_append, List.length_singleton]
    omega

/-- Splitting a sorted list at a member. -/
theorem mem_split_sorted (key : Nat → Int) (L : List Nat) (r : Nat) (hr : r ∈ L)
    (hs : L.Pairwise (fun a b => key a < key b)) :
    ∃ L₁ L₂, L = L₁ ++ r :: L₂ ∧ (∀ q ∈ L₁, key q < key r) ∧
      (∀ q ∈ L₂, key r < key q) := by
  obtain ⟨L₁, L₂, hsplit⟩ := List.append_of_mem hr
  refine ⟨L₁, L₂, hsplit, ?_, ?_⟩
  · rw [hsplit] at hs
    obtain ⟨_, _, hcr⟩ := List.pairwise_append.mp hs
    intro q hq
    exact hcr q hq r (List.mem_cons_self r L₂)
  · rw [hsplit] at hs
    obtain ⟨_, hp2, _⟩ := List.pairwise_append.mp hs
    exact (List.pairwise_cons.mp hp2).1

/-- The representation invariant only looks at heap, the sentinel ids, the
size counter, and freshness of ids below nextId; it transfers to any state
with the same observables and a nextId at least as large. -/
theorem repInv_transfer (s t : SL) (L : List Nat) (rep : RepInv s L)
    (hheap : t.heap = s.heap) (hh : t.headId = s.headId)
    (ht : t.tailId = s.tailId) (hsz : t.size = s.size)
    (hnx : s.nextId ≤ t.nextId) : RepInv t L := by
  have hnd : ∀ x, ndOf t x = ndOf s x := by
    intro x
    rw [ndOf, hheap, ndOf]
  have hfwd : ∀ x i, fwdF t x i = fwdF s x i := by
    intro x i
    rw [fwdF, hheap, fwdF]
  have hkey : ∀ x, keyOf t x = keyOf s x := by
    intro x
    rw [keyOf, hnd, keyOf]
  have hhgt : ∀ x, hgtOf t x = hgtOf s x := by
    intro x
    rw [hgtOf, hnd, hgtOf]
  have hlvl : ∀ i, lvl t L i = lvl s L i := by
    intro i
    rw [lvl, lvl]
    exact List.filter_congr (fun q _ => by rw [hhgt q])
  have ok := rep.toSearchOK
  refine ⟨⟨?_, ?_, ?_, ?_, ?_, ?_, ?_, ?_, ?_, ?_, ?_, ?_, ?_⟩,
    ?_, ?_, ?_, ?_, ?_, ?_, ?_, ?_, ?_, ?_, ?_, ?_, ?_, ?_, ?_, ?_⟩
  · rw [hheap, hh]; exact ok.head_mem
  · rw [hh, hnd]; exact ok.head_len
  · rw [hh, ht]; exact ok.ht_ne
  · rw [hh]; exact ok.head_nmem
  · rw [ht]; exact ok.tail_nmem
  · exact ok.nodupL
  · intro q hq; rw [hheap]; exact ok.memL q hq
  · intro q hq; rw [hhgt]; exact ok.hpos q hq
  · intro q hq; rw [hhgt]; exact ok.hle q hq
  · intro q hq; rw [hnd, hhgt]; exact ok.flen q hq
  · apply ok.sorted.imp_of_mem
    intro a b _ _ hab
    rw [hkey, hkey]
    exact hab
  · intro i hi
    rw [hh, ht, hlvl]
    exact (ok.links i hi).imp (fun a b hr => by
      show fwdF t a i = some (some b)
      rw [hfwd]
      exact hr)
  · rw [hheap]; exact ok.len_lt
  · rw [hh]; exact rep.hid
  · rw [ht]; exact rep.tid
  · rw [hh, hnd]; exact rep.head_key
  · rw [hh, hnd]; exact rep.head_val
  · rw [hh, hnd]; exact rep.head_hgt
  · rw [hh, hnd]; exact rep.head_bwd
  · rw [ht, hheap]; exact rep.tail_mem
  · rw [ht, hnd]; exact rep.tail_key
  · rw [ht, hnd]; exact rep.tail_val
  · rw [ht, hnd]; exact rep.tail_hgt
  · rw [ht, hnd]; exact rep.tail_fwd
  · rw [hh, ht]
    exact rep.bwds.imp (fun a b hr => by
      show (ndOf t b).backward = some a
      rw [hnd]
      exact hr)
  · rw [hsz]; exact rep.size_eq
  · obtain ⟨restKeys, hsh, hrest⟩ := rep.shape
    exact ⟨restKeys, by rw [hheap, hh, ht]; exact hsh, hrest⟩
  · intro x hx
    rw [hheap] at hx
    exact lt_of_lt_of_le (rep.fresh x hx) hnx
  · intro x
    rw [hheap, hh, ht]
    exact rep.dom x

/- ===== insert: the two outcomes ===== -/

/-- insert on a key already present: the traversal lands on the existing node,
its key compares equal, and the call returns (position, false) with the state
returned unchanged (no allocation happened yet on this path). -/
theorem insertOp_dup (s : SL) (L L₁ L₂ : List Nat) (r : Nat) (k : Int)
    (rep : RepInv s L) (hsplit : L = L₁ ++ r :: L₂)
    (hlt : ∀ q ∈ L₁, keyOf s q < k) (hk : keyOf s r = k)
    (hge2 : ∀ q ∈ L₂, k ≤ keyOf s q)
    (h : Nat) (v : Int) :
    insertOp s h k v = some (s, r, false) := by
  have hrL : r ∈ L := by
    rw [hsplit]
    exact List.mem_append_right _ (List.mem_cons_self _ _)
  have hge : ∀ q ∈ r :: L₂, k ≤ keyOf s q := by
    intro q hq
    rcases List.mem_cons.mp hq with hc | hc
    · rw [hc, hk]
    · exact hge2 q hc
  obtain ⟨pr2, hfge, _, _⟩ := fge_spec s L L₁ (r :: L₂) k rep.toSearchOK hsplit hlt hge
  rw [show ((r :: L₂).headD s.tailId) = r from rfl] at hfge
  have hrtail : r ≠ s.tailId := fun hEq => rep.toSearchOK.tail_nmem (hEq ▸ hrL)
  obtain ⟨nr, hnr⟩ := Option.isSome_iff_exists.mp (rep.toSearchOK.memL r hrL)
  have hnrk : nr.key = k := by rw [← hk, keyOf_lkp hnr]
  simp only [insertOp]
  rw [hfge]
  show (if r = s.tailId then insertLink s h k v pr2
    else match lkp s.heap r with
      | none => none
      | some nr => if nr.key = k then some (s, r, false)
        else insertLink s h k v pr2) = some (s, r, false)
  rw [if_neg hrtail, hnr]
  show (if nr.key = k then some (s, r, false) else insertLink s h k v pr2)
    = some (s, r, false)
  rw [if_pos hnrk]

/-- insert of an absent key: the node is allocated and linked, the return is
(new position, true), and the invariant holds with the new id spliced in. -/
theorem insertOp_new (s : SL) (L L₁ L₂ : List Nat) (k v : Int) (h : Nat)
    (rep : RepInv s L) (hsplit : L = L₁ ++ L₂)
    (hlt : ∀ q ∈ L₁, keyOf s q < k) (hgt2 : ∀ q ∈ L₂, k < keyOf s q)
    (h1 : 1 ≤ h) (h20 : h ≤ 20) :
    ∃ s', insertOp s h k v = some (s', s.nextId, true) ∧
      RepInv s' (L₁ ++ s.nextId :: L₂) ∧ s'.headId = s.headId ∧
      s'.tailId = s.tailId ∧ s'.size = s.size + 1 ∧ s'.nextId = s.nextId + 1 := by
  obtain ⟨pr2, hfge, _, hprget⟩ := fge_spec s L L₁ L₂ k rep.toSearchOK hsplit hlt
    (fun q hq => le_of_lt (hgt2 q hq))
  obtain ⟨s', hlink, hrep, hh, ht, hsz, hnx⟩ := insert_rep s L L₁ L₂ k v h rep hsplit
    hlt hgt2 h1 h20 pr2 hprget
  refine ⟨s', ?_, hrep, hh, ht, hsz, hnx⟩
  have hgoal : insertLink s h k v pr2 = some (s', s.nextId, true) := by
    simp only [insertLink]
    rw [hlink]
  simp only [insertOp]
  rw [hfge]
  show (if L₂.headD s.tailId = s.tailId then insertLink s h k v pr2
    else match lkp s.heap (L₂.headD s.tailId) with
      | none => none
      | some nr => if nr.key = k then some (s, L₂.headD s.tailId, false)
        else insertLink s h k v pr2) = some (s', s.nextId, true)
  cases hL2c : L₂ with
  | nil =>
    show (if s.tailId = s.tailId then insertLink s h k v pr2
      else match lkp s.heap s.tailId with
        | none => none
        | some nr => if nr.key = k then some (s, s.tailId, false)
          else insertLink s h k v pr2) = some (s', s.nextId, true)
    rw [if_pos rfl]
    exact hgoal
  | cons c cs =>
    show (if c = s.tailId then insertLink s h k v pr2
      else match lkp s.heap c with
        | none => none
        | some nr => if nr.key = k then some (s, c, false)
          else insertLink s h k v pr2) = some (s', s.nextId, true)
    have hcL : c ∈ L := by
      rw [hsplit, hL2c]
      exact List.mem_append_right _ (List.mem_cons_self _ _)
    have hctail : c ≠ s.tailId := fun hEq => rep.toSearchOK.tail_nmem (hEq ▸ hcL)
    obtain ⟨nc, hnc⟩ := Option.isSome_iff_exists.mp (rep.toSearchOK.memL c hcL)
    have hkc : k < nc.key := by
      rw [← keyOf_lkp hnc]
      exact hgt2 c (by rw [hL2c]; exact List.mem_cons_self _ _)
    rw [if_neg hctail, hnc]
    show (if nc.key = k then some (s, c, false) else insertLink s h k v pr2)
      = some (s', s.nextId, true)
    rw [if_neg (by intro hEq; rw [hEq] at hkc; exact lt_irrefl k hkc)]
    exact hgoal

/- ===== emplace: the two outcomes ===== -/

/-- emplace on a key already present: the payload node is constructed first,
the search finds the existing node, the fresh node is deleted (the heap
returns to exactly the old arena) and the call reports (position, false). -/
theorem emplaceOp_dup (s : SL) (L L₁ L₂ : List Nat) (r : Nat) (k : Int)
    (rep : RepInv s L) (hsplit : L = L₁ ++ r :: L₂)
    (hlt : ∀ q ∈ L₁, keyOf s q < k) (hk : keyOf s r = k)
    (hge2 : ∀ q ∈ L₂, k ≤ keyOf s q)
    (h : Nat) (v : Int) :
    ∃ s', emplaceOp s h k v = some (s', r, false) ∧ s'.heap = s.heap ∧
      s'.headId = s.headId ∧ s'.tailId = s.tailId ∧ s'.size = s.size ∧
      s'.nextId = s.nextId + 1 ∧ RepInv s' L := by
  have hane : ∀ q ∈ L, q ≠ s.nextId :=
    fun q hq => Nat.ne_of_lt (rep.fresh q (rep.toSearchOK.memL q hq))
  have hrL : r ∈ L := by
    rw [hsplit]
    exact List.mem_append_right _ (List.mem_cons_self _ _)
  have hrne : r ≠ s.nextId := hane r hrL
  have aok := searchOK_alloc s L rep.toSearchOK rep.fresh h k v
  have hge : ∀ q ∈ r :: L₂, k ≤ keyOf s q := by
    intro q hq
    rcases List.mem_cons.mp hq with hc | hc
    · rw [hc, hk]
    · exact hge2 q hc
  obtain ⟨pr2, hfge, _, _⟩ := fge_spec (allocNode s h k v) L L₁ (r :: L₂) k aok
    hsplit
    (fun q hq => by
      rw [keyOf_alloc s h k v rep.fresh q
        (hane q (hsplit ▸ List.mem_append_left _ hq))]
      exact hlt q hq)
    (fun q hq => by
      rw [keyOf_alloc s h k v rep.fresh q
        (hane q (hsplit ▸ List.mem_append_right _ hq))]
      exact hge q hq)
  have hfge' : fge (allocNode s h k v) k = some (some r, pr2) := hfge
  have hrtail : r ≠ s.tailId := fun hEq => rep.toSearchOK.tail_nmem (hEq ▸ hrL)
  obtain ⟨nr, hnr⟩ := Option.isSome_iff_exists.mp (rep.toSearchOK.memL r hrL)
  have hnrk : nr.key = k := by rw [← hk, keyOf_lkp hnr]
  have hheap' : delAt (allocNode s h k v).heap s.nextId = s.heap := by
    show delAt (s.heap
      ++ [(s.nextId, (⟨k, v, h, List.replicate h none, none⟩ : SNode))])
      s.nextId = s.heap
    rw [delAt, List.filter_append]
    rw [show (s.heap.filter fun e => decide (e.1 ≠ s.nextId))
      = delAt s.heap s.nextId from rfl]
    rw [delAt_fresh s.heap s.nextId (lkp_none_of_fresh rep.fresh)]
    simp
  refine ⟨{ allocNode s h k v with
    heap := delAt (allocNode s h k v).heap s.nextId }, ?_, hheap', rfl, rfl,
    rfl, rfl, ?_⟩
  · simp only [emplaceOp]
    rw [hfge']
    show (if r = s.tailId then
        match linkNode (allocNode s h k v) s.nextId pr2 h with
        | none => none
        | some s2 => some (s2, s.nextId, true)
      else
        match lkp (allocNode s h k v).heap r with
        | none => none
        | some nr =>
          if nr.key = k then
            some ({ allocNode s h k v with
                    heap := delAt (allocNode s h k v).heap s.nextId }, r, false)
          else
            match linkNode (allocNode s h k v) s.nextId pr2 h with
            | none => none
            | some s2 => some (s2, s.nextId, true))
      = some ({ allocNode s h k v with
          heap := delAt (allocNode s h k v).heap s.nextId }, r, false)
    rw [if_neg hrtail, lkp_alloc_old s h k v rep.fresh r hrne, hnr]
    show (if nr.key = k then
        some ({ allocNode s h k v with
                heap := delAt (allocNode s h k v).heap s.nextId }, r, false)
      else
        match linkNode (allocNode s h k v) s.nextId pr2 h with
        | none => none
        | some s2 => some (s2, s.nextId, true))
      = some ({ allocNode s h k v with
          heap := delAt (allocNode s h k v).heap s.nextId }, r, false)
    rw [if_pos hnrk]
  · exact repInv_transfer s _ L rep hheap' rfl rfl rfl (by
      show s.nextId ≤ s.nextId + 1
      omega)

/-- emplace of an absent key behaves as insert: the constructed node is linked
in and the invariant holds with the new id spliced in. -/
theorem emplaceOp_new (s : SL) (L L₁ L₂ : List Nat) (k v : Int) (h : Nat)
    (rep : RepInv s L) (hsplit : L = L₁ ++ L₂)
    (hlt : ∀ q ∈ L₁, keyOf s q < k) (hgt2 : ∀ q ∈ L₂, k < keyOf s q)
    (h1 : 1 ≤ h) (h20 : h ≤ 20) :
    ∃ s', emplaceOp s h k v = some (s', s.nextId, true) ∧
      RepInv s' (L₁ ++ s.nextId :: L₂) ∧ s'.headId = s.headId ∧
      s'.tailId = s.tailId ∧ s'.size = s.size + 1 ∧ s'.nextId = s.nextId + 1 := by
  have hane : ∀ q ∈ L, q ≠ s.nextId :=
    fun q hq => Nat.ne_of_lt (rep.fresh q (rep.toSearchOK.memL q hq))
  have aok := searchOK_alloc s L rep.toSearchOK rep.fresh h k v
  obtain ⟨pr2, hfge, _, hprget⟩ := fge_spec (allocNode s h k v) L L₁ L₂ k aok
    hsplit
    (fun q hq => by
      rw [keyOf_alloc s h k v rep.fresh q
        (hane q (hsplit ▸ List.mem_append_left _ hq))]
      exact hlt q hq)
    (fun q hq => by
      rw [keyOf_alloc s h k v rep.fresh q
        (hane q (hsplit ▸ List.mem_append_right _ hq))]
      exact le_of_lt (hgt2 q hq))
  have hfge' : fge (allocNode s h k v) k
      = some (some (L₂.headD s.tailId), pr2) := hfge
  have hprget' : ∀ j, j < 20 → pr2.get? j = some (some (prevAt s L₁ j)) := by
    intro j hj
    rw [hprget j hj, prevAt_alloc s h k v rep.fresh L₁
      (fun q hq => hane q (hsplit ▸ List.mem_append_left _ hq)) j]
  obtain ⟨s', hlink, hrep, hh, ht, hsz, hnx⟩ := insert_rep s L L₁ L₂ k v h rep
    hsplit hlt hgt2 h1 h20 pr2 hprget'
  refine ⟨s', ?_, hrep, hh, ht, hsz, hnx⟩
  simp only [emplaceOp]
  rw [hfge']
  cases hL2c : L₂ with
  | nil =>
    show (if s.tailId = s.tailId then
        match linkNode (allocNode s h k v) s.nextId pr2 h with
        | none => none
        | some s2 => some (s2, s.nextId, true)
      else
        match lkp (allocNode s h k v).heap s.tailId with
        | none => none
        | some nr =>
          if nr.key = k then
            some ({ allocNode s h k v with
                    heap := delAt (allocNode s h k v).heap s.nextId },
              s.tailId, false)
          else
            match linkNode (allocNode s h k v) s.nextId pr2 h with
            | none => none
            | some s2 => some (s2, s.nextId, true))
      = some (s', s.nextId, true)
    rw [if_pos rfl, hlink]
  | cons c cs =>
    show (if c = s.tailId then
        match linkNode (allocNode s h k v) s.nextId pr2 h with
        | none => none
        | some s2 => some (s2, s.nextId, true)
      else
        match lkp (allocNode s h k v).heap c with
        | none => none
        | some nr =>
          if nr.key = k then
            some ({ allocNode s h k v with
                    heap := delAt (allocNode s h k v).heap s.nextId }, c, false)
          else
            match linkNode (allocNode s h k v) s.nextId pr2 h with
            | none => none
            | some s2 => some (s2, s.nextId, true))
      = some (s', s.nextId, true)
    have hcL : c ∈ L := by
      rw [hsplit, hL2c]
      exact List.mem_append_right _ (List.mem_cons_self _ _)
    have hctail : c ≠ s.tailId := fun hEq => rep.toSearchOK.tail_nmem (hEq ▸ hcL)
    obtain ⟨nc, hnc⟩ := Option.isSome_iff_exists.mp (rep.toSearchOK.memL c hcL)
    have hkc : k < nc.key := by
      rw [← keyOf_lkp hnc]
      exact hgt2 c (by rw [hL2c]; exact List.mem_cons_self _ _)
    rw [if_neg hctail, lkp_alloc_old s h k v rep.fresh c (hane c hcL), hnc]
    show (if nc.key = k then
        some ({ allocNode s h k v with
                heap := delAt (allocNode s h k v).heap s.nextId }, c, false)
      else
        match linkNode (allocNode s h k v) s.nextId pr2 h with
        | none => none
        | some s2 => some (s2, s.nextId, true))
      = some (s', s.nextId, true)
    rw [if_neg (by intro hEq; rw [hEq] at hkc; exact lt_irrefl k hkc), hlink]

/- ===== The unlink loop of erase ===== -/

/-- Running the unlink loop over levels [i, h): each recorded predecessor's
forward pointer at its level is redirected to the erased node's forward at
that level; every other field and node is untouched, and the erased node
itself is never written (its predecessors are distinct from it). -/
theorem unlinkLoop_run (r : Nat) (prevs : List (Option Nat)) (P : Nat → Nat)
    (hR : Nat) (hh : hR ≤ 20) (nr : SNode)
    (hprevs : ∀ m, m < 20 → prevs.get? m = some (some (P m)))
    (hPr : ∀ m, m < hR → P m ≠ r)
    (hflen : nr.forwards.length = hR) :
    ∀ (cnt i : Nat) (t : SL),
      i + cnt = hR →
      lkp t.heap r = some nr →
      (∀ m, i ≤ m → m < hR → ∃ nP, lkp t.heap (P m) = some nP ∧
        m < nP.forwards.length) →
      ∃ t', unlinkLoop prevs r t i cnt = some t' ∧
        t'.headId = t.headId ∧ t'.tailId = t.tailId ∧ t'.size = t.size ∧
        t'.nextId = t.nextId ∧ t'.heap.length = t.heap.length ∧
        t'.heap.map Prod.fst = t.heap.map Prod.fst ∧
        lkp t'.heap r = some nr ∧
        (∀ x, x ≠ r → ∀ nx, lkp t.heap x = some nx →
          ∃ fx, lkp t'.heap x = some ⟨nx.key, nx.val, nx.height, fx, nx.backward⟩ ∧
            fx.length = nx.forwards.length ∧
            (∀ m, i ≤ m → m < hR → P m = x → fx.get? m = nr.forwards.get? m) ∧
            (∀ m, ¬ (i ≤ m ∧ m < hR ∧ P m = x) → fx.get? m = nx.forwards.get? m)) ∧
        (∀ x, lkp t.heap x = none → lkp t'.heap x = none)
  | 0, i, t, hcnt, hn, _ => by
    refine ⟨t, rfl, rfl, rfl, rfl, rfl, rfl, rfl, hn, ?_, fun x hx => hx⟩
    intro x hx nx hnx
    refine ⟨nx.forwards, ?_, rfl, ?_, fun _ _ => rfl⟩
    · rw [hnx]
    · intro m h1 h2
      omega
  | cnt+1, i, t, hcnt, hn, hP => by
    have hih : i < hR := by omega
    have hpi := hprevs i (by omega)
    obtain ⟨nP, hnP, hbP⟩ := hP i (le_refl i) hih
    have hfwd : fwdF t r i = nr.forwards.get? i := fwdF_lkp hn i
    obtain ⟨f, hf⟩ : ∃ o, nr.forwards.get? i = some o := by
      cases hg : nr.forwards.get? i with
      | none =>
        have hcon := List.get?_eq_none.mp hg
        omega
      | some o => exact ⟨o, rfl⟩
    have hsetp := setF_some hnP i hbP f
    set t1 : SL := { t with heap :=
      (updAt t.heap (P i) (fun m => { m with forwards := m.forwards.set i f })) }
      with ht1
    have e1 : t1.heap = updAt t.heap (P i)
        (fun m => { m with forwards := m.forwards.set i f }) := by rw [ht1]
    have hlkp1 : ∀ y, lkp t1.heap y
        = if y = P i then some { nP with forwards := nP.forwards.set i f }
          else lkp t.heap y := by
      intro y
      rw [e1, lkp_updAt]
      by_cases hy : y = P i <;> simp [hy, hnP]
    have hn1 : lkp t1.heap r = some nr := by
      rw [hlkp1, if_neg (Ne.symm (hPr i hih))]
      exact hn
    have hP1 : ∀ m, i+1 ≤ m → m < hR → ∃ nQ, lkp t1.heap (P m) = some nQ ∧
        m < nQ.forwards.length := by
      intro m h1 h2
      obtain ⟨nQ, hnQ, hbQ⟩ := hP m (by omega) h2
      by_cases hq : P m = P i
      · refine ⟨{ nP with forwards := nP.forwards.set i f }, ?_, ?_⟩
        · rw [hlkp1, if_pos hq]
        · have hQP : nQ = nP := by
            rw [hq] at hnQ; rw [hnQ] at hnP; exact Option.some.inj hnP
          simp [List.length_set]
          rw [← hQP]
          exact hbQ
      · refine ⟨nQ, ?_, hbQ⟩
        rw [hlkp1, if_neg hq]
        exact hnQ
    obtain ⟨t', hloop, hhead, htail, hsize, hnext, hlen, hkeys, hrn, hxchar,
        hnone⟩ :=
      unlinkLoop_run r prevs P hR hh nr hprevs hPr hflen cnt (i+1) t1
        (by omega) hn1 hP1
    have hunf : unlinkLoop prevs r t i (cnt+1)
        = unlinkLoop prevs r t1 (i+1) cnt := by
      simp only [unlinkLoop]
      rw [hpi]
      show (match fwdF t r i with
        | none => none
        | some f2 =>
          match setF t (P i) i f2 with
          | none => none
          | some s1 => unlinkLoop prevs r s1 (i+1) cnt) = _
      rw [hfwd, hf]
      show (match setF t (P i) i f with
        | none => none
        | some s1 => unlinkLoop prevs r s1 (i+1) cnt) = _
      rw [hsetp]
    have hlen1 : t1.heap.length = t.heap.length := by
      rw [e1, updAt_length]
    have hkeys1 : t1.heap.map Prod.fst = t.heap.map Prod.fst := by
      rw [e1, updAt_keys]
    refine ⟨t', by rw [hunf]; exact hloop, hhead, htail, hsize, hnext,
      by rw [hlen, hlen1], by rw [hkeys, hkeys1], hrn, ?_, ?_⟩
    · intro x hx nx hnx
      by_cases hq : x = P i
      · have hnxP : nx = nP := by
          rw [hq] at hnx; rw [hnx] at hnP; exact Option.some.inj hnP
        subst hnxP
        obtain ⟨fx, hfx, hfxlen, hfxnew, hfxold⟩ := hxchar x hx
          { nx with forwards := nx.forwards.set i f }
          (by rw [hlkp1, if_pos hq])
        refine ⟨fx, hfx, by simpa using hfxlen, ?_, ?_⟩
        · intro m h1 h2 hPm
          rcases Nat.lt_or_ge i m with hm | hm
          · exact hfxnew m (by omega) h2 hPm
          · have hmi : m = i := by omega
            subst hmi
            rw [hfxold m (by omega)]
            show (nx.forwards.set m f).get? m = nr.forwards.get? m
            rw [List.get?_set_of_lt' f nx.forwards hbP, if_pos rfl, hf]
        · intro m hcond
          have hmne : m ≠ i := by
            intro hEq
            subst hEq
            exact hcond ⟨le_refl m, by omega, hq.symm⟩
          have hold := hfxold m (fun hc => hcond ⟨by omega, hc.2.1, hc.2.2⟩)
          rw [hold]
          show (nx.forwards.set i f).get? m = nx.forwards.get? m
          rw [List.get?_set_of_lt' f nx.forwards hbP, if_neg (by omega)]
      · have e : lkp t1.heap x = some nx := by
          rw [hlkp1, if_neg hq]
          exact hnx
        obtain ⟨fx, hfx, hfxlen, hfxnew, hfxold⟩ := hxchar x hx nx e
        refine ⟨fx, hfx, hfxlen, ?_, ?_⟩
        · intro m h1 h2 hPm
          have hmne : m ≠ i := fun hEq => hq (by rw [← hPm, hEq])
          exact hfxnew m (by omega) h2 hPm
        · intro m hcond
          exact hfxold m
            (fun hc => hcond ⟨le_trans (Nat.le_succ i) hc.1, hc.2.1, hc.2.2⟩)
    · intro x hxnone
      have hxP : x ≠ P i := by
        intro hEq
        rw [hEq, hnP] at hxnone
        exact Option.noConfusion hxnone
      apply hnone
      rw [hlkp1, if_neg hxP]
      exact hxnone

/- ===== erase of a present key ===== -/

/-- Keys of the arena after a deletion. -/
theorem delAt_keys (x : Nat) : ∀ hp : List (Nat × SNode),
    (delAt hp x).map Prod.fst = (hp.map Prod.fst).filter (fun y => decide (y ≠ x))
  | [] => rfl
  | e :: t => by
    have ih := delAt_keys x t
    by_cases h : e.1 = x <;>
      simp_all [delAt, List.filter_cons, h]

/-- A present id is one of the arena keys. -/
theorem lkp_mem_keys {y : Nat} : ∀ {hp : List (Nat × SNode)},
    (lkp hp y).isSome → y ∈ hp.map Prod.fst
  | [], h => by simp [lkp] at h
  | e :: t, h => by
    by_cases hey : e.1 = y
    · rw [List.map_cons, hey]
      exact List.mem_cons_self y _
    · simp only [lkp, if_neg hey] at h
      exact List.mem_cons_of_mem _ (lkp_mem_keys h)

/-- erase(k) when k is stored at node r: the traversal lands on r, r is
unlinked at every level of its height, its level-0 successor's backward is
re-pointed, the node is deleted and size decremented; the invariant holds for
the order with r removed. -/
theorem erase_rep (s : SL) (L L₁ L₂ : List Nat) (r : Nat) (k : Int)
    (rep : RepInv s L) (hsplit : L = L₁ ++ r :: L₂)
    (hlt : ∀ q ∈ L₁, keyOf s q < k) (hk : keyOf s r = k)
    (hgt2 : ∀ q ∈ L₂, k < keyOf s q) :
    ∃ s', eraseOp s k = some s' ∧ RepInv s' (L₁ ++ L₂) ∧
      s'.headId = s.headId ∧ s'.tailId = s.tailId ∧
      s'.size = s.size - 1 ∧ s'.nextId = s.nextId ∧
      (∀ q ∈ L₁ ++ L₂, keyOf s' q = keyOf s q ∧
        (ndOf s' q).val = (ndOf s q).val) := by
  have ok := rep.toSearchOK
  set P : Nat → Nat := fun m => prevAt s L₁ m with hP_def
  set nxt := L₂.headD s.tailId with hnxt_def
  have hrL : r ∈ L := by
    rw [hsplit]
    exact List.mem_append_right _ (List.mem_cons_self _ _)
  have hmemL₁ : ∀ q ∈ L₁, q ∈ L := fun q hq => hsplit ▸ List.mem_append_left _ hq
  have hmemL₂ : ∀ q ∈ L₂, q ∈ L := fun q hq =>
    hsplit ▸ List.mem_append_right _ (List.mem_cons_of_mem r hq)
  have hnodup : (L₁ ++ r :: L₂).Nodup := hsplit ▸ ok.nodupL
  have hrL₁ : r ∉ L₁ := by
    have := List.nodup_middle.mp hnodup
    intro hc
    exact (List.nodup_cons.mp this).1 (List.mem_append_left _ hc)
  have hrL₂ : r ∉ L₂ := by
    have := List.nodup_middle.mp hnodup
    intro hc
    exact (List.nodup_cons.mp this).1 (List.mem_append_right _ hc)
  have hdisj : List.Disjoint L₁ L₂ := by
    intro a ha hb
    have := (List.nodup_append.mp hnodup).2.2
    exact this ha (List.mem_cons_of_mem r hb)
  have hrtail : r ≠ s.tailId := fun hEq => ok.tail_nmem (hEq ▸ hrL)
  have hrhead : r ≠ s.headId := fun hEq => ok.head_nmem (hEq ▸ hrL)
  have htailL₁ : s.tailId ∉ L₁ := fun hc => ok.tail_nmem (hmemL₁ _ hc)
  have htailL₂ : s.tailId ∉ L₂ := fun hc => ok.tail_nmem (hmemL₂ _ hc)
  have hheadL₁ : s.headId ∉ L₁ := fun hc => ok.head_nmem (hmemL₁ _ hc)
  have hheadL₂ : s.headId ∉ L₂ := fun hc => ok.head_nmem (hmemL₂ _ hc)
  obtain ⟨nr, hnr⟩ := Option.isSome_iff_exists.mp (ok.memL r hrL)
  have hnrk : nr.key = k := by rw [← hk, keyOf_lkp hnr]
  have hhgt_r : hgtOf s r = nr.height := hgtOf_lkp hnr
  have hh20 : nr.height ≤ 20 := by rw [← hhgt_r]; exact ok.hle r hrL
  have hh1 : 1 ≤ nr.height := by rw [← hhgt_r]; exact ok.hpos r hrL
  have hflen_r : nr.forwards.length = nr.height := by
    have := ok.flen r hrL
    rw [ndOf_lkp hnr, hhgt_r] at this
    exact this
  have hPmem : ∀ m, P m = s.headId ∨ (P m ∈ L₁ ∧ m < hgtOf s (P m)) :=
    fun m => prevAt_mem_hgt s L₁ m
  have hPr : ∀ m, P m ≠ r := by
    intro m
    rcases hPmem m with hc | hc
    · rw [hc]; exact Ne.symm hrhead
    · exact fun hEq => hrL₁ (hEq ▸ hc.1)
  have hnxt_cases : nxt = s.tailId ∨ nxt ∈ L₂ := by
    rw [hnxt_def]
    cases L₂ with
    | nil => left; rfl
    | cons c t => right; simp
  have hnxtr : nxt ≠ r := by
    rcases hnxt_cases with hc | hc
    · rw [hc]; exact Ne.symm hrtail
    · exact fun hEq => hrL₂ (hEq ▸ hc)
  have hnxtP : ∀ m, nxt ≠ P m := by
    intro m
    rcases hnxt_cases with hc | hc <;> rcases hPmem m with hd | hd
    · rw [hc, hd]; exact Ne.symm ok.ht_ne
    · rw [hc]; exact fun hEq => htailL₁ (hEq ▸ hd.1)
    · rw [hd]; exact fun hEq => hheadL₂ (hEq ▸ hc)
    · exact fun hEq => hdisj hd.1 (hEq ▸ hc)
  obtain ⟨nnxt, hnnxt⟩ : ∃ x, lkp s.heap nxt = some x := by
    rcases hnxt_cases with hc | hc
    · rw [hc]; exact Option.isSome_iff_exists.mp rep.tail_mem
    · exact Option.isSome_iff_exists.mp (ok.memL nxt (hmemL₂ nxt hc))
  have hge : ∀ q ∈ r :: L₂, k ≤ keyOf s q := by
    intro q hq
    rcases List.mem_cons.mp hq with hc | hc
    · rw [hc, hk]
    · exact le_of_lt (hgt2 q hc)
  obtain ⟨pr2, hfge, _, hprget⟩ := fge_spec s L L₁ (r :: L₂) k ok hsplit hlt hge
  have hfge' : fge s k = some (some r, pr2) := hfge
  have hprget' : ∀ m, m < 20 → pr2.get? m = some (some (P m)) := hprget
  -- the per-level forward of r, read off the level chains
  have hstep_r : ∀ i, i < nr.height → nr.forwards.get? i
      = some (some ((L₂.filter (fun q => decide (i < hgtOf s q))).headD
          s.tailId)) := by
    intro i hi
    have hchain := ok.links i (by omega)
    set B := L₁.filter (fun q => decide (i < hgtOf s q)) with hB_def
    set C := L₂.filter (fun q => decide (i < hgtOf s q)) with hC_def
    have hlv : lvl s L i = B ++ r :: C := by
      rw [lvl, hsplit, List.filter_append, List.filter_cons]
      rw [show (decide (i < hgtOf s r)) = true from by
        simp only [decide_eq_true_eq]
        rw [hhgt_r]
        exact hi]
      rw [hB_def, hC_def]
      simp
    rw [hlv, show s.headId :: (B ++ r :: C) ++ [s.tailId]
        = (s.headId :: B) ++ (r :: (C ++ [s.tailId])) from by simp] at hchain
    have h2 := (List.chain'_append.mp hchain).2.1
    have hfirst := (List.chain'_cons'.mp h2).1
    have hstep := hfirst _ (by rw [head?_append_one]; exact Option.mem_def.mpr rfl)
    rw [← fwdF_lkp hnr i]
    exact hstep
  have hfwd0r : nr.forwards.get? 0 = some (some nxt) := by
    have := hstep_r 0 (by omega)
    rw [this]
    rw [show L₂.filter (fun q => decide (0 < hgtOf s q)) = L₂ from
      List.filter_eq_self.mpr (fun q hq => by
        simp only [decide_eq_true_eq]
        exact ok.hpos q (hmemL₂ q hq))]
  have hbwd_r : nr.backward = some (L₁.getLastD s.headId) := by
    have hchain := rep.bwds
    rw [hsplit, show s.headId :: (L₁ ++ r :: L₂) ++ [s.tailId]
        = (s.headId :: L₁) ++ (r :: (L₂ ++ [s.tailId])) from by simp] at hchain
    obtain ⟨_, _, hcr⟩ := List.chain'_append.mp hchain
    have hx := hcr (L₁.getLastD s.headId)
      (by rw [getLast?_cons_eq]; exact Option.mem_def.mpr rfl) r
      (Option.mem_def.mpr rfl)
    rw [ndOf_lkp hnr] at hx
    exact hx
  -- the backward fix-up
  have hsetb := setB_some hnnxt nr.backward
  set s1 : SL := { s with heap :=
    (updAt s.heap nxt (fun m => { m with backward := nr.backward })) } with hs1_def
  have hl1 : ∀ y, lkp s1.heap y
      = if y = nxt then some { nnxt with backward := nr.backward }
        else lkp s.heap y := by
    intro y
    have e : s1.heap = updAt s.heap nxt
        (fun m => { m with backward := nr.backward }) := by rw [hs1_def]
    rw [e, lkp_updAt]
    by_cases hy : y = nxt <;> simp [hy, hnnxt]
  have hn1 : lkp s1.heap r = some nr := by
    rw [hl1, if_neg (Ne.symm hnxtr)]
    exact hnr
  have hPlook : ∀ m, m < nr.height → ∃ nP, lkp s.heap (P m) = some nP ∧
      m < nP.forwards.length := by
    intro m hm
    rcases hPmem m with hc | hc
    · obtain ⟨hd, hhd⟩ := Option.isSome_iff_exists.mp ok.head_mem
      refine ⟨hd, by rw [hc]; exact hhd, ?_⟩
      have hl := ok.head_len
      rw [ndOf_lkp hhd] at hl
      omega
    · obtain ⟨nP, hnP⟩ := Option.isSome_iff_exists.mp (ok.memL _ (hmemL₁ _ hc.1))
      have hfl := ok.flen _ (hmemL₁ _ hc.1)
      rw [ndOf_lkp hnP] at hfl
      refine ⟨nP, hnP, ?_⟩
      rw [hfl]
      have hh := hc.2
      rw [hgtOf, ndOf_lkp hnP] at hh
      rw [hgtOf, ndOf_lkp hnP]
      exact hh
  have hP1 : ∀ m, 0 ≤ m → m < nr.height → ∃ nP, lkp s1.heap (P m) = some nP ∧
      m < nP.forwards.length := by
    intro m _ hm
    obtain ⟨nP, hnP, hb⟩ := hPlook m hm
    refine ⟨nP, ?_, hb⟩
    rw [hl1, if_neg (Ne.symm (hnxtP m))]
    exact hnP
  obtain ⟨s2, hloop, hhead2, htail2, hsize2, hnext2, hlen2, hkeys2, hrn2,
      hxchar, hnone2⟩ :=
    unlinkLoop_run r pr2 P nr.height hh20 nr hprget' (fun m _ => hPr m)
      hflen_r nr.height 0 s1 (by omega) hn1 hP1
  set s' : SL := { s2 with heap := delAt s2.heap r, size := s2.size - 1 }
    with hsP_def
  refine ⟨s', ?_, ?_, ?_, ?_, ?_, ?_, ?_⟩
  · simp only [eraseOp]
    rw [hfge']
    show (if r = s.tailId then some s
      else match lkp s.heap r with
        | none => none
        | some nr =>
          if k < nr.key then some s
          else
            match nr.forwards.get? 0 with
            | none => none
            | some none => none
            | some (some nxt) =>
              match setB s nxt nr.backward with
              | none => none
              | some s1 =>
                match unlinkLoop pr2 r s1 0 nr.height with
                | none => none
                | some s2 =>
                  some { s2 with heap := delAt s2.heap r, size := s2.size - 1 }) = some s'
    rw [if_neg hrtail, hnr]
    show (if k < nr.key then some s
      else
        match nr.forwards.get? 0 with
        | none => none
        | some none => none
        | some (some nxt) =>
          match setB s nxt nr.backward with
          | none => none
          | some s1 =>
            match unlinkLoop pr2 r s1 0 nr.height with
            | none => none
            | some s2 =>
              some { s2 with heap := delAt s2.heap r, size := s2.size - 1 }) = some s'
    rw [if_neg (by rw [hnrk]; exact lt_irrefl k), hfwd0r]
    show (match setB s nxt nr.backward with
      | none => none
      | some s1 =>
        match unlinkLoop pr2 r s1 0 nr.height with
        | none => none
        | some s2 =>
          some { s2 with heap := delAt s2.heap r, size := s2.size - 1 }) = some s'
    rw [hsetb]
    show (match unlinkLoop pr2 r s1 0 nr.height with
      | none => none
      | some s2 =>
        some { s2 with heap := delAt s2.heap r, size := s2.size - 1 }) = some s'
    rw [hloop]
  · -- the invariant for the shortened order
    have hhead' : s'.headId = s.headId := by
      rw [hsP_def]
      show s2.headId = s.headId
      rw [hhead2, hs1_def]
    have htail' : s'.tailId = s.tailId := by
      rw [hsP_def]
      show s2.tailId = s.tailId
      rw [htail2, hs1_def]
    have hsize' : s'.size = s.size - 1 := by
      rw [hsP_def]
      show s2.size - 1 = s.size - 1
      rw [hsize2, hs1_def]
    have hnext' : s'.nextId = s.nextId := by
      rw [hsP_def]
      show s2.nextId = s.nextId
      rw [hnext2, hs1_def]
    have hfinheapD : s'.heap = delAt s2.heap r := by rw [hsP_def]
    have hfinr : lkp s'.heap r = none := by
      rw [hfinheapD, lkp_delAt, if_pos rfl]
    have hfinX : ∀ x, x ≠ r → ∀ nx, lkp s.heap x = some nx →
        ∃ fx, lkp s'.heap x = some ⟨nx.key, nx.val, nx.height, fx,
            (if x = nxt then nr.backward else nx.backward)⟩ ∧
          fx.length = nx.forwards.length ∧
          (∀ m, m < nr.height → P m = x → fx.get? m = nr.forwards.get? m) ∧
          (∀ m, ¬ (m < nr.height ∧ P m = x) →
            fx.get? m = nx.forwards.get? m) := by
      intro x hx nx hnx
      by_cases hxn : x = nxt
      · subst hxn
        have hnn : nx = nnxt := by
          rw [hnx] at hnnxt; exact Option.some.inj hnnxt
        subst hnn
        obtain ⟨fx, hfx, hfl, hnew, hold⟩ := hxchar nxt hx
          { nx with backward := nr.backward } (by rw [hl1, if_pos rfl])
        refine ⟨fx, ?_, by simpa using hfl, ?_, ?_⟩
        · rw [if_pos rfl, hfinheapD, lkp_delAt, if_neg hx]
          exact hfx
        · intro m hm hPm
          exact hnew m (by omega) hm hPm
        · intro m hcond
          exact hold m (fun hc => hcond ⟨hc.2.1, hc.2.2⟩)
      · obtain ⟨fx, hfx, hfl, hnew, hold⟩ := hxchar x hx nx
          (by rw [hl1, if_neg hxn]; exact hnx)
        refine ⟨fx, ?_, hfl, ?_, ?_⟩
        · rw [if_neg hxn, hfinheapD, lkp_delAt, if_neg hx]
          exact hfx
        · intro m hm hPm
          exact hnew m (by omega) hm hPm
        · intro m hcond
          exact hold m (fun hc => hcond ⟨hc.2.1, hc.2.2⟩)
    have hfinNone : ∀ x, lkp s.heap x = none → lkp s'.heap x = none := by
      intro x hno
      have hxr : x ≠ r := fun hEq => by
        rw [hEq, hnr] at hno; exact Option.noConfusion hno
      have hxnxt : x ≠ nxt := fun hEq => by
        rw [hEq, hnnxt] at hno; exact Option.noConfusion hno
      rw [hfinheapD, lkp_delAt, if_neg hxr]
      apply hnone2
      rw [hl1, if_neg hxnxt]
      exact hno
    have hLne : ∀ x ∈ L₁ ++ L₂, x ≠ r := by
      intro x hx
      rcases List.mem_append.mp hx with hc | hc
      · exact fun hEq => hrL₁ (hEq ▸ hc)
      · exact fun hEq => hrL₂ (hEq ▸ hc)
    have hmemL' : ∀ x ∈ L₁ ++ L₂, x ∈ L := by
      intro x hx
      rcases List.mem_append.mp hx with hc | hc
      · exact hmemL₁ x hc
      · exact hmemL₂ x hc
    have hkeyL : ∀ x ∈ L₁ ++ L₂, keyOf s' x = keyOf s x := by
      intro x hx
      obtain ⟨nx, hnx⟩ := Option.isSome_iff_exists.mp (ok.memL x (hmemL' x hx))
      obtain ⟨fx, hfx, _, _, _⟩ := hfinX x (hLne x hx) nx hnx
      rw [keyOf, ndOf_lkp hfx, keyOf, ndOf_lkp hnx]
    have hhgtL : ∀ x ∈ L₁ ++ L₂, hgtOf s' x = hgtOf s x := by
      intro x hx
      obtain ⟨nx, hnx⟩ := Option.isSome_iff_exists.mp (ok.memL x (hmemL' x hx))
      obtain ⟨fx, hfx, _, _, _⟩ := hfinX x (hLne x hx) nx hnx
      rw [hgtOf, ndOf_lkp hfx, hgtOf, ndOf_lkp hnx]
    have hlookup' : ∀ x ∈ L₁ ++ L₂, (lkp s'.heap x).isSome := by
      intro x hx
      obtain ⟨nx, hnx⟩ := Option.isSome_iff_exists.mp (ok.memL x (hmemL' x hx))
      obtain ⟨fx, hfx, _, _, _⟩ := hfinX x (hLne x hx) nx hnx
      rw [hfx]
      rfl
    have hstep_pres : ∀ i x, x ≠ r → (nr.height ≤ i ∨ x ≠ P i) → ∀ y,
        stepsTo s i x y → stepsTo s' i x y := by
      intro i x hxr hcond y hxy
      simp only [stepsTo] at hxy ⊢
      cases hlx : lkp s.heap x with
      | none =>
        rw [show fwdF s x i = none from by unfold fwdF; rw [hlx]] at hxy
        exact Option.noConfusion hxy
      | some nx =>
        rw [fwdF_lkp hlx i] at hxy
        obtain ⟨fx, hfx, _, _, hold⟩ := hfinX x hxr nx hlx
        rw [fwdF_lkp hfx i]
        show fx.get? i = some (some y)
        rw [hold i (fun hc => by
          rcases hcond with hc1 | hc1
          · omega
          · exact hc1 hc.2.symm)]
        exact hxy
    have hstep_Pi : ∀ i, i < nr.height → stepsTo s' i (P i)
        ((L₂.filter (fun q => decide (i < hgtOf s q))).headD s.tailId) := by
      intro i hi
      obtain ⟨nP, hnP, _⟩ := hPlook i hi
      obtain ⟨fx, hfx, _, hnew, _⟩ := hfinX (P i) (hPr i) nP hnP
      simp only [stepsTo]
      rw [fwdF_lkp hfx i]
      rw [hnew i hi rfl]
      exact hstep_r i hi
    have hbwd_pres : ∀ b, b ≠ r → b ≠ nxt → ∀ nb, lkp s.heap b = some nb →
        (ndOf s' b).backward = nb.backward := by
      intro b hbr hbn nb hnb
      obtain ⟨fx, hfx, _, _, _⟩ := hfinX b hbr nb hnb
      rw [ndOf_lkp hfx]
      simp [hbn]
    have hbwd_nxt : (ndOf s' nxt).backward = some (L₁.getLastD s.headId) := by
      obtain ⟨fx, hfx, _, _, _⟩ := hfinX nxt hnxtr nnxt hnnxt
      rw [ndOf_lkp hfx]
      show (if nxt = nxt then nr.backward else nnxt.backward)
        = some (L₁.getLastD s.headId)
      rw [if_pos rfl, hbwd_r]
    have hheadnxt : s.headId ≠ nxt := by
      rcases hnxt_cases with hc | hc
      · rw [hc]; exact ok.ht_ne
      · exact fun hEq => hheadL₂ (by rw [hEq]; exact hc)
    obtain ⟨hd, hhd⟩ := Option.isSome_iff_exists.mp ok.head_mem
    obtain ⟨fH, hfH0, hfHlen, hfHnew, hfHold⟩ :=
      hfinX s.headId (Ne.symm hrhead) hd hhd
    rw [if_neg hheadnxt] at hfH0
    obtain ⟨tn, htn⟩ := Option.isSome_iff_exists.mp rep.tail_mem
    obtain ⟨fT, hfT0, hfTlen, hfTnew, hfTold⟩ :=
      hfinX s.tailId (Ne.symm hrtail) tn htn
    have hPne_tail : ∀ m, P m ≠ s.tailId := by
      intro m
      rcases hPmem m with hc | hc
      · rw [hc]; exact ok.ht_ne
      · exact fun hEq => htailL₁ (hEq ▸ hc.1)
    have hfT_eq : fT = tn.forwards := by
      apply List.ext_get?
      intro m
      apply hfTold
      intro hc
      exact hPne_tail m hc.2
    have hkeysD : s'.heap.map Prod.fst
        = (s.heap.map Prod.fst).filter (fun y => decide (y ≠ r)) := by
      rw [hfinheapD, delAt_keys, hkeys2]
      have e : s1.heap = updAt s.heap nxt
          (fun m => { m with backward := nr.backward }) := by rw [hs1_def]
      rw [e, updAt_keys]
    have hlvl' : ∀ i, lvl s' (L₁ ++ L₂) i
        = L₁.filter (fun q => decide (i < hgtOf s q))
          ++ L₂.filter (fun q => decide (i < hgtOf s q)) := by
      intro i
      rw [lvl, List.filter_append]
      have e1 : L₁.filter (fun q => decide (i < hgtOf s' q))
          = L₁.filter (fun q => decide (i < hgtOf s q)) :=
        List.filter_congr (fun q hq => by
          rw [hhgtL q (List.mem_append_left _ hq)])
      have e2 : L₂.filter (fun q => decide (i < hgtOf s' q))
          = L₂.filter (fun q => decide (i < hgtOf s q)) :=
        List.filter_congr (fun q hq => by
          rw [hhgtL q (List.mem_append_right _ hq)])
      rw [e1, e2]
    have hsorted' : (L₁ ++ L₂).Pairwise
        (fun a b => keyOf s' a < keyOf s' b) := by
      have hs0 := ok.sorted
      rw [hsplit] at hs0
      obtain ⟨hp1, hp2, hcr⟩ := List.pairwise_append.mp hs0
      apply List.pairwise_append.mpr
      refine ⟨?_, ?_, ?_⟩
      · apply hp1.imp_of_mem
        intro a b ha hb hab
        rw [hkeyL a (List.mem_append_left _ ha),
          hkeyL b (List.mem_append_left _ hb)]
        exact hab
      · apply (List.pairwise_cons.mp hp2).2.imp_of_mem
        intro a b ha hb hab
        rw [hkeyL a (List.mem_append_right _ ha),
          hkeyL b (List.mem_append_right _ hb)]
        exact hab
      · intro a ha b hb
        rw [hkeyL a (List.mem_append_left _ ha),
          hkeyL b (List.mem_append_right _ hb)]
        exact hcr a ha b (List.mem_cons_of_mem r hb)
    have hlinks' : ∀ i, i < 20 → List.Chain' (stepsTo s' i)
        (s'.headId :: lvl s' (L₁ ++ L₂) i ++ [s'.tailId]) := by
      intro i hi20
      rw [hlvl' i, hhead', htail']
      set B := L₁.filter (fun q => decide (i < hgtOf s q)) with hB_def
      set C := L₂.filter (fun q => decide (i < hgtOf s q)) with hC_def
      have hmemB : ∀ q ∈ B, q ∈ L₁ := by
        intro q hq
        rw [hB_def] at hq
        exact (List.mem_filter.mp hq).1
      have hmemC : ∀ q ∈ C, q ∈ L₂ := by
        intro q hq
        rw [hC_def] at hq
        exact (List.mem_filter.mp hq).1
      have hBr : ∀ q ∈ B, q ≠ r :=
        fun q hq hEq => hrL₁ (hEq ▸ hmemB q hq)
      have hCr : ∀ q ∈ C, q ≠ r :=
        fun q hq hEq => hrL₂ (hEq ▸ hmemC q hq)
      have hCne : ∀ x ∈ C, x ≠ P i := by
        intro x hxC
        rcases hPmem i with hc | hc
        · rw [hc]
          exact fun hEq => hheadL₂ (hEq ▸ hmemC x hxC)
        · exact fun hEq => hdisj hc.1 (by rw [← hEq]; exact hmemC x hxC)
      have hold := ok.links i hi20
      have hndHB : (s.headId :: B).Nodup := by
        rw [List.nodup_cons]
        refine ⟨fun hc => hheadL₁ (hmemB _ hc), ?_⟩
        rw [hB_def]
        exact List.Nodup.filter _ (List.nodup_append.mp hnodup).1
      have hPieq : P i = B.getLastD s.headId := by
        show prevAt s L₁ i = B.getLastD s.headId
        rw [hB_def]
        simp only [prevAt]
      by_cases hih : i < nr.height
      · have hre : lvl s L i = B ++ r :: C := by
          rw [lvl, hsplit, List.filter_append, List.filter_cons]
          rw [show (decide (i < hgtOf s r)) = true from by
            simp only [decide_eq_true_eq]
            rw [hhgt_r]
            exact hih]
          rw [hB_def, hC_def]
          simp
        rw [hre, show s.headId :: (B ++ r :: C) ++ [s.tailId]
            = (s.headId :: B) ++ (r :: (C ++ [s.tailId])) from by simp] at hold
        obtain ⟨hcHB, hcRT, _⟩ := List.chain'_append.mp hold
        have hcCT := (List.chain'_cons'.mp hcRT).2
        rw [show s.headId :: (B ++ C) ++ [s.tailId]
            = (s.headId :: B) ++ (C ++ [s.tailId]) from by simp]
        apply List.chain'_append.mpr
        refine ⟨?_, ?_, ?_⟩
        · apply chain'_imp_fst hcHB
          intro x hx y hr2
          have hxne : x ≠ B.getLastD s.headId := mem_dropLast_ne_getLastD hndHB hx
          have hxmem : x ∈ s.headId :: B := mem_of_mem_dropLast hx
          have hxr : x ≠ r := by
            rcases List.mem_cons.mp hxmem with hc | hc
            · rw [hc]; exact Ne.symm hrhead
            · exact hBr x hc
          refine hstep_pres i x hxr (Or.inr ?_) y hr2
          rw [hPieq]
          exact hxne
        · apply chain'_imp_fst hcCT
          intro x hx y hr2
          have hxC : x ∈ C := by rwa [List.dropLast_concat] at hx
          exact hstep_pres i x (hCr x hxC) (Or.inr (hCne x hxC)) y hr2
        · intro x hx y hy
          rw [getLast?_cons_eq] at hx
          have hxv : B.getLastD s.headId = x := by simpa using hx
          have hyv : C.headD s.tailId = y := by
            rw [head?_append_one] at hy
            simpa using hy
          rw [← hxv, ← hyv, ← hPieq]
          exact hstep_Pi i hih
      · have hre : lvl s L i = B ++ C := by
          rw [lvl, hsplit, List.filter_append, List.filter_cons]
          rw [show (decide (i < hgtOf s r)) = false from by
            simp only [decide_eq_false_iff_not]
            rw [hhgt_r]
            omega]
          rw [hB_def, hC_def]
          simp
        rw [hre] at hold
        apply chain'_imp_fst hold
        intro x hx y hr2
        have hxmem : x ∈ s.headId :: (B ++ C) := by
          have e : s.headId :: (B ++ C) ++ [s.tailId]
              = (s.headId :: (B ++ C)) ++ [s.tailId] := by simp
          rw [e, List.dropLast_concat] at hx
          exact hx
        have hxr : x ≠ r := by
          rcases List.mem_cons.mp hxmem with hc | hc
          · rw [hc]; exact Ne.symm hrhead
          · rcases List.mem_append.mp hc with hc2 | hc2
            · exact hBr x hc2
            · exact hCr x hc2
        exact hstep_pres i x hxr (Or.inl (by omega)) y hr2
    have hbwds' : List.Chain' (fun a b => (ndOf s' b).backward = some a)
        (s.headId :: (L₁ ++ L₂) ++ [s.tailId]) := by
      have hold := rep.bwds
      rw [hsplit, show s.headId :: (L₁ ++ r :: L₂) ++ [s.tailId]
          = (s.headId :: L₁) ++ (r :: (L₂ ++ [s.tailId])) from by simp] at hold
      obtain ⟨hbHL₁, hbRT, _⟩ := List.chain'_append.mp hold
      have hbLT := (List.chain'_cons'.mp hbRT).2
      rw [show s.headId :: (L₁ ++ L₂) ++ [s.tailId]
          = (s.headId :: L₁) ++ (L₂ ++ [s.tailId]) from by simp]
      apply List.chain'_append.mpr
      refine ⟨?_, ?_, ?_⟩
      · apply chain'_imp_snd hbHL₁
        intro y hy x hr2
        have hr2' : (ndOf s y).backward = some x := hr2
        have hyL₁ : y ∈ L₁ := by simpa using hy
        have hyr : y ≠ r := fun hEq => hrL₁ (hEq ▸ hyL₁)
        have hynxt : y ≠ nxt := by
          rcases hnxt_cases with hc | hc
          · rw [hc]
            exact fun hEq => htailL₁ (hEq ▸ hyL₁)
          · exact fun hEq => hdisj hyL₁ (by rw [hEq]; exact hc)
        obtain ⟨ny, hny⟩ :=
          Option.isSome_iff_exists.mp (ok.memL y (hmemL₁ y hyL₁))
        show (ndOf s' y).backward = some x
        rw [hbwd_pres y hyr hynxt ny hny]
        rw [ndOf_lkp hny] at hr2'
        exact hr2'
      · apply chain'_imp_snd hbLT
        intro y hy x hr2
        have hr2' : (ndOf s y).backward = some x := hr2
        show (ndOf s' y).backward = some x
        cases hL2c : L₂ with
        | nil =>
          rw [hL2c] at hy
          simp at hy
        | cons c cs =>
          rw [hL2c, List.cons_append, List.tail_cons] at hy
          have hyc : y ∈ cs ∨ y = s.tailId := by
            rcases List.mem_append.mp hy with hc | hc
            · left; exact hc
            · right; simpa using hc
          have hnd2 : (c :: cs).Nodup := by
            rw [← hL2c]
            exact (List.nodup_cons.mp
              ((List.nodup_append.mp hnodup).2.1)).2
          have hnxteq : nxt = c := by rw [hnxt_def, hL2c]; rfl
          have hcL₂ : c ∈ L₂ := by rw [hL2c]; exact List.mem_cons_self c cs
          have hyr : y ≠ r := by
            rcases hyc with hc | hc
            · exact fun hEq => hrL₂ (hEq ▸ (by
                rw [hL2c]; exact List.mem_cons_of_mem c hc))
            · rw [hc]; exact Ne.symm hrtail
          have hynxt : y ≠ nxt := by
            rw [hnxteq]
            rcases hyc with hc | hc
            · intro hEq
              exact (List.nodup_cons.mp hnd2).1 (hEq ▸ hc)
            · rw [hc]
              intro hEq
              exact htailL₂ (by rw [hL2c, hEq]; exact List.mem_cons_self c cs)
          obtain ⟨ny, hny⟩ : ∃ ny, lkp s.heap y = some ny := by
            rcases hyc with hc | hc
            · exact Option.isSome_iff_exists.mp (ok.memL y (hmemL₂ y
                (by rw [hL2c]; exact List.mem_cons_of_mem c hc)))
            · rw [hc]; exact Option.isSome_iff_exists.mp rep.tail_mem
          rw [hbwd_pres y hyr hynxt ny hny]
          rw [ndOf_lkp hny] at hr2'
          exact hr2'
      · intro x hx y hy
        rw [getLast?_cons_eq] at hx
        have hxv : L₁.getLastD s.headId = x := by simpa using hx
        have hyv : L₂.headD s.tailId = y := by
          rw [head?_append_one] at hy
          simpa using hy
        show (ndOf s' y).backward = some x
        rw [← hyv, ← hxv]
        exact hbwd_nxt
    have hnodup' : (L₁ ++ L₂).Nodup :=
      (List.nodup_cons.mp (List.nodup_middle.mp hnodup)).2
    have hok' : SearchOK s' (L₁ ++ L₂) := by
      refine ⟨?_, ?_, ?_, ?_, ?_, ?_, ?_, ?_, ?_, ?_, ?_, ?_, ?_⟩
      · rw [hhead', hfH0]; rfl
      · rw [hhead', ndOf_lkp hfH0]
        show fH.length = 20
        rw [hfHlen]
        have hl := ok.head_len
        rw [ndOf_lkp hhd] at hl
        exact hl
      · rw [hhead', htail']; exact ok.ht_ne
      · rw [hhead']
        intro hc
        exact ok.head_nmem (hmemL' _ hc)
      · rw [htail']
        intro hc
        exact ok.tail_nmem (hmemL' _ hc)
      · exact hnodup'
      · exact hlookup'
      · intro q hq
        rw [hhgtL q hq]
        exact ok.hpos q (hmemL' q hq)
      · intro q hq
        rw [hhgtL q hq]
        exact ok.hle q (hmemL' q hq)
      · intro q hq
        obtain ⟨nq, hnq⟩ :=
          Option.isSome_iff_exists.mp (ok.memL q (hmemL' q hq))
        obtain ⟨fq, hfq, hfql, _, _⟩ := hfinX q (hLne q hq) nq hnq
        rw [ndOf_lkp hfq, hhgtL q hq]
        show fq.length = hgtOf s q
        rw [hfql]
        have hf := ok.flen q (hmemL' q hq)
        rw [ndOf_lkp hnq] at hf
        exact hf
      · exact hsorted'
      · exact hlinks'
      · -- the arena still holds head, tail and the surviving nodes
        have hsub : ∀ x ∈ s.headId :: s.tailId :: (L₁ ++ L₂),
            x ∈ s'.heap.map Prod.fst := by
          intro x hx
          apply lkp_mem_keys
          rcases List.mem_cons.mp hx with hc | hc
          · rw [hc, hfH0]; rfl
          · rcases List.mem_cons.mp hc with hc2 | hc2
            · rw [hc2, hfT0]; rfl
            · exact hlookup' x hc2
        have hnd3 : (s.headId :: s.tailId :: (L₁ ++ L₂)).Nodup := by
          rw [List.nodup_cons, List.nodup_cons]
          refine ⟨?_, ?_, hnodup'⟩
          · intro hc
            rcases List.mem_cons.mp hc with hc2 | hc2
            · exact ok.ht_ne hc2
            · exact ok.head_nmem (hmemL' _ hc2)
          · intro hc
            exact ok.tail_nmem (hmemL' _ hc)
        have hle3 := (List.subperm_of_subset hnd3 hsub).length_le
        simp only [List.length_cons, List.length_map] at hle3
        simp only [List.length_append] at hle3 ⊢
        omega
    refine ⟨hok', ?_, ?_, ?_, ?_, ?_, ?_, ?_, ?_, ?_, ?_, ?_, ?_, ?_, ?_,
      ?_, ?_⟩
    · rw [hhead']; exact rep.hid
    · rw [htail']; exact rep.tid
    · rw [hhead', ndOf_lkp hfH0]
      show hd.key = 0
      have hq := rep.head_key
      rw [ndOf_lkp hhd] at hq
      exact hq
    · rw [hhead', ndOf_lkp hfH0]
      show hd.val = 0
      have hq := rep.head_val
      rw [ndOf_lkp hhd] at hq
      exact hq
    · rw [hhead', ndOf_lkp hfH0]
      show hd.height = 20
      have hq := rep.head_hgt
      rw [ndOf_lkp hhd] at hq
      exact hq
    · rw [hhead', ndOf_lkp hfH0]
      show hd.backward = none
      have hq := rep.head_bwd
      rw [ndOf_lkp hhd] at hq
      exact hq
    · rw [htail', hfT0]; rfl
    · rw [htail', ndOf_lkp hfT0]
      show tn.key = 0
      have hq := rep.tail_key
      rw [ndOf_lkp htn] at hq
      exact hq
    · rw [htail', ndOf_lkp hfT0]
      show tn.val = 0
      have hq := rep.tail_val
      rw [ndOf_lkp htn] at hq
      exact hq
    · rw [htail', ndOf_lkp hfT0]
      show tn.height = 20
      have hq := rep.tail_hgt
      rw [ndOf_lkp htn] at hq
      exact hq
    · rw [htail', ndOf_lkp hfT0]
      show fT = List.replicate 20 none
      rw [hfT_eq]
      have hq := rep.tail_fwd
      rw [ndOf_lkp htn] at hq
      exact hq
    · rw [hhead', htail']
      exact hbwds'
    · rw [hsize', rep.size_eq, hsplit]
      simp only [List.length_append, List.length_cons]
      omega
    · obtain ⟨restKeys, hsh, hrest⟩ := rep.shape
      refine ⟨restKeys.filter (fun y => decide (y ≠ r)), ?_, ?_⟩
      · rw [hkeysD, hsh, hhead', htail', List.filter_cons, List.filter_cons]
        rw [if_pos (by simp [Ne.symm hrhead]), if_pos (by simp [Ne.symm hrtail])]
      · intro x hx
        have hxr : x ≠ r := by
          have := (List.mem_filter.mp hx).2
          simpa using this
        have hxL : x ∈ L := hrest x (List.mem_filter.mp hx).1
        rw [hsplit] at hxL
        rcases List.mem_append.mp hxL with hc | hc
        · exact List.mem_append_left _ hc
        · rcases List.mem_cons.mp hc with hc2 | hc2
          · exact absurd hc2 hxr
          · exact List.mem_append_right _ hc2
    · intro x hx
      rw [hnext']
      have hxs : (lkp s.heap x).isSome := by
        by_contra hc
        rw [Option.not_isSome_iff_eq_none] at hc
        rw [hfinNone x hc] at hx
        simp at hx
      exact rep.fresh x hxs
    · intro x
      constructor
      · intro hx
        have hxr : x ≠ r := by
          intro hEq
          rw [hEq, hfinr] at hx
          simp at hx
        have hxs : (lkp s.heap x).isSome := by
          by_contra hc
          rw [Option.not_isSome_iff_eq_none] at hc
          rw [hfinNone x hc] at hx
          simp at hx
        rcases (rep.dom x).mp hxs with hc | hc | hc
        · left; rw [hhead']; exact hc
        · right; left; rw [htail']; exact hc
        · right; right
          rw [hsplit] at hc
          rcases List.mem_append.mp hc with hc2 | hc2
          · exact List.mem_append_left _ hc2
          · rcases List.mem_cons.mp hc2 with hc3 | hc3
            · exact absurd hc3 hxr
            · exact List.mem_append_right _ hc3
      · intro hx
        rcases hx with hc | hc | hc
        · rw [hc, hhead', hfH0]; rfl
        · rw [hc, htail', hfT0]; rfl
        · exact hlookup' x hc
  · rw [hsP_def]
    show s2.headId = s.headId
    rw [hhead2, hs1_def]
  · rw [hsP_def]
    show s2.tailId = s.tailId
    rw [htail2, hs1_def]
  · rw [hsP_def]
    show s2.size - 1 = s.size - 1
    rw [hsize2, hs1_def]
  · rw [hsP_def]
    show s2.nextId = s.nextId
    rw [hnext2, hs1_def]
  · intro q hq
    have hqr : q ≠ r := by
      rcases List.mem_append.mp hq with hc | hc
      · exact fun hEq => hrL₁ (hEq ▸ hc)
      · exact fun hEq => hrL₂ (hEq ▸ hc)
    have hqL : q ∈ L := by
      rcases List.mem_append.mp hq with hc | hc
      · exact hmemL₁ q hc
      · exact hmemL₂ q hc
    obtain ⟨nq, hnq⟩ := Option.isSome_iff_exists.mp (ok.memL q hqL)
    by_cases hqn : q = nxt
    · subst hqn
      have hnn : nq = nnxt := by rw [hnq] at hnnxt; exact Option.some.inj hnnxt
      subst hnn
      obtain ⟨fx, hfx, _, _, _⟩ := hxchar nxt hqr
        { nq with backward := nr.backward } (by rw [hl1, if_pos rfl])
      have hfx' : lkp s'.heap nxt
          = some ⟨nq.key, nq.val, nq.height, fx, nr.backward⟩ := by
        rw [hsP_def]
        show lkp (delAt s2.heap r) nxt = _
        rw [lkp_delAt, if_neg hqr]
        exact hfx
      constructor
      · rw [keyOf, ndOf_lkp hfx', keyOf, ndOf_lkp hnq]
      · rw [ndOf_lkp hfx', ndOf_lkp hnq]
    · obtain ⟨fx, hfx, _, _, _⟩ := hxchar q hqr nq
        (by rw [hl1, if_neg hqn]; exact hnq)
      have hfx' : lkp s'.heap q
          = some ⟨nq.key, nq.val, nq.height, fx, nq.backward⟩ := by
        rw [hsP_def]
        show lkp (delAt s2.heap r) q = _
        rw [lkp_delAt, if_neg hqr]
        exact hfx
      constructor
      · rw [keyOf, ndOf_lkp hfx', keyOf, ndOf_lkp hnq]
      · rw [ndOf_lkp hfx', ndOf_lkp hnq]

/-- erase(k) when k is not stored: the traversal lands on tail or on a node
with a strictly greater key, and the call returns the state unchanged. -/
theorem eraseOp_absent (s : SL) (L L₁ L₂ : List Nat) (k : Int)
    (rep : RepInv s L) (hsplit : L = L₁ ++ L₂)
    (hlt : ∀ q ∈ L₁, keyOf s q < k) (hgt2 : ∀ q ∈ L₂, k < keyOf s q) :
    eraseOp s k = some s := by
  obtain ⟨pr2, hfge, _, _⟩ := fge_spec s L L₁ L₂ k rep.toSearchOK hsplit hlt
    (fun q hq => le_of_lt (hgt2 q hq))
  simp only [eraseOp]
  rw [hfge]
  cases hL2c : L₂ with
  | nil =>
    show (if s.tailId = s.tailId then some s
      else match lkp s.heap s.tailId with
        | none => none
        | some nr =>
          if k < nr.key then some s
          else
            match nr.forwards.get? 0 with
            | none => none
            | some none => none
            | some (some nxt) =>
              match setB s nxt nr.backward with
              | none => none
              | some s1 =>
                match unlinkLoop pr2 s.tailId s1 0 nr.height with
                | none => none
                | some s2 =>
                  some { s2 with heap := delAt s2.heap s.tailId, size := s2.size - 1 }) = some s
    rw [if_pos rfl]
  | cons c cs =>
    show (if c = s.tailId then some s
      else match lkp s.heap c with
        | none => none
        | some nr =>
          if k < nr.key then some s
          else
            match nr.forwards.get? 0 with
            | none => none
            | some none => none
            | some (some nxt) =>
              match setB s nxt nr.backward with
              | none => none
              | some s1 =>
                match unlinkLoop pr2 c s1 0 nr.height with
                | none => none
                | some s2 =>
                  some { s2 with heap := delAt s2.heap c, size := s2.size - 1 }) = some s
    have hcL : c ∈ L := by
      rw [hsplit, hL2c]
      exact List.mem_append_right _ (List.mem_cons_self _ _)
    have hctail : c ≠ s.tailId := fun hEq => rep.toSearchOK.tail_nmem (hEq ▸ hcL)
    obtain ⟨nc, hnc⟩ := Option.isSome_iff_exists.mp (rep.toSearchOK.memL c hcL)
    have hkc : k < nc.key := by
      rw [← keyOf_lkp hnc]
      exact hgt2 c (by rw [hL2c]; exact List.mem_cons_self _ _)
    rw [if_neg hctail, hnc]
    show (if k < nc.key then some s
      else
        match nc.forwards.get? 0 with
        | none => none
        | some none => none
        | some (some nxt) =>
          match setB s nxt nc.backward with
          | none => none
          | some s1 =>
            match unlinkLoop pr2 c s1 0 nc.height with
            | none => none
            | some s2 =>
              some { s2 with heap := delAt s2.heap c, size := s2.size - 1 }) = some s
    rw [if_pos hkc]

/-- erase(iterator): the level-0 successor is captured first, then the element
is erased by its key; the returned iterator is exactly that successor. -/
theorem eraseItOp_run (s : SL) (L L₁ L₂ : List Nat) (r : Nat)
    (rep : RepInv s L) (hsplit : L = L₁ ++ r :: L₂)
    (hlt : ∀ q ∈ L₁, keyOf s q < keyOf s r)
    (hgt2 : ∀ q ∈ L₂, keyOf s r < keyOf s q) :
    ∃ s', eraseItOp s r = some (s', some (L₂.headD s.tailId)) ∧
      eraseOp s (keyOf s r) = some s' ∧ RepInv s' (L₁ ++ L₂) ∧
      s'.headId = s.headId ∧ s'.tailId = s.tailId ∧
      s'.size = s.size - 1 ∧ s'.nextId = s.nextId := by
  have ok := rep.toSearchOK
  have hrL : r ∈ L := by
    rw [hsplit]
    exact List.mem_append_right _ (List.mem_cons_self _ _)
  obtain ⟨nr, hnr⟩ := Option.isSome_iff_exists.mp (ok.memL r hrL)
  obtain ⟨s', hop, hrep, hh, ht, hsz, hnx, _⟩ :=
    erase_rep s L L₁ L₂ r (keyOf s r) rep hsplit hlt rfl hgt2
  -- the captured successor is r's level-0 forward
  have hstep0 : fwdF s r 0 = some (some (L₂.headD s.tailId)) := by
    have hchain := ok.links 0 (by omega)
    have hlvl0 : lvl s L 0 = L := by
      rw [lvl]
      apply List.filter_eq_self.mpr
      intro q hq
      simp only [decide_eq_true_eq]
      exact ok.hpos q hq
    rw [hlvl0, hsplit, show s.headId :: (L₁ ++ r :: L₂) ++ [s.tailId]
        = (s.headId :: L₁) ++ (r :: (L₂ ++ [s.tailId])) from by simp] at hchain
    have h2 := (List.chain'_append.mp hchain).2.1
    have hfirst := (List.chain'_cons'.mp h2).1
    exact hfirst _ (by rw [head?_append_one]; exact Option.mem_def.mpr rfl)
  refine ⟨s', ?_, hop, hrep, hh, ht, hsz, hnx⟩
  simp only [eraseItOp]
  rw [hstep0]
  show (match lkp s.heap r with
    | none => none
    | some ni =>
      match eraseOp s ni.key with
      | none => none
      | some s2 => some (s2, some (L₂.headD s.tailId))) = some (s', some (L₂.headD s.tailId))
  rw [hnr]
  show (match eraseOp s nr.key with
    | none => none
    | some s2 => some (s2, some (L₂.headD s.tailId))) = some (s', some (L₂.headD s.tailId))
  rw [show nr.key = keyOf s r from (keyOf_lkp hnr).symm, hop]

/- ===== clear ===== -/

theorem foldl_delAt_eq_filter : ∀ (c : List Nat) (hp : List (Nat × SNode)),
    c.foldl delAt hp = hp.filter (fun e => decide (e.1 ∉ c))
  | [], hp => by simp
  | q :: c', hp => by
    rw [List.foldl_cons, foldl_delAt_eq_filter c' (delAt hp q), delAt,
      List.filter_filter]
    apply List.filter_congr
    intro e _
    by_cases h1 : e.1 = q <;> by_cases h2 : e.1 ∈ c' <;>
      simp [h1, h2, List.mem_cons]

theorem updAt_updAt (x : Nat) (f g : SNode → SNode) :
    ∀ hp : List (Nat × SNode),
      updAt (updAt hp x f) x g = updAt hp x (fun m => g (f m))
  | [] => rfl
  | e :: t => by
    have ih := updAt_updAt x f g t
    by_cases h : e.1 = x <;> simp [updAt, h] <;> simpa [updAt] using ih

/-- The deletion walk of clear: it consumes exactly the level-0 chain and
deletes every visited node, leaving everything else intact. -/
theorem clearLoop_run :
    ∀ (c : List Nat) (g : Nat) (t : SL),
      List.Chain' (stepsTo t 0) (c ++ [t.tailId]) →
      (∀ q ∈ c, q ≠ t.tailId ∧ (lkp t.heap q).isSome) →
      c.Nodup →
      clearLoop (c.length + 1 + g) t (some (c.headD t.tailId))
        = some { t with heap := c.foldl delAt t.heap }
  | [], g, t, _, _, _ => by
    rw [show ([] : List Nat).length + 1 + g = g + 1 from by
      simp only [List.length_nil]; omega]
    simp [clearLoop]
  | q :: c', g, t, hchain, hmem, hnd => by
    rw [show (q :: c').length + 1 + g = (c'.length + 1 + g) + 1 from by
      simp only [List.length_cons]; omega]
    obtain ⟨hqt, hqs⟩ := hmem q (List.mem_cons_self q c')
    rw [List.cons_append] at hchain
    rcases List.chain'_cons'.mp hchain with ⟨hhd, hchain'⟩
    have hstep : stepsTo t 0 q (c'.headD t.tailId) :=
      hhd _ (by rw [head?_append_one]; exact Option.mem_def.mpr rfl)
    simp only [stepsTo] at hstep
    set t1 : SL := { t with heap := delAt t.heap q } with ht1
    have hqc' : q ∉ c' := (List.nodup_cons.mp hnd).1
    have hlkp1 : ∀ y, y ≠ q → lkp t1.heap y = lkp t.heap y := by
      intro y hy
      have e : t1.heap = delAt t.heap q := by rw [ht1]
      rw [e, lkp_delAt, if_neg hy]
    have hchain1 : List.Chain' (stepsTo t1 0) (c' ++ [t1.tailId]) := by
      apply chain'_imp_fst hchain'
      intro x hx y hr
      have hxc : x ∈ c' := by rwa [List.dropLast_concat] at hx
      have hxq : x ≠ q := fun hEq => hqc' (hEq ▸ hxc)
      show fwdF t1 x 0 = some (some y)
      rw [show fwdF t1 x 0 = fwdF t x 0 from by unfold fwdF; rw [hlkp1 x hxq]]
      exact hr
    have hmem1 : ∀ p ∈ c', p ≠ t1.tailId ∧ (lkp t1.heap p).isSome := by
      intro p hp
      have hpq : p ≠ q := fun hEq => hqc' (hEq ▸ hp)
      obtain ⟨h1, h2⟩ := hmem p (List.mem_cons_of_mem q hp)
      exact ⟨h1, by rw [hlkp1 p hpq]; exact h2⟩
    have ih := clearLoop_run c' g t1 hchain1 hmem1 (List.nodup_cons.mp hnd).2
    show clearLoop ((c'.length + 1 + g) + 1) t (some q)
      = some { t with heap := (q :: c').foldl delAt t.heap }
    simp only [clearLoop]
    rw [if_neg hqt, hstep]
    show clearLoop (c'.length + 1 + g) t1 (some (c'.headD t.tailId))
      = some { t with heap := (q :: c').foldl delAt t.heap }
    rw [show (c'.headD t.tailId) = (c'.headD t1.tailId) from rfl, ih]
    rfl

theorem updAt_id (x : Nat) (f : SNode → SNode) :
    ∀ hp : List (Nat × SNode), (∀ e ∈ hp, e.1 = x → f e.2 = e.2) →
      updAt hp x f = hp
  | [], _ => rfl
  | e :: t, H => by
    have ih := updAt_id x f t (fun e' he' hx => H e' (List.mem_cons_of_mem e he') hx)
    simp only [updAt, List.map_cons]
    by_cases h : e.1 = x
    · rw [if_pos h, H e (List.mem_cons_self e t) h]
      rw [show t.map (fun e => if e.1 = x then (e.1, f e.2) else e)
        = updAt t x f from rfl, ih]
    · rw [if_neg h]
      rw [show t.map (fun e => if e.1 = x then (e.1, f e.2) else e)
        = updAt t x f from rfl, ih]

/-- The relink loop of clear: head's forward pointers at levels [i, 20) all
end up pointing at tail, the rest of the state untouched. -/
theorem relinkLoop_heap :
    ∀ (cnt i : Nat) (t : SL) (nh : SNode),
      i + cnt = 20 →
      lkp t.heap t.headId = some nh →
      nh.forwards.length = 20 →
      (∀ e ∈ t.heap, e.1 = t.headId → e.2 = nh) →
      ∃ fl', fl'.length = 20 ∧
        (∀ m, i ≤ m → m < 20 → fl'.get? m = some (some t.tailId)) ∧
        (∀ m, m < i → fl'.get? m = nh.forwards.get? m) ∧
        relinkLoop t i cnt = some { t with heap :=
          (updAt t.heap t.headId (fun m => { m with forwards := fl' })) }
  | 0, i, t, nh, hcnt, hn, hlen, huniq => by
    refine ⟨nh.forwards, hlen, ?_, fun _ _ => rfl, ?_⟩
    · intro m h1 h2
      omega
    · show some t = _
      rw [updAt_id t.headId _ t.heap (fun e he hx => by
        rw [huniq e he hx])]
  | cnt+1, i, t, nh, hcnt, hn, hlen, huniq => by
    have hi20 : i < 20 := by omega
    have hsetf := setF_some hn i (by rw [hlen]; omega) (some t.tailId)
    set t1 : SL := { t with heap := (updAt t.heap t.headId
      (fun m => { m with forwards := m.forwards.set i (some t.tailId) })) }
      with ht1
    have e1 : t1.heap = updAt t.heap t.headId
        (fun m => { m with forwards := m.forwards.set i (some t.tailId) }) := by
      rw [ht1]
    have hhead1 : t1.headId = t.headId := by rw [ht1]
    have htail1 : t1.tailId = t.tailId := by rw [ht1]
    have hn1 : lkp t1.heap t1.headId
        = some { nh with forwards := nh.forwards.set i (some t.tailId) } := by
      rw [hhead1, e1, lkp_updAt, if_pos rfl, hn]
      rfl
    have hlen1 : ({ nh with forwards := nh.forwards.set i (some t.tailId) }
        : SNode).forwards.length = 20 := by
      show (nh.forwards.set i (some t.tailId)).length = 20
      rw [List.length_set]
      exact hlen
    have huniq1 : ∀ e ∈ t1.heap, e.1 = t1.headId →
        e.2 = { nh with forwards := nh.forwards.set i (some t.tailId) } := by
      intro e he hx
      rw [hhead1] at hx
      rw [e1] at he
      simp only [updAt, List.mem_map] at he
      obtain ⟨e0, he0, heq⟩ := he
      by_cases h0 : e0.1 = t.headId
      · rw [if_pos h0] at heq
        rw [← heq]
        show ({ e0.2 with forwards := e0.2.forwards.set i (some t.tailId) }
          : SNode) = _
        rw [huniq e0 he0 h0]
      · rw [if_neg h0] at heq
        rw [← heq] at hx
        exact absurd hx h0
    obtain ⟨fl', hfl'len, hfl'new, hfl'old, hloop⟩ :=
      relinkLoop_heap cnt (i+1) t1
        { nh with forwards := nh.forwards.set i (some t.tailId) }
        (by omega) hn1 hlen1 huniq1
    refine ⟨fl', hfl'len, ?_, ?_, ?_⟩
    · intro m h1 h2
      rcases Nat.lt_or_ge i m with hm | hm
      · rw [hfl'new m (by omega) h2]
      · have hmi : m = i := by omega
        subst hmi
        rw [hfl'old m (by omega)]
        show (nh.forwards.set m (some t.tailId)).get? m = some (some t.tailId)
        rw [List.get?_set_of_lt' (some t.tailId) nh.forwards (by omega),
          if_pos rfl]
    · intro m hm
      rw [hfl'old m (by omega)]
      show (nh.forwards.set i (some t.tailId)).get? m = nh.forwards.get? m
      rw [List.get?_set_of_lt' (some t.tailId) nh.forwards (by omega),
        if_neg (by omega)]
    · show relinkLoop t i (cnt+1) = _
      simp only [relinkLoop]
      rw [hsetf]
      show relinkLoop t1 (i+1) cnt = _
      rw [hloop]
      show some { t1 with heap := (updAt t1.heap t1.headId
        (fun m => { m with forwards := fl' })) } = _
      rw [hhead1, e1, updAt_updAt]

/-- clear(): every non-sentinel node is deleted by the level-0 walk, head is
relinked to tail at all 20 levels, tail's backward is re-pointed at head and
the counter reset; the result is exactly the freshly-constructed container
(up to the allocation counter, which models addresses). -/
theorem clear_rep (s : SL) (L : List Nat) (rep : RepInv s L) :
    clearOp s = some { initSL with nextId := s.nextId } := by
  have ok := rep.toSearchOK
  obtain ⟨restKeys, hsh, hrest⟩ := rep.shape
  obtain ⟨ea, rest1, hheap1'⟩ : ∃ ea rest1, s.heap = ea :: rest1 := by
    cases hc : s.heap with
    | nil => rw [hc] at hsh; simp at hsh
    | cons e t => exact ⟨e, t, rfl⟩
  obtain ⟨eb, rest, hheap2'⟩ : ∃ eb rest, rest1 = eb :: rest := by
    cases hc : rest1 with
    | nil => rw [hheap1', hc] at hsh; simp at hsh
    | cons e t => exact ⟨e, t, rfl⟩
  have hheap1 : s.heap = ea :: eb :: rest := by rw [hheap1', hheap2']
  have hsh' := hsh
  rw [hheap1] at hsh'
  simp only [List.map_cons, List.cons.injEq] at hsh'
  obtain ⟨hea1, heb1, hmap⟩ := hsh'
  have hlkp_head : lkp s.heap s.headId = some ea.2 := by
    rw [hheap1]
    show (if ea.1 = s.headId then some ea.2 else lkp (eb :: rest) s.headId)
      = some ea.2
    rw [if_pos hea1]
  have hlkp_tail : lkp s.heap s.tailId = some eb.2 := by
    rw [hheap1]
    show (if ea.1 = s.tailId then some ea.2 else lkp (eb :: rest) s.tailId)
      = some eb.2
    rw [if_neg (by rw [hea1]; exact ok.ht_ne)]
    show (if eb.1 = s.tailId then some eb.2 else lkp rest s.tailId) = some eb.2
    rw [if_pos heb1]
  have hak : ea.2.key = 0 := by
    have := rep.head_key
    rw [ndOf_lkp hlkp_head] at this
    exact this
  have hav : ea.2.val = 0 := by
    have := rep.head_val
    rw [ndOf_lkp hlkp_head] at this
    exact this
  have hah : ea.2.height = 20 := by
    have := rep.head_hgt
    rw [ndOf_lkp hlkp_head] at this
    exact this
  have hab : ea.2.backward = none := by
    have := rep.head_bwd
    rw [ndOf_lkp hlkp_head] at this
    exact this
  have aflen : ea.2.forwards.length = 20 := by
    have := ok.head_len
    rw [ndOf_lkp hlkp_head] at this
    exact this
  have hbk : eb.2.key = 0 := by
    have := rep.tail_key
    rw [ndOf_lkp hlkp_tail] at this
    exact this
  have hbv : eb.2.val = 0 := by
    have := rep.tail_val
    rw [ndOf_lkp hlkp_tail] at this
    exact this
  have hbh : eb.2.height = 20 := by
    have := rep.tail_hgt
    rw [ndOf_lkp hlkp_tail] at this
    exact this
  have hbfwd : eb.2.forwards = List.replicate 20 none := by
    have := rep.tail_fwd
    rw [ndOf_lkp hlkp_tail] at this
    exact this
  have hchain0 := ok.links 0 (by omega)
  have hlvl0 : lvl s L 0 = L := by
    rw [lvl]
    apply List.filter_eq_self.mpr
    intro q hq
    simp only [decide_eq_true_eq]
    exact ok.hpos q hq
  rw [hlvl0] at hchain0
  have hmem0 : (L.headD s.tailId) ∈ (L ++ [s.tailId]).head? := by
    rw [head?_append_one]
    exact Option.mem_def.mpr rfl
  have hstep0 : stepsTo s 0 s.headId (L.headD s.tailId) :=
    (List.chain'_cons'.mp hchain0).1 _ hmem0
  have hstep0' : fwdF s s.headId 0 = some (some (L.headD s.tailId)) := hstep0
  have hchainL : List.Chain' (stepsTo s 0) (L ++ [s.tailId]) :=
    (List.chain'_cons'.mp hchain0).2
  have hC := clearLoop_run L (s.heap.length - L.length) s hchainL
    (fun q hq => ⟨fun hEq => ok.tail_nmem (hEq ▸ hq), ok.memL q hq⟩) ok.nodupL
  have hheap_s1 : L.foldl delAt s.heap = [ea, eb] := by
    rw [foldl_delAt_eq_filter, hheap1, List.filter_cons, List.filter_cons]
    rw [if_pos (by simp only [decide_eq_true_eq]; rw [hea1]; exact ok.head_nmem)]
    rw [if_pos (by simp only [decide_eq_true_eq]; rw [heb1]; exact ok.tail_nmem)]
    rw [List.filter_eq_nil.mpr (fun e he => by
      simp only [decide_eq_true_eq, not_not]
      exact hrest e.1 (hmap ▸ List.mem_map_of_mem Prod.fst he))]
  rw [hheap_s1] at hC
  have hnS1 : lkp ({ s with heap := [ea, eb] } : SL).heap
      ({ s with heap := [ea, eb] } : SL).headId = some ea.2 := by
    show (if ea.1 = s.headId then some ea.2 else lkp [eb] s.headId) = some ea.2
    rw [if_pos hea1]
  have huniqS1 : ∀ e ∈ ({ s with heap := [ea, eb] } : SL).heap,
      e.1 = ({ s with heap := [ea, eb] } : SL).headId → e.2 = ea.2 := by
    intro e he hx
    rcases List.mem_cons.mp he with hc | hc
    · rw [hc]
    · have hceb : e = eb := by simpa using hc
      rw [hceb] at hx
      exact absurd (heb1 ▸ hx) (Ne.symm ok.ht_ne)
  obtain ⟨fl', hfl'len, hfl'new, _, hloopR⟩ := relinkLoop_heap 20 0
    ({ s with heap := [ea, eb] } : SL) ea.2 rfl hnS1 aflen huniqS1
  have hfl1 : fl' = List.replicate 20 (some 1) := by
    apply List.ext_get?
    intro m
    rcases Nat.lt_or_ge m 20 with hm | hm
    · rw [hfl'new m (by omega) hm, get?_replicate_lt (some 1) 20 m hm]
      rw [show ({ s with heap := [ea, eb] } : SL).tailId = s.tailId from rfl,
        rep.tid]
    · rw [List.get?_len_le (by rw [hfl'len]; omega),
        List.get?_len_le (by simp only [List.length_replicate]; omega)]
  have hupd : updAt [ea, eb] s.headId (fun m => { m with forwards := fl' })
      = [(ea.1, { ea.2 with forwards := fl' }), eb] := by
    show List.map _ [ea, eb] = _
    simp only [List.map_cons, List.map_nil]
    rw [if_pos hea1, if_neg (by rw [heb1]; exact Ne.symm ok.ht_ne)]
  have hlkp_tail2 : lkp [(ea.1, { ea.2 with forwards := fl' }), eb] s.tailId
      = some eb.2 := by
    show (if ea.1 = s.tailId then some { ea.2 with forwards := fl' }
      else lkp [eb] s.tailId) = some eb.2
    rw [if_neg (by rw [hea1]; exact ok.ht_ne)]
    show (if eb.1 = s.tailId then some eb.2 else lkp [] s.tailId) = some eb.2
    rw [if_pos heb1]
  have hupd2 : updAt [(ea.1, { ea.2 with forwards := fl' }), eb] s.tailId
      (fun m => { m with backward := some s.headId })
      = [(ea.1, { ea.2 with forwards := fl' }),
         (eb.1, { eb.2 with backward := some s.headId })] := by
    show List.map _ _ = _
    simp only [List.map_cons, List.map_nil]
    rw [if_neg (by show ea.1 ≠ s.tailId; rw [hea1]; exact ok.ht_ne),
      if_pos heb1]
  have ha' : ({ ea.2 with forwards := fl' } : SNode)
      = ⟨0, 0, 20, List.replicate 20 (some 1), none⟩ := by
    show SNode.mk ea.2.key ea.2.val ea.2.height fl' ea.2.backward = _
    rw [hak, hav, hah, hab, hfl1]
  have hb' : ({ eb.2 with backward := some s.headId } : SNode)
      = ⟨0, 0, 20, List.replicate 20 none, some 0⟩ := by
    show SNode.mk eb.2.key eb.2.val eb.2.height eb.2.forwards (some s.headId) = _
    rw [hbk, hbv, hbh, hbfwd, rep.hid]
  simp only [clearOp]
  rw [hstep0']
  show (match clearLoop (s.heap.length + 1) s (some (L.headD s.tailId)) with
    | none => none
    | some s1 =>
      match relinkLoop s1 0 20 with
      | none => none
      | some s2 =>
        match setB s2 s2.tailId (some s2.headId) with
        | none => none
        | some s3 => some { s3 with size := 0 })
    = some { initSL with nextId := s.nextId }
  rw [show s.heap.length + 1 = L.length + 1 + (s.heap.length - L.length) from by
    have := ok.len_lt
    omega]
  rw [hC]
  show (match relinkLoop ({ s with heap := [ea, eb] } : SL) 0 20 with
    | none => none
    | some s2 =>
      match setB s2 s2.tailId (some s2.headId) with
      | none => none
      | some s3 => some { s3 with size := 0 })
    = some { initSL with nextId := s.nextId }
  rw [hloopR]
  show (match setB ({ s with heap :=
      (updAt [ea, eb] s.headId (fun m => { m with forwards := fl' })) } : SL)
      s.tailId (some s.headId) with
    | none => none
    | some s3 => some { s3 with size := 0 })
    = some { initSL with nextId := s.nextId }
  rw [hupd]
  rw [setB_some (show lkp ({ s with heap :=
      [(ea.1, { ea.2 with forwards := fl' }), eb] } : SL).heap s.tailId
      = some eb.2 from hlkp_tail2) (some s.headId)]
  show some ({ s with heap :=
      (updAt [(ea.1, { ea.2 with forwards := fl' }), eb] s.tailId
        (fun m => { m with backward := some s.headId })), size := 0 } : SL)
    = some { initSL with nextId := s.nextId }
  rw [hupd2, ha', hb']
  rw [show ea.1 = 0 from by rw [hea1, rep.hid],
    show eb.1 = 1 from by rw [heb1, rep.tid]]
  show some (SL.mk [(0, ⟨0, 0, 20, List.replicate 20 (some 1), none⟩),
      (1, ⟨0, 0, 20, List.replicate 20 none, some 0⟩)]
      s.headId s.tailId 0 s.nextId)
    = some (SL.mk [(0, ⟨0, 0, 20, List.replicate 20 (some 1), none⟩),
      (1, ⟨0, 0, 20, List.replicate 20 none, some 0⟩)] 0 1 0 s.nextId)
  rw [rep.hid, rep.tid]

/- ===== The invariant holds in every reachable state ===== -/

/-- A freshly constructed container (any allocation counter at least 2)
satisfies the invariant with the empty order. -/
theorem repInv_init (n : Nat) (hn : 2 ≤ n) :
    RepInv { initSL with nextId := n } [] := by
  have hlkp_none : ∀ x, x ≠ 0 → x ≠ 1 →
      lkp ({ initSL with nextId := n } : SL).heap x = none := by
    intro x h0 h1
    show (if 0 = x then some (⟨0, 0, 20, List.replicate 20 (some 1), none⟩ : SNode)
      else lkp [(1, (⟨0, 0, 20, List.replicate 20 none, some 0⟩ : SNode))] x)
      = none
    rw [if_neg (fun hEq => h0 hEq.symm)]
    show (if 1 = x then some (⟨0, 0, 20, List.replicate 20 none, some 0⟩ : SNode)
      else lkp [] x) = none
    rw [if_neg (fun hEq => h1 hEq.symm)]
    rfl
  refine ⟨⟨?_, ?_, ?_, ?_, ?_, ?_, ?_, ?_, ?_, ?_, ?_, ?_, ?_⟩,
    ?_, ?_, ?_, ?_, ?_, ?_, ?_, ?_, ?_, ?_, ?_, ?_, ?_, ?_, ?_, ?_⟩
  · rfl
  · rfl
  · show (0 : Nat) ≠ 1
    decide
  · simp
  · simp
  · exact List.nodup_nil
  · intro q hq
    simp at hq
  · intro q hq
    simp at hq
  · intro q hq
    simp at hq
  · intro q hq
    simp at hq
  · exact List.Pairwise.nil
  · intro i hi
    show List.Chain' (stepsTo ({ initSL with nextId := n } : SL) i)
      (0 :: lvl ({ initSL with nextId := n } : SL) [] i ++ [1])
    rw [show lvl ({ initSL with nextId := n } : SL) [] i = [] from rfl]
    apply List.chain'_cons.mpr
    refine ⟨?_, List.chain'_singleton _⟩
    show fwdF ({ initSL with nextId := n } : SL) 0 i = some (some 1)
    show (List.replicate 20 (some 1)).get? i = some (some 1)
    exact get?_replicate_lt (some 1) 20 i hi
  · show (0 : Nat) < 2
    decide
  · rfl
  · rfl
  · rfl
  · rfl
  · rfl
  · rfl
  · rfl
  · rfl
  · rfl
  · rfl
  · rfl
  · apply List.chain'_cons.mpr
    refine ⟨?_, List.chain'_singleton _⟩
    rfl
  · rfl
  · exact ⟨[], rfl, by simp⟩
  · intro x hx
    show x < n
    by_cases h0 : x = 0
    · omega
    · by_cases h1 : x = 1
      · omega
      · rw [hlkp_none x h0 h1] at hx
        simp at hx
  · intro x
    constructor
    · intro hx
      by_cases h0 : x = 0
      · left; exact h0
      · by_cases h1 : x = 1
        · right; left; exact h1
        · rw [hlkp_none x h0 h1] at hx
          simp at hx
    · intro hx
      rcases hx with hc | hc | hc
      · rw [hc]; rfl
      · rw [hc]; rfl
      · simp at hc

theorem repInv_initSL : RepInv initSL [] := repInv_init 2 (le_refl 2)

/-- Every sorted order splits at a query key: either the key is present at a
unique position, or the order splits into strictly-smaller and
strictly-greater blocks. -/
theorem split_decide (s : SL) (L : List Nat) (rep : RepInv s L) (k : Int) :
    (∃ L₁ r L₂, L = L₁ ++ r :: L₂ ∧ (∀ q ∈ L₁, keyOf s q < k) ∧
      keyOf s r = k ∧ (∀ q ∈ L₂, k < keyOf s q)) ∨
    (∃ L₁ L₂, L = L₁ ++ L₂ ∧ (∀ q ∈ L₁, keyOf s q < k) ∧
      (∀ q ∈ L₂, k < keyOf s q)) := by
  obtain ⟨L₁, L₂, hsplit, hlt, hge⟩ :=
    sorted_split (keyOf s) k L rep.toSearchOK.sorted
  cases hL2 : L₂ with
  | nil =>
    right
    exact ⟨L₁, [], by rw [hsplit, hL2], hlt, by simp⟩
  | cons c cs =>
    have hsorted := rep.toSearchOK.sorted
    rw [hsplit, hL2] at hsorted
    have hcs : ∀ q ∈ cs, keyOf s c < keyOf s q :=
      (List.pairwise_cons.mp (List.pairwise_append.mp hsorted).2.1).1
    have hkc : k ≤ keyOf s c := hge c (by rw [hL2]; exact List.mem_cons_self c cs)
    by_cases hck : keyOf s c = k
    · left
      refine ⟨L₁, c, cs, by rw [hsplit, hL2], hlt, hck, ?_⟩
      intro q hq
      rw [← hck]
      exact hcs q hq
    · right
      refine ⟨L₁, c :: cs, by rw [hsplit, hL2], hlt, ?_⟩
      intro q hq
      rcases List.mem_cons.mp hq with hc | hc
      · rw [hc]
        exact lt_of_le_of_ne hkc (fun hEq => hck hEq.symm)
      · exact lt_of_lt_of_le (lt_of_le_of_ne hkc (fun hEq => hck hEq.symm))
          (le_of_lt (hcs q hc))

/-- The central closure theorem: every state reachable by public operations
satisfies the representation invariant for some stored order. -/
theorem reachable_rep {s : SL} (hs : Reachable s) : ∃ L, RepInv s L := by
  induction hs with
  | init => exact ⟨[], repInv_initSL⟩
  | @insert t s' h k v r b hR h1 h20 hop ih =>
    obtain ⟨L, rep⟩ := ih
    rcases split_decide t L rep k with
      ⟨L₁, rr, L₂, hsplit, hlt, hkr, hgt⟩ | ⟨L₁, L₂, hsplit, hlt, hgt⟩
    · have heq := insertOp_dup t L L₁ L₂ rr k rep hsplit hlt hkr
        (fun q hq => le_of_lt (hgt q hq)) h v
      rw [heq] at hop
      have hinj : (t, rr, false) = (s', r, b) := Option.some.inj hop
      have hts : t = s' := congrArg Prod.fst hinj
      exact ⟨L, hts ▸ rep⟩
    · obtain ⟨s2, heq, hrep, _, _, _, _⟩ :=
        insertOp_new t L L₁ L₂ k v h rep hsplit hlt hgt h1 h20
      rw [heq] at hop
      have hinj : (s2, t.nextId, true) = (s', r, b) := Option.some.inj hop
      have hts : s2 = s' := congrArg Prod.fst hinj
      exact ⟨L₁ ++ t.nextId :: L₂, hts ▸ hrep⟩
  | @bracket t s' h k r hR h1 h20 hop ih =>
    obtain ⟨L, rep⟩ := ih
    rcases split_decide t L rep k with
      ⟨L₁, rr, L₂, hsplit, hlt, hkr, hgt⟩ | ⟨L₁, L₂, hsplit, hlt, hgt⟩
    · have heq := insertOp_dup t L L₁ L₂ rr k rep hsplit hlt hkr
        (fun q hq => le_of_lt (hgt q hq)) h 0
      simp only [bracketOp] at hop
      rw [heq] at hop
      have hop' : some (t, rr) = some (s', r) := hop
      have hinj : (t, rr) = (s', r) := Option.some.inj hop'
      have hts : t = s' := congrArg Prod.fst hinj
      exact ⟨L, hts ▸ rep⟩
    · obtain ⟨s2, heq, hrep, _, _, _, _⟩ :=
        insertOp_new t L L₁ L₂ k 0 h rep hsplit hlt hgt h1 h20
      simp only [bracketOp] at hop
      rw [heq] at hop
      have hop' : some (s2, t.nextId) = some (s', r) := hop
      have hinj : (s2, t.nextId) = (s', r) := Option.some.inj hop'
      have hts : s2 = s' := congrArg Prod.fst hinj
      exact ⟨L₁ ++ t.nextId :: L₂, hts ▸ hrep⟩
  | @emplace t s' h k v r b hR h1 h20 hop ih =>
    obtain ⟨L, rep⟩ := ih
    rcases split_decide t L rep k with
      ⟨L₁, rr, L₂, hsplit, hlt, hkr, hgt⟩ | ⟨L₁, L₂, hsplit, hlt, hgt⟩
    · obtain ⟨s2, heq, _, _, _, _, _, hrep⟩ := emplaceOp_dup t L L₁ L₂ rr k rep
        hsplit hlt hkr (fun q hq => le_of_lt (hgt q hq)) h v
      rw [heq] at hop
      have hinj : (s2, rr, false) = (s', r, b) := Option.some.inj hop
      have hts : s2 = s' := congrArg Prod.fst hinj
      exact ⟨L, hts ▸ hrep⟩
    · obtain ⟨s2, heq, hrep, _, _, _, _⟩ :=
        emplaceOp_new t L L₁ L₂ k v h rep hsplit hlt hgt h1 h20
      rw [heq] at hop
      have hinj : (s2, t.nextId, true) = (s', r, b) := Option.some.inj hop
      have hts : s2 = s' := congrArg Prod.fst hinj
      exact ⟨L₁ ++ t.nextId :: L₂, hts ▸ hrep⟩
  | @eraseKey t s' k hR hop ih =>
    obtain ⟨L, rep⟩ := ih
    rcases split_decide t L rep k with
      ⟨L₁, rr, L₂, hsplit, hlt, hkr, hgt⟩ | ⟨L₁, L₂, hsplit, hlt, hgt⟩
    · obtain ⟨s2, heq, hrep, _, _, _, _, _⟩ :=
        erase_rep t L L₁ L₂ rr k rep hsplit hlt hkr hgt
      rw [heq] at hop
      exact ⟨L₁ ++ L₂, (Option.some.inj hop) ▸ hrep⟩
    · have heq := eraseOp_absent t L L₁ L₂ k rep hsplit hlt hgt
      rw [heq] at hop
      exact ⟨L, (Option.some.inj hop) ▸ rep⟩
  | @eraseIter t s' it nxt hR hit_t hit_h hit_s hop ih =>
    obtain ⟨L, rep⟩ := ih
    have hitL : it ∈ L := by
      rcases (rep.dom it).mp hit_s with hc | hc | hc
      · exact absurd hc hit_h
      · exact absurd hc hit_t
      · exact hc
    obtain ⟨L₁, L₂, hsplit, hlt, hgt⟩ :=
      mem_split_sorted (keyOf t) L it hitL rep.toSearchOK.sorted
    obtain ⟨s2, heq, _, hrep, _, _, _, _⟩ :=
      eraseItOp_run t L L₁ L₂ it rep hsplit hlt hgt
    rw [heq] at hop
    have hinj : (s2, some (L₂.headD t.tailId)) = (s', nxt) :=
      Option.some.inj hop
    have hts : s2 = s' := congrArg Prod.fst hinj
    exact ⟨L₁ ++ L₂, hts ▸ hrep⟩
  | @clear t s' hR hop ih =>
    obtain ⟨L, rep⟩ := ih
    rw [clear_rep t L rep] at hop
    have h2n : 2 ≤ t.nextId := by
      have := rep.fresh t.tailId rep.tail_mem
      rw [rep.tid] at this
      omega
    exact ⟨[], (Option.some.inj hop) ▸ repInv_init t.nextId h2n⟩

/- ===== lower_bound / upper_bound / find ===== -/

/-- lower_bound returns the traversal result: the head of the block of keys
at least k, or tail when that block is empty. -/
theorem lowerBoundOp_run (s : SL) (L L₁ L₂ : List Nat) (k : Int)
    (rep : RepInv s L) (hsplit : L = L₁ ++ L₂)
    (hlt : ∀ q ∈ L₁, keyOf s q < k) (hge : ∀ q ∈ L₂, k ≤ keyOf s q) :
    lowerBoundOp s k = some (some (L₂.headD s.tailId)) := by
  obtain ⟨pr2, hfge, _, _⟩ := fge_spec s L L₁ L₂ k rep.toSearchOK hsplit hlt hge
  simp only [lowerBoundOp]
  rw [hfge]

/-- find of an absent key returns the end iterator. -/
theorem findOp_absent (s : SL) (L L₁ L₂ : List Nat) (k : Int)
    (rep : RepInv s L) (hsplit : L = L₁ ++ L₂)
    (hlt : ∀ q ∈ L₁, keyOf s q < k) (hgt2 : ∀ q ∈ L₂, k < keyOf s q) :
    findOp s k = some s.tailId := by
  have hlb := lowerBoundOp_run s L L₁ L₂ k rep hsplit hlt
    (fun q hq => le_of_lt (hgt2 q hq))
  simp only [findOp]
  rw [hlb]
  cases hL2c : L₂ with
  | nil =>
    show (if s.tailId = s.tailId then some s.tailId
      else match lkp s.heap s.tailId with
        | none => none
        | some nr => if nr.key = k then some s.tailId else some s.tailId)
      = some s.tailId
    rw [if_pos rfl]
  | cons c cs =>
    show (if c = s.tailId then some s.tailId
      else match lkp s.heap c with
        | none => none
        | some nr => if nr.key = k then some c else some s.tailId)
      = some s.tailId
    have hcL : c ∈ L := by
      rw [hsplit, hL2c]
      exact List.mem_append_right _ (List.mem_cons_self _ _)
    have hctail : c ≠ s.tailId := fun hEq => rep.toSearchOK.tail_nmem (hEq ▸ hcL)
    obtain ⟨nc, hnc⟩ := Option.isSome_iff_exists.mp (rep.toSearchOK.memL c hcL)
    have hkc : k < nc.key := by
      rw [← keyOf_lkp hnc]
      exact hgt2 c (by rw [hL2c]; exact List.mem_cons_self _ _)
    rw [if_neg hctail, hnc]
    show (if nc.key = k then some c else some s.tailId) = some s.tailId
    rw [if_neg (by intro hEq; rw [hEq] at hkc; exact lt_irrefl k hkc)]

/-- The level-0 forward of a stored node is the next stored node (or tail). -/
theorem fwd0_mid (s : SL) (L L₁ L₂ : List Nat) (r : Nat) (rep : RepInv s L)
    (hsplit : L = L₁ ++ r :: L₂) :
    fwdF s r 0 = some (some (L₂.headD s.tailId)) := by
  have ok := rep.toSearchOK
  have hchain := ok.links 0 (by omega)
  have hlvl0 : lvl s L 0 = L := by
    rw [lvl]
    apply List.filter_eq_self.mpr
    intro q hq
    simp only [decide_eq_true_eq]
    exact ok.hpos q hq
  rw [hlvl0, hsplit, show s.headId :: (L₁ ++ r :: L₂) ++ [s.tailId]
      = (s.headId :: L₁) ++ (r :: (L₂ ++ [s.tailId])) from by simp] at hchain
  have h2 := (List.chain'_append.mp hchain).2.1
  have hmem0 : (L₂.headD s.tailId) ∈ (L₂ ++ [s.tailId]).head? := by
    rw [head?_append_one]
    exact Option.mem_def.mpr rfl
  exact (List.chain'_cons'.mp h2).1 _ hmem0

/- ===== A concrete non-trivial state: insert (5, 7) into a fresh container ===== -/

def S1 : SL :=
  { heap := [(0, ⟨0, 0, 20, some 2 :: List.replicate 19 (some 1), none⟩),
             (1, ⟨0, 0, 20, List.replicate 20 none, some 2⟩),
             (2, ⟨5, 7, 1, [some 1], some 0⟩)],
    headId := 0, tailId := 1, size := 1, nextId := 3 }

theorem S1_insert : insertOp initSL 1 5 7 = some (S1, 2, true) := by decide

theorem S1_reachable : Reachable S1 :=
  Reachable.insert Reachable.init (by decide) (by decide) S1_insert

theorem S1_rep : RepInv S1 [2] := by
  obtain ⟨s2, heq, hrep, _, _, _, _⟩ := insertOp_new initSL [] [] [] 5 7 1
    repInv_initSL rfl (by simp) (by simp) (by omega) (by omega)
  have h2 : some (s2, initSL.nextId, true) = some (S1, 2, true) := by
    rw [← heq, S1_insert]
  have h3 : s2 = S1 := congrArg Prod.fst (Option.some.inj h2)
  exact h3 ▸ hrep

/- ===== The claims ===== -/

/-- Claim C1: in every state reachable by public operations from a fresh
container, following forward(0) from head to tail yields the stored nodes in
strictly increasing key order (hence with no duplicate keys), following the
backward pointers from tail yields the exact reverse of that sequence, and the
maintained size counter equals the number of non-sentinel nodes. -/
theorem claim_C1 (s : SL) (hs : Reachable s) :
    ∃ L, toListFwd s = some L ∧
      L.Pairwise (fun a b => keyOf s a < keyOf s b) ∧
      toListBwd s = some L.reverse ∧
      s.size = L.length := by
  obtain ⟨L, rep⟩ := reachable_rep hs
  exact ⟨L, toListFwd_rep s L rep, rep.toSearchOK.sorted,
    toListBwd_rep s L rep, rep.size_eq⟩

theorem claim_C1_witness :
    ∃ L, toListFwd S1 = some L ∧
      L.Pairwise (fun a b => keyOf S1 a < keyOf S1 b) ∧
      toListBwd S1 = some L.reverse ∧
      S1.size = L.length :=
  claim_C1 S1 S1_reachable

/-- Claim C2: the claim says random_height always returns h with
1 ≤ h < kMaxHeight = 20.  The code is wrong: its loop guard is
`height < kMaxHeight`, so height can be incremented from 19 to 20 (whenever
19 consecutive draws are divisible by 4, e.g. the all-zero draw stream), and
then `assert(height < kMaxHeight)` is violated.  The embedded generator
returns 20 on that stream, falsifying the cap. -/
theorem claim_C2 :
    randomHeight (fun _ => 0) = 20 ∧
      ¬ (randomHeight (fun _ => 0) < kMaxHeight) := by decide

/-- Claim C3: inserting a key that is already stored returns the existing
node's position with inserted = false and leaves the container state literally
unchanged: no allocation, same size, same stored values, every element
untouched. -/
theorem claim_C3 (s : SL) (L : List Nat) (r : Nat) (k v : Int) (h : Nat)
    (rep : RepInv s L) (hr : r ∈ L) (hk : keyOf s r = k) :
    insertOp s h k v = some (s, r, false) := by
  obtain ⟨L₁, L₂, hsplit, hlt, hgt⟩ :=
    mem_split_sorted (keyOf s) L r hr rep.toSearchOK.sorted
  exact insertOp_dup s L L₁ L₂ r k rep hsplit
    (fun q hq => hk ▸ hlt q hq) hk
    (fun q hq => le_of_lt (hk ▸ hgt q hq)) h v

theorem claim_C3_witness : insertOp S1 1 5 9 = some (S1, 2, false) :=
  claim_C3 S1 [2] 2 5 9 1 S1_rep (by decide) (by decide)

/-- Claim C4: erase by key.  If k is absent the call is a no-op returning the
state unchanged.  If k is stored at node r, the call removes exactly that
element: the level-0 order drops r and keeps everything else (with keys and
values unchanged), size decreases by one, and a subsequent find(k) returns the
end iterator. -/
theorem claim_C4 (s : SL) (L : List Nat) (k : Int) (rep : RepInv s L) :
    ((∀ q ∈ L, keyOf s q ≠ k) → eraseOp s k = some s) ∧
    (∀ L₁ r L₂, L = L₁ ++ r :: L₂ → keyOf s r = k →
      ∃ s', eraseOp s k = some s' ∧ s'.size = s.size - 1 ∧
        toListFwd s' = some (L₁ ++ L₂) ∧ findOp s' k = some s'.tailId ∧
        (∀ q ∈ L₁ ++ L₂, keyOf s' q = keyOf s q ∧
          (ndOf s' q).val = (ndOf s q).val)) := by
  constructor
  · intro habs
    rcases split_decide s L rep k with
      ⟨L₁, rr, L₂, hsplit, _, hkr, _⟩ | ⟨L₁, L₂, hsplit, hlt, hgt⟩
    · exact absurd hkr (habs rr (by
        rw [hsplit]
        exact List.mem_append_right _ (List.mem_cons_self _ _)))
    · exact eraseOp_absent s L L₁ L₂ k rep hsplit hlt hgt
  · intro L₁ r L₂ hsplit hkr
    have hs0 := rep.toSearchOK.sorted
    rw [hsplit] at hs0
    obtain ⟨hp1, hp2, hcr⟩ := List.pairwise_append.mp hs0
    have hlt : ∀ q ∈ L₁, keyOf s q < k :=
      fun q hq => hkr ▸ hcr q hq r (List.mem_cons_self r L₂)
    have hgt : ∀ q ∈ L₂, k < keyOf s q :=
      fun q hq => hkr ▸ (List.pairwise_cons.mp hp2).1 q hq
    obtain ⟨s', hop, hrep, hh, ht2, hsz, hnx, hpres⟩ :=
      erase_rep s L L₁ L₂ r k rep hsplit hlt hkr hgt
    refine ⟨s', hop, hsz, toListFwd_rep s' (L₁ ++ L₂) hrep, ?_, hpres⟩
    apply findOp_absent s' (L₁ ++ L₂) L₁ L₂ k hrep rfl
    · intro q hq
      rw [(hpres q (List.mem_append_left _ hq)).1]
      exact hlt q hq
    · intro q hq
      rw [(hpres q (List.mem_append_right _ hq)).1]
      exact hgt q hq

theorem claim_C4_witness :
    ((∀ q ∈ [2], keyOf S1 q ≠ 5) → eraseOp S1 5 = some S1) ∧
    (∀ L₁ r L₂, [2] = L₁ ++ r :: L₂ → keyOf S1 r = 5 →
      ∃ s', eraseOp S1 5 = some s' ∧ s'.size = S1.size - 1 ∧
        toListFwd s' = some (L₁ ++ L₂) ∧ findOp s' 5 = some s'.tailId ∧
        (∀ q ∈ L₁ ++ L₂, keyOf s' q = keyOf S1 q ∧
          (ndOf s' q).val = (ndOf S1 q).val)) :=
  claim_C4 S1 [2] 5 S1_rep

/-- Claim C5: erase by iterator.  For an iterator at a stored element, the
level-0 successor is captured first (it is exactly the element's forward(0)),
the element is erased by its key, and the call returns the erased-by-key state
together with an iterator at the next surviving element (or end when the
element was last). -/
theorem claim_C5 (s : SL) (L L₁ L₂ : List Nat) (it : Nat) (rep : RepInv s L)
    (hsplit : L = L₁ ++ it :: L₂) :
    ∃ s', eraseItOp s it = some (s', some (L₂.headD s.tailId)) ∧
      eraseOp s (keyOf s it) = some s' ∧ toListFwd s' = some (L₁ ++ L₂) ∧
      fwdF s it 0 = some (some (L₂.headD s.tailId)) := by
  have hs0 := rep.toSearchOK.sorted
  rw [hsplit] at hs0
  obtain ⟨hp1, hp2, hcr⟩ := List.pairwise_append.mp hs0
  have hlt : ∀ q ∈ L₁, keyOf s q < keyOf s it :=
    fun q hq => hcr q hq it (List.mem_cons_self it L₂)
  have hgt : ∀ q ∈ L₂, keyOf s it < keyOf s q :=
    fun q hq => (List.pairwise_cons.mp hp2).1 q hq
  obtain ⟨s', heq, hopE, hrep, _, _, _, _⟩ :=
    eraseItOp_run s L L₁ L₂ it rep hsplit hlt hgt
  exact ⟨s', heq, hopE, toListFwd_rep s' (L₁ ++ L₂) hrep,
    fwd0_mid s L L₁ L₂ it rep hsplit⟩

theorem claim_C5_witness :
    ∃ s', eraseItOp S1 2 = some (s', some (([] : List Nat).headD S1.tailId)) ∧
      eraseOp S1 (keyOf S1 2) = some s' ∧ toListFwd s' = some ([] ++ []) ∧
      fwdF S1 2 0 = some (some (([] : List Nat).headD S1.tailId)) :=
  claim_C5 S1 [2] [] [] 2 S1_rep rfl

/-- Claim C6: clear() releases every stored node, relinks the sentinels
directly to each other at every level with tail's backward at head, resets
the counter, and leaves the arena in exactly the freshly-constructed shape;
clearing the resulting empty container returns it unchanged and does not
fault. -/
theorem claim_C6 (s : SL) (L : List Nat) (rep : RepInv s L) :
    ∃ s', clearOp s = some s' ∧ s'.heap = initSL.heap ∧
      s'.headId = initSL.headId ∧ s'.tailId = initSL.tailId ∧ s'.size = 0 ∧
      toListFwd s' = some [] ∧ clearOp s' = some s' := by
  have h2n : 2 ≤ s.nextId := by
    have := rep.fresh s.tailId rep.tail_mem
    rw [rep.tid] at this
    omega
  have hrep' := repInv_init s.nextId h2n
  refine ⟨{ initSL with nextId := s.nextId }, clear_rep s L rep, rfl, rfl, rfl,
    rfl, toListFwd_rep _ [] hrep', ?_⟩
  exact clear_rep { initSL with nextId := s.nextId } [] hrep'

theorem claim_C6_witness :
    ∃ s', clearOp S1 = some s' ∧ s'.heap = initSL.heap ∧
      s'.headId = initSL.headId ∧ s'.tailId = initSL.tailId ∧ s'.size = 0 ∧
      toListFwd s' = some [] ∧ clearOp s' = some s' :=
  claim_C6 S1 [2] S1_rep

/-- Claim C8: on every reachable state the level-indexed for-loop traversal of
skiplist.hpp and the single-walk while(true) traversal of part_000 succeed and
return the same node (the first node with key at least the query, or tail)
with the same recorded predecessor at every level. -/
theorem claim_C8 (s : SL) (k : Int) (hs : Reachable s) :
    fge s k = fgeW s k ∧
      ∃ r prevs, fge s k = some (some r, prevs) ∧
        fgeW s k = some (some r, prevs) := by
  obtain ⟨L, rep⟩ := reachable_rep hs
  have heq := fge_eq_fgeW s L rep.toSearchOK k
  obtain ⟨L₁, L₂, hsplit, hlt, hge⟩ :=
    sorted_split (keyOf s) k L rep.toSearchOK.sorted
  obtain ⟨pr2, hfge, _, _⟩ := fge_spec s L L₁ L₂ k rep.toSearchOK hsplit hlt hge
  exact ⟨heq, L₂.headD s.tailId, pr2, hfge, by rw [← heq]; exact hfge⟩

theorem claim_C8_witness :
    fge S1 5 = fgeW S1 5 ∧
      ∃ r prevs, fge S1 5 = some (some r, prevs) ∧
        fgeW S1 5 = some (some r, prevs) :=
  claim_C8 S1 5 S1_reachable

/-- Claim C9: emplace of a key that is already stored discards the freshly
constructed node (the arena returns to exactly the old entries), reports the
existing position with inserted = false, and leaves size and every stored
key/value pair unchanged. -/
theorem claim_C9 (s : SL) (L : List Nat) (r : Nat) (k v : Int) (h : Nat)
    (rep : RepInv s L) (hr : r ∈ L) (hk : keyOf s r = k) :
    ∃ s', emplaceOp s h k v = some (s', r, false) ∧ s'.heap = s.heap ∧
      s'.size = s.size := by
  obtain ⟨L₁, L₂, hsplit, hlt, hgt⟩ :=
    mem_split_sorted (keyOf s) L r hr rep.toSearchOK.sorted
  obtain ⟨s', heq, hheap, _, _, hsz, _, _⟩ := emplaceOp_dup s L L₁ L₂ r k rep
    hsplit (fun q hq => hk ▸ hlt q hq) hk
    (fun q hq => le_of_lt (hk ▸ hgt q hq)) h v
  exact ⟨s', heq, hheap, hsz⟩

theorem claim_C9_witness :
    ∃ s', emplaceOp S1 1 5 9 = some (s', 2, false) ∧ s'.heap = S1.heap ∧
      s'.size = S1.size :=
  claim_C9 S1 [2] 2 5 9 1 S1_rep (by decide) (by decide)

/-- Claim C10: in every reachable state every forward pointer of the tail
sentinel is null: its forward array is exactly twenty nulls, so the level-0
destructor walk of part_000 finds its terminator. -/
theorem claim_C10 (s : SL) (hs : Reachable s) :
    (ndOf s s.tailId).forwards = List.replicate 20 none ∧
      ∀ i, i < 20 → (ndOf s s.tailId).forwards.get? i = some none := by
  obtain ⟨L, rep⟩ := reachable_rep hs
  refine ⟨rep.tail_fwd, ?_⟩
  intro i hi
  rw [rep.tail_fwd]
  exact get?_replicate_lt none 20 i hi

theorem claim_C10_witness :
    (ndOf S1 S1.tailId).forwards = List.replicate 20 none ∧
      ∀ i, i < 20 → (ndOf S1 S1.tailId).forwards.get? i = some none :=
  claim_C10 S1 S1_reachable

/-- Claim C7: lower_bound(k) returns the element with the smallest stored key
at least k (end() when none exists), and upper_bound(k) returns the element
with the smallest stored key strictly greater than k (lower_bound advanced one
step when the found key equals k), or end() when none. -/
theorem claim_C7 (s : SL) (L : List Nat) (k : Int) (rep : RepInv s L) :
    ∃ res res2, lowerBoundOp s k = some res ∧ upperBoundOp s k = some res2 ∧
      ((res = some s.tailId ∧ ∀ q ∈ L, keyOf s q < k) ∨
        (∃ r, res = some r ∧ r ∈ L ∧ k ≤ keyOf s r ∧
          ∀ q ∈ L, k ≤ keyOf s q → keyOf s r ≤ keyOf s q)) ∧
      ((res2 = some s.tailId ∧ ∀ q ∈ L, keyOf s q ≤ k) ∨
        (∃ r2, res2 = some r2 ∧ r2 ∈ L ∧ k < keyOf s r2 ∧
          ∀ q ∈ L, k < keyOf s q → keyOf s r2 ≤ keyOf s q)) := by
  have ok := rep.toSearchOK
  rcases split_decide s L rep k with
    ⟨L₁, r, L₂, hsplit, hlt, hkr, hgt⟩ | ⟨L₁, L₂, hsplit, hlt, hgt⟩
  · -- k is present at r
    have hge : ∀ q ∈ r :: L₂, k ≤ keyOf s q := by
      intro q hq
      rcases List.mem_cons.mp hq with hc | hc
      · rw [hc, hkr]
      · exact le_of_lt (hgt q hc)
    have hlb := lowerBoundOp_run s L L₁ (r :: L₂) k rep hsplit hlt hge
    have hlb' : lowerBoundOp s k = some (some r) := hlb
    have hrL : r ∈ L := by
      rw [hsplit]
      exact List.mem_append_right _ (List.mem_cons_self _ _)
    have hrtail : r ≠ s.tailId := fun hEq => ok.tail_nmem (hEq ▸ hrL)
    obtain ⟨nr, hnr⟩ := Option.isSome_iff_exists.mp (ok.memL r hrL)
    have hnrk : nr.key = k := by rw [← hkr, keyOf_lkp hnr]
    have hfwd := fwd0_mid s L L₁ L₂ r rep hsplit
    have hub : upperBoundOp s k = some (some (L₂.headD s.tailId)) := by
      simp only [upperBoundOp]
      rw [hlb']
      show (if r = s.tailId then some (some r)
        else match lkp s.heap r with
          | none => none
          | some nr => if nr.key = k then fwdF s r 0 else some (some r))
        = some (some (L₂.headD s.tailId))
      rw [if_neg hrtail, hnr]
      show (if nr.key = k then fwdF s r 0 else some (some r))
        = some (some (L₂.headD s.tailId))
      rw [if_pos hnrk, hfwd]
    have hp2 : (r :: L₂).Pairwise (fun a b => keyOf s a < keyOf s b) := by
      have hs0 := ok.sorted
      rw [hsplit] at hs0
      exact (List.pairwise_append.mp hs0).2.1
    refine ⟨some r, some (L₂.headD s.tailId), hlb', hub,
      Or.inr ⟨r, rfl, hrL, le_of_eq hkr.symm, ?_⟩, ?_⟩
    · intro q hq hqk
      rw [hkr]
      exact hqk
    · cases hL2c : L₂ with
      | nil =>
        left
        refine ⟨rfl, ?_⟩
        intro q hq
        rw [hsplit, hL2c] at hq
        rcases List.mem_append.mp hq with hc | hc
        · exact le_of_lt (hlt q hc)
        · rcases List.mem_cons.mp hc with hc2 | hc2
          · exact le_of_eq (by rw [hc2, hkr])
          · simp at hc2
      | cons c cs =>
        right
        rw [hL2c] at hp2
        have hcs : ∀ q ∈ cs, keyOf s c < keyOf s q :=
          (List.pairwise_cons.mp (List.pairwise_cons.mp hp2).2).1
        refine ⟨c, rfl, ?_, ?_, ?_⟩
        · rw [hsplit, hL2c]
          exact List.mem_append_right _
            (List.mem_cons_of_mem _ (List.mem_cons_self _ _))
        · exact hgt c (by rw [hL2c]; exact List.mem_cons_self _ _)
        · intro q hq hqk
          rw [hsplit, hL2c] at hq
          rcases List.mem_append.mp hq with hc | hc
          · exact absurd hqk (not_lt_of_le (le_of_lt (hlt q hc)))
          · rcases List.mem_cons.mp hc with hc2 | hc2
            · rw [hc2, hkr] at hqk
              exact absurd hqk (lt_irrefl k)
            · rcases List.mem_cons.mp hc2 with hc3 | hc3
              · exact le_of_eq (by rw [hc3])
              · exact le_of_lt (hcs q hc3)
  · -- k is absent
    have hlb := lowerBoundOp_run s L L₁ L₂ k rep hsplit hlt
      (fun q hq => le_of_lt (hgt q hq))
    cases hL2c : L₂ with
    | nil =>
      rw [hL2c] at hlb hsplit hgt
      have hlb' : lowerBoundOp s k = some (some s.tailId) := hlb
      have hub : upperBoundOp s k = some (some s.tailId) := by
        simp only [upperBoundOp]
        rw [hlb']
        show (if s.tailId = s.tailId then some (some s.tailId)
          else match lkp s.heap s.tailId with
            | none => none
            | some nr => if nr.key = k then fwdF s s.tailId 0
              else some (some s.tailId)) = some (some s.tailId)
        rw [if_pos rfl]
      have hall : ∀ q ∈ L, keyOf s q < k := by
        intro q hq
        rw [hsplit] at hq
        rcases List.mem_append.mp hq with hc | hc
        · exact hlt q hc
        · simp at hc
      exact ⟨some s.tailId, some s.tailId, hlb', hub, Or.inl ⟨rfl, hall⟩,
        Or.inl ⟨rfl, fun q hq => le_of_lt (hall q hq)⟩⟩
    | cons c cs =>
      rw [hL2c] at hlb hsplit hgt
      have hlb' : lowerBoundOp s k = some (some c) := hlb
      have hcL : c ∈ L := by
        rw [hsplit]
        exact List.mem_append_right _ (List.mem_cons_self _ _)
      have hctail : c ≠ s.tailId := fun hEq => ok.tail_nmem (hEq ▸ hcL)
      obtain ⟨nc, hnc⟩ := Option.isSome_iff_exists.mp (ok.memL c hcL)
      have hkckey : k < keyOf s c := hgt c (List.mem_cons_self c cs)
      have hkc : k < nc.key := by rw [← keyOf_lkp hnc]; exact hkckey
      have hub : upperBoundOp s k = some (some c) := by
        simp only [upperBoundOp]
        rw [hlb']
        show (if c = s.tailId then some (some c)
          else match lkp s.heap c with
            | none => none
            | some nr => if nr.key = k then fwdF s c 0 else some (some c))
          = some (some c)
        rw [if_neg hctail, hnc]
        show (if nc.key = k then fwdF s c 0 else some (some c)) = some (some c)
        rw [if_neg (by intro hEq; rw [hEq] at hkc; exact lt_irrefl k hkc)]
      have hcs : ∀ q ∈ cs, keyOf s c < keyOf s q := by
        have hs0 := ok.sorted
        rw [hsplit] at hs0
        exact (List.pairwise_cons.mp (List.pairwise_append.mp hs0).2.1).1
      have hminc : ∀ q ∈ L, keyOf s c ≤ keyOf s q ∨ keyOf s q < k := by
        intro q hq
        rw [hsplit] at hq
        rcases List.mem_append.mp hq with hc | hc
        · exact Or.inr (hlt q hc)
        · rcases List.mem_cons.mp hc with hc2 | hc2
          · exact Or.inl (le_of_eq (by rw [hc2]))
          · exact Or.inl (le_of_lt (hcs q hc2))
      refine ⟨some c, some c, hlb', hub,
        Or.inr ⟨c, rfl, hcL, le_of_lt hkckey, ?_⟩,
        Or.inr ⟨c, rfl, hcL, hkckey, ?_⟩⟩
      · intro q hq hqk
        rcases hminc q hq with hc | hc
        · exact hc
        · exact absurd hqk (not_le_of_lt hc)
      · intro q hq hqk
        rcases hminc q hq with hc | hc
        · exact hc
        · exact absurd hqk (not_lt_of_le (le_of_lt hc))

theorem claim_C7_witness :
    ∃ res res2, lowerBoundOp S1 5 = some res ∧ upperBoundOp S1 5 = some res2 ∧
      ((res = some S1.tailId ∧ ∀ q ∈ [2], keyOf S1 q < 5) ∨
        (∃ r, res = some r ∧ r ∈ [2] ∧ 5 ≤ keyOf S1 r ∧
          ∀ q ∈ [2], 5 ≤ keyOf S1 q → keyOf S1 r ≤ keyOf S1 q)) ∧
      ((res2 = some S1.tailId ∧ ∀ q ∈ [2], keyOf S1 q ≤ 5) ∨
        (∃ r2, res2 = some r2 ∧ r2 ∈ [2] ∧ 5 < keyOf S1 r2 ∧
          ∀ q ∈ [2], 5 < keyOf S1 q → keyOf S1 r2 ≤ keyOf S1 q)) :=
  claim_C7 S1 [2] 5 S1_rep
